import Mathlib

/-!
Verification development for the `ahocorasick` Go package (files
`ahocorasick.go`, `enum_hit_type.go`).

The Go code is shallowly embedded: Go `[]byte` values ("blices") become
`List Nat` (each element a byte value 0..255), Go `string` values become the
`List Nat` of their bytes, pointers into the preallocated `trie` arena become
`Nat` indices into a `List Node` (the root is always index 0, as in the Go
code where `m.root = &m.trie[0]`), and a nil pointer becomes `none`.
Go loops whose termination is not structural are given explicit fuel; the
fuel is always at least the number of allocated trie nodes, which the
development proves is enough for every matcher built by `NewMatcher`.
A result of `none` from a scan models a run in which the Go original would
dereference a nil pointer or fail to terminate; the totality theorems show
this never happens for built matchers.
-/

namespace Ahocorasick

/-- A node in the trie structure used to implement Aho-Corasick
(struct `node` in ahocorasick.go).  The Go zero value of the struct is the
default value here: `child` entries and the `fail`/`suffix` pointers start
nil (`none`), flags start `false`, numbers start `0`. -/
structure Node where
  root : Bool := false
  b : List Nat := []
  output : Bool := false
  index : Nat := 0
  counter : Nat := 0
  child : Nat → Option Nat := fun _ => none
  fail : Option Nat := none
  suffix : Option Nat := none

/-- Reading `trie[i]`.  Out-of-range reads return the zero-value node; the
Go original never reads out of range for built matchers. -/
def nodeAt (t : List Node) (i : Nat) : Node := t.getD i {}

/-- Writing the `counter` field of `trie[s]` (the only node mutation the
scan loops perform: `f.counter = m.counter`). -/
def stampNode (t : List Node) (s : Nat) (cnt : Nat) : List Node :=
  t.set s { nodeAt t s with counter := cnt }

/-- `findBlice`, the inner loop: `for n != nil && len(b) > 0 { n = n.child[b[0]]; b = b[1:] }`. -/
def findBliceFrom (t : List Node) : Option Nat → List Nat → Option Nat
  | n, [] => n
  | none, _ :: _ => none
  | some i, c :: bs => findBliceFrom t ((nodeAt t i).child c) bs

/-- `findBlice` looks for a blice in the trie starting from the root and
returns the node representing the end of the blice, or `none` (Go nil) if
the blice is not in the trie. -/
def findBlice (t : List Node) (bs : List Nat) : Option Nat :=
  findBliceFrom t (some 0) bs

/-- Updating the `child` array of `trie[n]` at byte `bb`
(`n.child[int(b)] = c` in `buildTrie`). -/
def setChild (t : List Node) (n : Nat) (bb : Nat) (c : Nat) : List Node :=
  t.set n { nodeAt t n with
    child := fun x => if x = bb then some c else (nodeAt t n).child x }

/-- The inner byte loop of `buildTrie`'s insertion phase: walk the pattern's
bytes from node `n`, creating missing children.  A freshly created node gets
`b` = the path so far, `suffix` = root, and, when the path has length 1,
`fail` = root (children of the root fail to the root) — exactly the fields
the Go code sets at creation time.  New nodes are appended at index
`t.length`, matching `getFreeNode`'s sequential allocation (the Go arena is
preallocated and trimmed to `extent` afterwards, so the post-trim array is
this list).  Returns the updated trie and the node of the full pattern. -/
def insertBytes (t : List Node) (n : Nat) (path : List Nat) :
    List Nat → List Node × Nat
  | [] => (t, n)
  | bb :: rest =>
    let path' := path ++ [bb]
    match (nodeAt t n).child bb with
    | some c => insertBytes t c path' rest
    | none =>
      let c := t.length
      let newNode : Node :=
        { b := path'
          fail := if path'.length = 1 then some 0 else none
          suffix := some 0 }
      insertBytes (setChild (t ++ [newNode]) n bb c) c path' rest

/-- One iteration of `for i, blice := range dictionary`: insert the pattern
and mark its final node as output with the dictionary index
(`n.output = true; n.index = i`). -/
def insertEntry (t : List Node) (i : Nat) (blice : List Nat) : List Node :=
  let p := insertBytes t 0 [] blice
  p.1.set p.2 { nodeAt p.1 p.2 with output := true, index := i }

/-- The whole insertion loop of `buildTrie`, carrying the running
dictionary index `i`. -/
def insertEntries (t : List Node) (i : Nat) : List (List Nat) → List Node
  | [] => t
  | blice :: rest => insertEntries (insertEntry t i blice) (i + 1) rest

/-- The fail-search loop of `buildTrie`'s breadth-first phase:
`for j := 1; j < len(c.b); j++ { c.fail = m.findBlice(c.b[j:]); if c.fail != nil { break } }` —
the first (longest) proper suffix of `bs` that is present in the trie. -/
def firstSuffixNode (t : List Node) (bs : List Nat) : Option Nat :=
  ((List.range bs.length).drop 1).findSome? fun j => findBlice t (bs.drop j)

/-- The suffix-search loop of the breadth-first phase: the first (longest)
proper suffix of `bs` whose trie node is an output node
(`if s != nil && s.output { c.suffix = s; break }`). -/
def firstOutputSuffixNode (t : List Node) (bs : List Nat) : Option Nat :=
  ((List.range bs.length).drop 1).findSome? fun j =>
    match findBlice t (bs.drop j) with
    | some i => if (nodeAt t i).output then some i else none
    | none => none

/-- The breadth-first fail/suffix phase of `buildTrie`.  The Go code walks
the trie with a queue, visiting every allocated node except the root exactly
once (each non-root node is the child of exactly one earlier node and all
allocated nodes are reachable from the root through child edges), and for
the visited node reads only insertion-phase fields (`b`, `child`, `output`)
while writing only `fail` and `suffix`; the visit order is therefore
irrelevant and the phase is a per-index update.  A node whose fail search
finds nothing fails to the root (`if c.fail == nil { c.fail = m.root }`); a
node whose suffix search finds nothing keeps the root suffix set at
creation. -/
def failSuffixUpdate (t : List Node) (i : Nat) : Node :=
  if i = 0 then nodeAt t i
  else
    { nodeAt t i with
      fail := some ((firstSuffixNode t (nodeAt t i).b).getD 0)
      suffix := some ((firstOutputSuffixNode t (nodeAt t i).b).getD 0) }

/-- The breadth-first phase as a whole: the per-index update applied to
every allocated node. -/
def buildFailSuffix (t : List Node) : List Node :=
  (List.range t.length).map (failSuffixUpdate t)

/-- The transition-table walk of `buildTrie`'s last phase:
`n := &m.trie[i]; for n.child[c] == nil && !n.root { n = n.fail }`.
`fuel` bounds the number of fail steps; `none` models a nil `fail`
dereference or a non-terminating walk, neither of which occurs for built
matchers (the fail link strictly decreases path length). -/
def failsWalk (t : List Node) : Nat → Nat → Nat → Option Nat
  | 0, _, _ => none
  | fuel + 1, i, c =>
    let nd := nodeAt t i
    if nd.child c = none ∧ nd.root = false then
      match nd.fail with
      | none => none
      | some j => failsWalk t fuel j c
    else some i

/-- `Matcher` (struct `Matcher` in ahocorasick.go).  The per-node `fails`
arrays are gathered into one build-time table, exactly the function the
final loop of `buildTrie` tabulates for every allocated node and byte. -/
structure Matcher where
  counter : Nat
  trie : List Node
  extent : Nat
  fails : Nat → Nat → Option Nat
  dictionary : List (List Nat)

/-- `buildTrie`: insertion phase, breadth-first fail/suffix phase, and the
precomputation of the per-node transition table (with fuel `extent`, enough
for every built trie). -/
def buildTrie (dictionary : List (List Nat)) : Matcher :=
  let t0 : List Node := [{ root := true }]
  let t1 := insertEntries t0 0 dictionary
  let t2 := buildFailSuffix t1
  { counter := 0
    trie := t2
    extent := t2.length
    fails := failsWalk t2 t2.length
    dictionary := dictionary }

/-- `NewMatcher` creates a new Matcher used to match against a set of
blices. -/
def NewMatcher (dictionary : List (List Nat)) : Matcher :=
  buildTrie dictionary

/-- `NewStringMatcher`: Go strings are byte sequences, so the conversion
`[]byte(s)` is the identity on the byte-list embedding. -/
def NewStringMatcher (dictionary : List (List Nat)) : Matcher :=
  buildTrie dictionary

/-- The suffix-chain walk of `Match`:
`for !f.suffix.root { f = f.suffix; if f.counter != m.counter { hits = append(hits, f.index); f.counter = m.counter } else { break } }`.
Returns the updated (stamped) trie and hits; `none` models a nil `suffix`
dereference or exhausted fuel. -/
def matchChain (cnt : Nat) : Nat → List Node → Nat → List Nat →
    Option (List Node × List Nat)
  | 0, _, _, _ => none
  | fuel + 1, t, f, hits =>
    match (nodeAt t f).suffix with
    | none => none
    | some s =>
      if (nodeAt t s).root then some (t, hits)
      else if (nodeAt t s).counter ≠ cnt then
        matchChain cnt fuel (stampNode t s cnt) s (hits ++ [(nodeAt t s).index])
      else some (t, hits)

/-- The byte loop of `Match`.  State: the trie (whose `counter` fields the
scan stamps), the current node `n`, and the hits accumulated so far. -/
def matchLoop (cnt ext : Nat) (fails : Nat → Nat → Option Nat) :
    List Node → Nat → List Nat → List Nat → Option (List Node × Nat × List Nat)
  | t, n, hits, [] => some (t, n, hits)
  | t, n, hits, c :: rest =>
    let step : Option Nat :=
      if (nodeAt t n).root = false ∧ (nodeAt t n).child c = none then fails n c
      else some n
    match step with
    | none => none
    | some n1 =>
      match (nodeAt t n1).child c with
      | none => matchLoop cnt ext fails t n1 hits rest
      | some f =>
        let tp : List Node × List Nat :=
          if (nodeAt t f).output = true ∧ (nodeAt t f).counter ≠ cnt then
            (stampNode t f cnt, hits ++ [(nodeAt t f).index])
          else (t, hits)
        match matchChain cnt ext tp.1 f tp.2 with
        | none => none
        | some (t2, hits2) => matchLoop cnt ext fails t2 f hits2 rest

/-- `Match` searches `input` for blices and returns all the blices found as
indexes into the original dictionary.  The Go method mutates its receiver
(the call counter and the node stamps); the embedding returns the hits
together with the updated matcher. -/
def Matcher.Match (m : Matcher) (input : List Nat) :
    Option (List Nat × Matcher) :=
  let cnt := m.counter + 1
  match matchLoop cnt m.extent m.fails m.trie 0 [] input with
  | none => none
  | some (t, _, hits) =>
    some (hits, { m with counter := cnt, trie := t })

/-! ### The hit-type enumeration (enum_hit_type.go) -/

/-- `EnumHitTypeNone = iota` — none; not supported for match-only calls. -/
def EnumHitTypeNone : Int := 0

/-- `EnumHitTypeWord` — list of hit words. -/
def EnumHitTypeWord : Int := 1

/-- `EnumHitTypeWordCount` — count of hits per word. -/
def EnumHitTypeWordCount : Int := 2

/-- `EnumHitTypeWordIndex` — positions of hits per word. -/
def EnumHitTypeWordIndex : Int := 3

/-- `EnumHitTypeIndexWord` — hit word per position. -/
def EnumHitTypeIndexWord : Int := 4

/-! ### Go's `unicode/utf8.RuneCount` -/

/-- Low bound of the accept range for the second byte of a multi-byte UTF-8
sequence, per leading byte, following Go's `unicode/utf8` tables
(`first` and `acceptRanges`): `0xE0 → 0xA0`, `0xF0 → 0x90`, else `0x80`. -/
def utf8AcceptLo (c : Nat) : Nat :=
  if c = 0xE0 then 0xA0 else if c = 0xF0 then 0x90 else 0x80

/-- High bound of the accept range for the second byte: `0xED → 0x9F`,
`0xF4 → 0x8F`, else `0xBF`. -/
def utf8AcceptHi (c : Nat) : Nat :=
  if c = 0xED then 0x9F else if c = 0xF4 then 0x8F else 0xBF

/-- Go's `utf8.RuneCount`, fuel-indexed for structural recursion: ASCII
bytes and invalid bytes count one each and advance one byte; a valid
leading byte of a 2-, 3- or 4-byte sequence whose continuation bytes all
lie in their accept ranges counts one and advances the whole sequence; a
leading byte whose continuation is short or out of range counts one and
advances one byte.  Every step consumes at least one byte and one unit of
fuel, so fuel equal to the byte count (see `runeCount`) never runs out. -/
def runeCountAux : Nat → List Nat → Nat
  | 0, _ => 0
  | _, [] => 0
  | fuel + 1, c :: rest =>
    if c < 0x80 then 1 + runeCountAux fuel rest
    else if 0xC2 ≤ c ∧ c ≤ 0xDF then
      match rest with
      | r1 :: rest2 =>
        if utf8AcceptLo c ≤ r1 ∧ r1 ≤ utf8AcceptHi c then 1 + runeCountAux fuel rest2
        else 1 + runeCountAux fuel rest
      | [] => 1 + runeCountAux fuel rest
    else if 0xE0 ≤ c ∧ c ≤ 0xEF then
      match rest with
      | r1 :: r2 :: rest3 =>
        if utf8AcceptLo c ≤ r1 ∧ r1 ≤ utf8AcceptHi c then
          if 0x80 ≤ r2 ∧ r2 ≤ 0xBF then 1 + runeCountAux fuel rest3
          else 1 + runeCountAux fuel rest
        else 1 + runeCountAux fuel rest
      | _ => 1 + runeCountAux fuel rest
    else if 0xF0 ≤ c ∧ c ≤ 0xF4 then
      match rest with
      | r1 :: r2 :: r3 :: rest4 =>
        if utf8AcceptLo c ≤ r1 ∧ r1 ≤ utf8AcceptHi c then
          if 0x80 ≤ r2 ∧ r2 ≤ 0xBF then
            if 0x80 ≤ r3 ∧ r3 ≤ 0xBF then 1 + runeCountAux fuel rest4
            else 1 + runeCountAux fuel rest
          else 1 + runeCountAux fuel rest
        else 1 + runeCountAux fuel rest
      | _ => 1 + runeCountAux fuel rest
    else 1 + runeCountAux fuel rest

/-- `utf8.RuneCount(p)`. -/
def runeCount (p : List Nat) : Nat := runeCountAux p.length p

/-! ### `Replace` -/

/-- Go map assignment `l[k] = v` on an association-list model: replace the
value of an existing key in place, otherwise add the binding. -/
def mapSet {α β : Type} [DecidableEq α] : List (α × β) → α → β → List (α × β)
  | [], k, v => [(k, v)]
  | (a, b) :: rest, k, v =>
    if a = k then (k, v) :: rest else (a, b) :: mapSet rest k v

/-- Go map lookup `l[k]`. -/
def mapGet {α β : Type} [DecidableEq α] : List (α × β) → α → Option β
  | [], _ => none
  | (a, b) :: rest, k => if a = k then some b else mapGet rest k

/-- The mutable per-call state of `Replace`'s scan: the trie (for the
counter stamps), the replacement-span map `hits`, and the four hit-report
accumulators (only the one selected by the hit type is ever consulted). -/
structure RState where
  trie : List Node
  hits : List (Nat × List Nat)
  hitsWord : List (List Nat)
  hitsWordCount : List (List Nat × Int)
  hitsWordIndex : List (List Nat × List Int)
  hitsIndexWord : List (Int × List Nat)

/-- `int64(utf8.RuneCount(in[:i+1]) - utf8.RuneCount(f.b))`, the
codepoint-unit start position reported by the word-index and index-word
modes. -/
def runePos (inB : List Nat) (i : Nat) (word : List Nat) : Int :=
  (runeCount (inB.take (i + 1)) : Int) - (runeCount word : Int)

/-- `hits[i-len(f.b)+1] = f.b`: record a matched span keyed by its starting
byte offset (the Go `int` subtraction never goes negative for a built trie,
where the matched blice is a suffix of the input read so far). -/
def recordSpan (st : RState) (i : Nat) (word : List Nat) : RState :=
  { st with hits := mapSet st.hits (i + 1 - word.length) word }

/-- The hit-mode dispatch shared verbatim by the two report sites in
`Replace`'s scan loop. -/
def reportByMode (hitType : Int) (inB : List Nat) (i : Nat) (st : RState)
    (word : List Nat) : RState :=
  if hitType = EnumHitTypeWord then
    { st with hitsWord := st.hitsWord ++ [word] }
  else if hitType = EnumHitTypeWordCount then
    { st with hitsWordCount :=
        mapSet st.hitsWordCount word ((mapGet st.hitsWordCount word).getD 0 + 1) }
  else if hitType = EnumHitTypeWordIndex then
    { st with hitsWordIndex :=
        mapSet st.hitsWordIndex word ((mapGet st.hitsWordIndex word).getD [] ++ [runePos inB i word]) }
  else if hitType = EnumHitTypeIndexWord then
    { st with hitsIndexWord := mapSet st.hitsIndexWord (runePos inB i word) word }
  else st

/-- The suffix-chain walk of `Replace`, mirroring `matchChain` but with
span recording and hit-mode reporting; in word-list mode a stamped node
breaks the walk, in every other mode the walk continues to the root. -/
def replaceChain (cnt : Nat) (isReplace : Bool) (hitType : Int)
    (inB : List Nat) (i : Nat) : Nat → RState → Nat → Option RState
  | 0, _, _ => none
  | fuel + 1, st, f =>
    match (nodeAt st.trie f).suffix with
    | none => none
    | some s =>
      if (nodeAt st.trie s).root then some st
      else
        let nd := nodeAt st.trie s
        let st1 :=
          if nd.output = true ∧ isReplace = true then recordSpan st i nd.b else st
        if hitType ≠ EnumHitTypeWord ∨ nd.counter ≠ cnt then
          let st2 := reportByMode hitType inB i st1 nd.b
          replaceChain cnt isReplace hitType inB i fuel
            { st2 with trie := stampNode st2.trie s cnt } s
        else some st1

/-- The byte loop of `Replace` (`for i, b := range in`), carrying the byte
index `i`. -/
def replaceLoop (cnt ext : Nat) (fails : Nat → Nat → Option Nat)
    (isReplace : Bool) (hitType : Int) (inB : List Nat) :
    RState → Nat → Nat → List Nat → Option (RState × Nat)
  | st, n, _, [] => some (st, n)
  | st, n, i, c :: rest =>
    let step : Option Nat :=
      if (nodeAt st.trie n).root = false ∧ (nodeAt st.trie n).child c = none then
        fails n c
      else some n
    match step with
    | none => none
    | some n1 =>
      match (nodeAt st.trie n1).child c with
      | none => replaceLoop cnt ext fails isReplace hitType inB st n1 (i + 1) rest
      | some f =>
        let nd := nodeAt st.trie f
        let st1 :=
          if nd.output = true ∧ isReplace = true then recordSpan st i nd.b else st
        let st2 :=
          if nd.output = true ∧ (hitType ≠ EnumHitTypeWord ∨ nd.counter ≠ cnt) then
            let s' := reportByMode hitType inB i st1 nd.b
            { s' with trie := stampNode s'.trie f cnt }
          else st1
        match replaceChain cnt isReplace hitType inB i ext st2 f with
        | none => none
        | some st3 => replaceLoop cnt ext fails isReplace hitType inB st3 f (i + 1) rest

/-- The output-building loop of `Replace`: for each span (in ascending key
order) copy the untouched gap `in[lastIndex:index]`, then emit the replacer
once per codepoint of the matched word, then move `lastIndex` past the
span's bytes.  Returns the output and the final `lastIndex`. -/
def buildOutLoop (inB repl : List Nat) :
    List (Nat × List Nat) → Nat → List Nat → List Nat × Nat
  | [], lastIndex, out => (out, lastIndex)
  | (idx, word) :: rest, lastIndex, out =>
    let out1 :=
      if lastIndex < idx then out ++ (inB.drop lastIndex).take (idx - lastIndex)
      else out
    let out2 := out1 ++ List.flatten (List.replicate (runeCount word) repl)
    buildOutLoop inB repl rest (idx + word.length) out2

/-- `sort.Ints(keys)` followed by the per-key lookup `word := hits[index]`:
the spans in ascending key order. -/
def sortedSpans (hits : List (Nat × List Nat)) : List (Nat × List Nat) :=
  (List.insertionSort (· ≤ ·) (hits.map Prod.fst)).map
    fun k => (k, (mapGet hits k).getD [])

/-- The whole replacement phase, including the final tail copy guarded by
`if lastIndex < len(in)-1` (note: the Go guard drops the tail when exactly
one byte remains; `inB.length - 1` is Nat subtraction, which agrees with the
Go int comparison since `p.2 < 0` is impossible). -/
def buildReplaced (inB repl : List Nat) (hits : List (Nat × List Nat)) :
    List Nat :=
  let p := buildOutLoop inB repl (sortedSpans hits) 0 []
  if p.2 < inB.length - 1 then p.1 ++ inB.drop p.2 else p.1

/-- The `interface{}` hit report returned by `Replace`: one shape per hit
mode, `noHits` for the nil interface. -/
inductive HitsResult where
  | noHits
  | word (ws : List (List Nat))
  | wordCount (m : List (List Nat × Int))
  | wordIndex (m : List (List Nat × List Int))
  | indexWord (m : List (Int × List Nat))
deriving DecidableEq

/-- The final selection of the hit report (`iHits`) by hit type. -/
def selectHits (hitType : Int) (st : RState) : HitsResult :=
  if hitType = EnumHitTypeWord then .word st.hitsWord
  else if hitType = EnumHitTypeWordCount then .wordCount st.hitsWordCount
  else if hitType = EnumHitTypeWordIndex then .wordIndex st.hitsWordIndex
  else if hitType = EnumHitTypeIndexWord then .indexWord st.hitsIndexWord
  else .noHits

/-- `Replace(inStr, replacerStr, isReplace, hitType)`.  The result is the
Go triple (output string as bytes, hit report, error) together with the
mutated receiver; the counter is incremented before the hit-type
validation, exactly as in the source. -/
def Matcher.Replace (m : Matcher) (inStr replacerStr : List Nat)
    (isReplace : Bool) (hitType : Int) :
    Option ((List Nat × HitsResult × Option String) × Matcher) :=
  let cnt := m.counter + 1
  if hitType = EnumHitTypeNone ∧ isReplace = false then
    some (([], .noHits, some "match not support hittype none"),
      { m with counter := cnt })
  else if hitType ≠ EnumHitTypeNone ∧ hitType ≠ EnumHitTypeWord ∧
      hitType ≠ EnumHitTypeWordCount ∧ hitType ≠ EnumHitTypeWordIndex ∧
      hitType ≠ EnumHitTypeIndexWord then
    some (([], .noHits, some "hit type not support"), { m with counter := cnt })
  else
    let st0 : RState :=
      { trie := m.trie, hits := [], hitsWord := [], hitsWordCount := []
        hitsWordIndex := [], hitsIndexWord := [] }
    match replaceLoop cnt m.extent m.fails isReplace hitType inStr st0 0 0 inStr with
    | none => none
    | some (st, _) =>
      let out := if isReplace then buildReplaced inStr replacerStr st.hits else []
      some ((out, selectHits hitType st, none), { m with counter := cnt, trie := st.trie })

/-! ### Spec-side ground truth: brute-force substring search

These definitions follow the spec's words ("the pattern's bytes equal
`I[end-len(pattern)+1 .. end]`", "ground truth: brute-force substring
search"), to be compared with the automaton's output. -/

/-- `p` occurs in `I` ending at byte position `e`: the bytes of `I` up to
and including `e` end with `p`. -/
def patternEndsAt (p I : List Nat) (e : Nat) : Bool :=
  decide ((I.take (e + 1)).drop (e + 1 - p.length) = p)

/-- All (pattern index, end position) occurrence pairs of the dictionary in
the input, by brute-force search. -/
def bruteOccurrences (D : List (List Nat)) (I : List Nat) : List (Nat × Nat) :=
  List.flatten ((List.range D.length).map fun j =>
    ((List.range I.length).filter fun e => patternEndsAt (D.getD j []) I e).map
      fun e => (j, e))

/-- `p` occurs somewhere in `I` (brute-force ground truth). -/
def occursIn (p I : List Nat) : Prop :=
  ∃ e, e < I.length ∧ patternEndsAt p I e = true

/-- In the emitted output, one applied span contributes the replacement
token repeated once per codepoint of the matched word (the inner loop
`lenWord := utf8.RuneCount(word); for i := 0; i < lenWord; i++ { out = append(out, replacer...) }`). -/
def replacementBlock (repl word : List Nat) : List Nat :=
  List.flatten (List.replicate (runeCount word) repl)

/-- The total number of input bytes copied unchanged between applied spans
(spec-side recursion mirroring the gap copies of the output-building
loop). -/
def spansGapSum (inB : List Nat) : List (Nat × List Nat) → Nat → Nat
  | [], _ => 0
  | (idx, word) :: rest, lastIndex =>
    (if lastIndex < idx then ((inB.drop lastIndex).take (idx - lastIndex)).length else 0) +
      spansGapSum inB rest (idx + word.length)

/-! ## Helper lemmas -/

theorem flatten_replicate_length (k : Nat) (xs : List Nat) :
    (List.flatten (List.replicate k xs)).length = k * xs.length := by
  induction k with
  | zero => simp
  | succ n ih => simp [List.replicate_succ, ih, Nat.succ_mul, Nat.add_comm]

theorem buildOutLoop_length (inB repl : List Nat) :
    ∀ (spans : List (Nat × List Nat)) (lastIndex : Nat) (out : List Nat),
      (buildOutLoop inB repl spans lastIndex out).1.length =
        out.length + spansGapSum inB spans lastIndex +
          (spans.map fun s => runeCount s.2 * repl.length).sum
  | [], li, out => by simp [buildOutLoop, spansGapSum]
  | (idx, word) :: rest, li, out => by
    simp only [buildOutLoop, spansGapSum, List.map_cons, List.sum_cons,
      buildOutLoop_length inB repl rest]
    by_cases h : li < idx
    · simp only [if_pos h, List.length_append, flatten_replicate_length]
      omega
    · simp only [if_neg h, List.length_append, flatten_replicate_length]
      omega

/-! ## Scan-state infrastructure

The scan loops mutate only the `counter` stamps of nodes.  `stripC`
forgets the stamp; two tries of the same shape differ at most in stamps,
and `StampRel c₁ c₂` says a node is stamped for call counter `c₁` in the
first trie exactly when it is stamped for `c₂` in the second. -/

/-- Forget the counter stamp of a node. -/
def stripC (nd : Node) : Node := { nd with counter := 0 }

/-- Two tries agreeing on everything but the counter stamps. -/
def SameShape (t₁ t₂ : List Node) : Prop := t₁.map stripC = t₂.map stripC

/-- Corresponding stamping state w.r.t. two call counters. -/
def StampRel (c₁ c₂ : Nat) (t₁ t₂ : List Node) : Prop :=
  ∀ i, (nodeAt t₁ i).counter = c₁ ↔ (nodeAt t₂ i).counter = c₂

theorem nodeAt_getElem? (t : List Node) (i : Nat) : nodeAt t i = t[i]?.getD {} := by
  simp [nodeAt, List.getD_eq_getElem?_getD]

theorem stripC_getD (o : Option Node) : stripC (o.getD {}) = (o.map stripC).getD {} := by
  cases o <;> rfl

theorem SameShape.length_eq {t₁ t₂ : List Node} (h : SameShape t₁ t₂) :
    t₁.length = t₂.length := by
  simpa using congrArg List.length h

theorem SameShape.strip_nodeAt {t₁ t₂ : List Node} (h : SameShape t₁ t₂) (i : Nat) :
    stripC (nodeAt t₁ i) = stripC (nodeAt t₂ i) := by
  have hg : (t₁.map stripC)[i]? = (t₂.map stripC)[i]? := by rw [h]
  rw [List.getElem?_map, List.getElem?_map] at hg
  rw [nodeAt_getElem?, nodeAt_getElem?, stripC_getD, stripC_getD, hg]

theorem SameShape.b_eq {t₁ t₂ : List Node} (h : SameShape t₁ t₂) (i : Nat) :
    (nodeAt t₁ i).b = (nodeAt t₂ i).b := by
  have h' := congrArg Node.b (h.strip_nodeAt i)
  exact h'

theorem SameShape.root_eq {t₁ t₂ : List Node} (h : SameShape t₁ t₂) (i : Nat) :
    (nodeAt t₁ i).root = (nodeAt t₂ i).root := by
  have h' := congrArg Node.root (h.strip_nodeAt i)
  exact h'

theorem SameShape.output_eq {t₁ t₂ : List Node} (h : SameShape t₁ t₂) (i : Nat) :
    (nodeAt t₁ i).output = (nodeAt t₂ i).output := by
  have h' := congrArg Node.output (h.strip_nodeAt i)
  exact h'

theorem SameShape.index_eq {t₁ t₂ : List Node} (h : SameShape t₁ t₂) (i : Nat) :
    (nodeAt t₁ i).index = (nodeAt t₂ i).index := by
  have h' := congrArg Node.index (h.strip_nodeAt i)
  exact h'

theorem SameShape.child_eq {t₁ t₂ : List Node} (h : SameShape t₁ t₂) (i : Nat) :
    (nodeAt t₁ i).child = (nodeAt t₂ i).child := by
  have h' := congrArg Node.child (h.strip_nodeAt i)
  exact h'

theorem SameShape.fail_eq {t₁ t₂ : List Node} (h : SameShape t₁ t₂) (i : Nat) :
    (nodeAt t₁ i).fail = (nodeAt t₂ i).fail := by
  have h' := congrArg Node.fail (h.strip_nodeAt i)
  exact h'

theorem SameShape.suffix_eq {t₁ t₂ : List Node} (h : SameShape t₁ t₂) (i : Nat) :
    (nodeAt t₁ i).suffix = (nodeAt t₂ i).suffix := by
  have h' := congrArg Node.suffix (h.strip_nodeAt i)
  exact h'

theorem stampNode_of_length_le {t : List Node} {s : Nat} (h : t.length ≤ s) (c : Nat) :
    stampNode t s c = t := List.set_eq_of_length_le h

theorem nodeAt_stampNode_self {t : List Node} {s : Nat} (h : s < t.length) (c : Nat) :
    nodeAt (stampNode t s c) s = { nodeAt t s with counter := c } := by
  rw [nodeAt_getElem?, stampNode, List.getElem?_set_eq h]
  rfl

theorem nodeAt_stampNode_ne {t : List Node} {s i : Nat} (h : s ≠ i) (c : Nat) :
    nodeAt (stampNode t s c) i = nodeAt t i := by
  rw [nodeAt_getElem?, stampNode, List.getElem?_set_ne h, ← nodeAt_getElem?]

theorem sameShape_stampNode {t₁ t₂ : List Node} (h : SameShape t₁ t₂) (s c₁ c₂ : Nat) :
    SameShape (stampNode t₁ s c₁) (stampNode t₂ s c₂) := by
  unfold SameShape stampNode
  rw [List.map_set, List.map_set]
  rw [show stripC { nodeAt t₁ s with counter := c₁ } = stripC (nodeAt t₁ s) from rfl,
    show stripC { nodeAt t₂ s with counter := c₂ } = stripC (nodeAt t₂ s) from rfl,
    h.strip_nodeAt s, h]

theorem sameShape_stampNode_self (t : List Node) (s c : Nat) :
    SameShape t (stampNode t s c) := by
  unfold SameShape stampNode
  rw [List.map_set,
    show stripC { nodeAt t s with counter := c } = stripC (nodeAt t s) from rfl]
  refine (List.ext_getElem? fun n => ?_).symm
  rcases Nat.lt_or_ge s t.length with hs | hs
  · rcases eq_or_ne s n with rfl | hne
    · rw [List.getElem?_set_eq (by simpa using hs)]
      rw [List.getElem?_map, nodeAt_getElem?]
      cases e : t[s]? with
      | none => exact absurd (List.getElem?_eq_none_iff.mp e) (Nat.not_le_of_lt hs)
      | some nd => simp [e]
    · rw [List.getElem?_set_ne hne]
  · rw [List.set_eq_of_length_le (by simpa using hs)]

theorem stampRel_stampNode {c₁ c₂ : Nat} {t₁ t₂ : List Node} (hsh : SameShape t₁ t₂)
    (h : StampRel c₁ c₂ t₁ t₂) (s : Nat) :
    StampRel c₁ c₂ (stampNode t₁ s c₁) (stampNode t₂ s c₂) := by
  intro i
  rcases eq_or_ne s i with rfl | hne
  · rcases Nat.lt_or_ge s t₁.length with hs | hs
    · rw [nodeAt_stampNode_self hs, nodeAt_stampNode_self (hsh.length_eq ▸ hs)]
      simp
    · rw [stampNode_of_length_le hs, stampNode_of_length_le (hsh.length_eq ▸ hs)]
      exact h s
  · rw [nodeAt_stampNode_ne hne, nodeAt_stampNode_ne hne]
    exact h i

/-- The relational step for the suffix-chain walk: two walks from the same
node with shape-equal, stamp-corresponding tries behave identically. -/
theorem matchChain_rel {c₁ c₂ : Nat} :
    ∀ (fuel : Nat) (t₁ t₂ : List Node) (f : Nat) (hits : List Nat),
      SameShape t₁ t₂ → StampRel c₁ c₂ t₁ t₂ →
      (matchChain c₁ fuel t₁ f hits = none ∧ matchChain c₂ fuel t₂ f hits = none) ∨
      (∃ u₁ u₂ hs, matchChain c₁ fuel t₁ f hits = some (u₁, hs) ∧
        matchChain c₂ fuel t₂ f hits = some (u₂, hs) ∧
        SameShape u₁ u₂ ∧ StampRel c₁ c₂ u₁ u₂)
  | 0, t₁, t₂, f, hits, _, _ => Or.inl ⟨rfl, rfl⟩
  | fuel + 1, t₁, t₂, f, hits, hsh, hst => by
    have hsuf := hsh.suffix_eq f
    cases e : (nodeAt t₁ f).suffix with
    | none =>
      refine Or.inl ?_
      constructor <;> simp [matchChain, e, ← hsuf]
    | some s =>
      have hroot := hsh.root_eq s
      by_cases hr : (nodeAt t₁ s).root
      · refine Or.inr ⟨t₁, t₂, hits, ?_, ?_, hsh, hst⟩
        · simp [matchChain, e, hr]
        · simp [matchChain, ← hsuf, e, ← hroot, hr]
      · by_cases hc : (nodeAt t₁ s).counter = c₁
        · refine Or.inr ⟨t₁, t₂, hits, ?_, ?_, hsh, hst⟩
          · simp [matchChain, e, hr, hc]
          · simp [matchChain, ← hsuf, e, ← hroot, hr, (hst s).mp hc]
        · have hc₂ : ¬ (nodeAt t₂ s).counter = c₂ := fun h => hc ((hst s).mpr h)
          have hidx := hsh.index_eq s
          have rec := matchChain_rel fuel (stampNode t₁ s c₁) (stampNode t₂ s c₂) s
            (hits ++ [(nodeAt t₁ s).index]) (sameShape_stampNode hsh s c₁ c₂)
            (stampRel_stampNode hsh hst s)
          rcases rec with ⟨r₁, r₂⟩ | ⟨u₁, u₂, hs, r₁, r₂, ru, rs⟩
          · refine Or.inl ⟨?_, ?_⟩
            · simpa [matchChain, e, hr, hc] using r₁
            · simpa [matchChain, ← hsuf, e, ← hroot, hr, hc₂, ← hidx] using r₂
          · refine Or.inr ⟨u₁, u₂, hs, ?_, ?_, ru, rs⟩
            · simpa [matchChain, e, hr, hc] using r₁
            · simpa [matchChain, ← hsuf, e, ← hroot, hr, hc₂, ← hidx] using r₂

/-- The combined top-report-plus-chain-plus-continuation relational step
shared by the two ways the byte loop can reach a child node.  `Krel` is the
relational property of the continuation (the loop on the remaining
input). -/
theorem matchTop_rel {c₁ c₂ : Nat} (ext : Nat)
    (K : Nat → List Node → Nat → List Nat → Option (List Node × Nat × List Nat))
    (t₁ t₂ : List Node) (f : Nat) (hits : List Nat)
    (hsh : SameShape t₁ t₂) (hst : StampRel c₁ c₂ t₁ t₂)
    (hK : ∀ u₁ u₂ n hs, SameShape u₁ u₂ → StampRel c₁ c₂ u₁ u₂ →
      (K c₁ u₁ n hs = none ∧ K c₂ u₂ n hs = none) ∨
      (∃ v₁ v₂ n' hs', K c₁ u₁ n hs = some (v₁, n', hs') ∧
        K c₂ u₂ n hs = some (v₂, n', hs') ∧ SameShape v₁ v₂ ∧ StampRel c₁ c₂ v₁ v₂)) :
    ((match matchChain c₁ ext
        (if (nodeAt t₁ f).output = true ∧ (nodeAt t₁ f).counter ≠ c₁ then
          (stampNode t₁ f c₁, hits ++ [(nodeAt t₁ f).index]) else (t₁, hits)).1 f
        (if (nodeAt t₁ f).output = true ∧ (nodeAt t₁ f).counter ≠ c₁ then
          (stampNode t₁ f c₁, hits ++ [(nodeAt t₁ f).index]) else (t₁, hits)).2 with
      | none => none
      | some (t2, hits2) => K c₁ t2 f hits2) = none ∧
      (match matchChain c₂ ext
        (if (nodeAt t₂ f).output = true ∧ (nodeAt t₂ f).counter ≠ c₂ then
          (stampNode t₂ f c₂, hits ++ [(nodeAt t₂ f).index]) else (t₂, hits)).1 f
        (if (nodeAt t₂ f).output = true ∧ (nodeAt t₂ f).counter ≠ c₂ then
          (stampNode t₂ f c₂, hits ++ [(nodeAt t₂ f).index]) else (t₂, hits)).2 with
      | none => none
      | some (t2, hits2) => K c₂ t2 f hits2) = none) ∨
    (∃ v₁ v₂ n' hs',
      (match matchChain c₁ ext
        (if (nodeAt t₁ f).output = true ∧ (nodeAt t₁ f).counter ≠ c₁ then
          (stampNode t₁ f c₁, hits ++ [(nodeAt t₁ f).index]) else (t₁, hits)).1 f
        (if (nodeAt t₁ f).output = true ∧ (nodeAt t₁ f).counter ≠ c₁ then
          (stampNode t₁ f c₁, hits ++ [(nodeAt t₁ f).index]) else (t₁, hits)).2 with
      | none => none
      | some (t2, hits2) => K c₁ t2 f hits2) = some (v₁, n', hs') ∧
      (match matchChain c₂ ext
        (if (nodeAt t₂ f).output = true ∧ (nodeAt t₂ f).counter ≠ c₂ then
          (stampNode t₂ f c₂, hits ++ [(nodeAt t₂ f).index]) else (t₂, hits)).1 f
        (if (nodeAt t₂ f).output = true ∧ (nodeAt t₂ f).counter ≠ c₂ then
          (stampNode t₂ f c₂, hits ++ [(nodeAt t₂ f).index]) else (t₂, hits)).2 with
      | none => none
      | some (t2, hits2) => K c₂ t2 f hits2) = some (v₂, n', hs') ∧
      SameShape v₁ v₂ ∧ StampRel c₁ c₂ v₁ v₂) := by
  have hout := hsh.output_eq f
  have hidx := hsh.index_eq f
  by_cases hc : (nodeAt t₁ f).output = true ∧ (nodeAt t₁ f).counter ≠ c₁
  · have hc₂ : (nodeAt t₂ f).output = true ∧ (nodeAt t₂ f).counter ≠ c₂ :=
      ⟨hout ▸ hc.1, fun h => hc.2 ((hst f).mpr h)⟩
    rw [if_pos hc, if_pos hc₂]
    have hsh' := sameShape_stampNode hsh f c₁ c₂
    have hst' := stampRel_stampNode hsh hst f
    rcases matchChain_rel ext (stampNode t₁ f c₁) (stampNode t₂ f c₂) f
      (hits ++ [(nodeAt t₁ f).index]) hsh' hst' with ⟨r₁, r₂⟩ | ⟨u₁, u₂, hs, r₁, r₂, ru, rs⟩
    · rw [r₁, hidx] at *
      rw [r₁]
      rw [hidx] at r₂
      rw [r₂]
      exact Or.inl ⟨rfl, rfl⟩
    · rw [r₁]
      rw [hidx] at r₂
      rw [r₂]
      rcases hK u₁ u₂ f hs ru rs with ⟨k₁, k₂⟩ | ⟨v₁, v₂, n', hs', k₁, k₂, kv, ks⟩
      · exact Or.inl ⟨k₁, k₂⟩
      · exact Or.inr ⟨v₁, v₂, n', hs', k₁, k₂, kv, ks⟩
  · have hc₂ : ¬ ((nodeAt t₂ f).output = true ∧ (nodeAt t₂ f).counter ≠ c₂) := by
      intro h
      exact hc ⟨hout ▸ h.1, fun hh => h.2 ((hst f).mp hh)⟩
    rw [if_neg hc, if_neg hc₂]
    rcases matchChain_rel ext t₁ t₂ f hits hsh hst with ⟨r₁, r₂⟩ | ⟨u₁, u₂, hs, r₁, r₂, ru, rs⟩
    · rw [r₁, r₂]
      exact Or.inl ⟨rfl, rfl⟩
    · rw [r₁, r₂]
      rcases hK u₁ u₂ f hs ru rs with ⟨k₁, k₂⟩ | ⟨v₁, v₂, n', hs', k₁, k₂, kv, ks⟩
      · exact Or.inl ⟨k₁, k₂⟩
      · exact Or.inr ⟨v₁, v₂, n', hs', k₁, k₂, kv, ks⟩

/-- The relational step for the whole byte loop of `Match`: two runs over
the same input from the same node, with shape-equal stamp-corresponding
tries and the same transition table, produce the same hits (and
corresponding final tries), or both fail. -/
theorem matchLoop_rel {c₁ c₂ ext : Nat} {fails : Nat → Nat → Option Nat} :
    ∀ (input : List Nat) (t₁ t₂ : List Node) (n : Nat) (hits : List Nat),
      SameShape t₁ t₂ → StampRel c₁ c₂ t₁ t₂ →
      (matchLoop c₁ ext fails t₁ n hits input = none ∧
        matchLoop c₂ ext fails t₂ n hits input = none) ∨
      (∃ u₁ u₂ n' hs, matchLoop c₁ ext fails t₁ n hits input = some (u₁, n', hs) ∧
        matchLoop c₂ ext fails t₂ n hits input = some (u₂, n', hs) ∧
        SameShape u₁ u₂ ∧ StampRel c₁ c₂ u₁ u₂)
  | [], t₁, t₂, n, hits, hsh, hst => Or.inr ⟨t₁, t₂, n, hits, rfl, rfl, hsh, hst⟩
  | c :: rest, t₁, t₂, n, hits, hsh, hst => by
    have hroot := hsh.root_eq n
    have hchild := hsh.child_eq n
    have hK : ∀ u₁ u₂ nn hs, SameShape u₁ u₂ → StampRel c₁ c₂ u₁ u₂ →
        ((fun cc uu nn hh => matchLoop cc ext fails uu nn hh rest) c₁ u₁ nn hs = none ∧
          (fun cc uu nn hh => matchLoop cc ext fails uu nn hh rest) c₂ u₂ nn hs = none) ∨
        (∃ v₁ v₂ n' hs',
          (fun cc uu nn hh => matchLoop cc ext fails uu nn hh rest) c₁ u₁ nn hs =
            some (v₁, n', hs') ∧
          (fun cc uu nn hh => matchLoop cc ext fails uu nn hh rest) c₂ u₂ nn hs =
            some (v₂, n', hs') ∧ SameShape v₁ v₂ ∧ StampRel c₁ c₂ v₁ v₂) :=
      fun u₁ u₂ nn hs h1 h2 => matchLoop_rel rest u₁ u₂ nn hs h1 h2
    by_cases hstep : (nodeAt t₁ n).root = false ∧ (nodeAt t₁ n).child c = none
    · cases efail : fails n c with
      | none =>
        refine Or.inl ⟨?_, ?_⟩
        · simp [matchLoop, hstep, efail]
        · simp [matchLoop, ← hroot, ← hchild, hstep, efail]
      | some n1 =>
        have hchild1 := hsh.child_eq n1
        cases ec : (nodeAt t₁ n1).child c with
        | none =>
          rcases matchLoop_rel rest t₁ t₂ n1 hits hsh hst with
            ⟨r₁, r₂⟩ | ⟨u₁, u₂, n', hs, r₁, r₂, ru, rs⟩
          · refine Or.inl ⟨?_, ?_⟩
            · simpa [matchLoop, hstep, efail, ec] using r₁
            · simpa [matchLoop, ← hroot, ← hchild, hstep, efail, ← hchild1, ec] using r₂
          · refine Or.inr ⟨u₁, u₂, n', hs, ?_, ?_, ru, rs⟩
            · simpa [matchLoop, hstep, efail, ec] using r₁
            · simpa [matchLoop, ← hroot, ← hchild, hstep, efail, ← hchild1, ec] using r₂
        | some f =>
          have h := matchTop_rel ext (fun cc uu nn hh => matchLoop cc ext fails uu nn hh rest)
            t₁ t₂ f hits hsh hst hK
          rcases h with ⟨r₁, r₂⟩ | ⟨v₁, v₂, n', hs', r₁, r₂, rv, rs⟩
          · refine Or.inl ⟨?_, ?_⟩
            · simpa [matchLoop, hstep, efail, ec] using r₁
            · simpa [matchLoop, ← hroot, ← hchild, hstep, efail, ← hchild1, ec] using r₂
          · refine Or.inr ⟨v₁, v₂, n', hs', ?_, ?_, rv, rs⟩
            · simpa [matchLoop, hstep, efail, ec] using r₁
            · simpa [matchLoop, ← hroot, ← hchild, hstep, efail, ← hchild1, ec] using r₂
    · cases ec : (nodeAt t₁ n).child c with
      | none =>
        have hr : (nodeAt t₁ n).root = true := by
          cases hb : (nodeAt t₁ n).root with
          | false => exact absurd ⟨hb, ec⟩ hstep
          | true => rfl
        rcases matchLoop_rel rest t₁ t₂ n hits hsh hst with
          ⟨r₁, r₂⟩ | ⟨u₁, u₂, n', hs, r₁, r₂, ru, rs⟩
        · refine Or.inl ⟨?_, ?_⟩
          · simpa [matchLoop, hr, ec] using r₁
          · simpa [matchLoop, ← hroot, ← hchild, hr, ec] using r₂
        · refine Or.inr ⟨u₁, u₂, n', hs, ?_, ?_, ru, rs⟩
          · simpa [matchLoop, hr, ec] using r₁
          · simpa [matchLoop, ← hroot, ← hchild, hr, ec] using r₂
      | some f =>
        have h := matchTop_rel ext (fun cc uu nn hh => matchLoop cc ext fails uu nn hh rest)
          t₁ t₂ f hits hsh hst hK
        rcases h with ⟨r₁, r₂⟩ | ⟨v₁, v₂, n', hs', r₁, r₂, rv, rs⟩
        · refine Or.inl ⟨?_, ?_⟩
          · simpa [matchLoop, ec] using r₁
          · simpa [matchLoop, ← hroot, ← hchild, ec] using r₂
        · refine Or.inr ⟨v₁, v₂, n', hs', ?_, ?_, rv, rs⟩
          · simpa [matchLoop, ec] using r₁
          · simpa [matchLoop, ← hroot, ← hchild, ec] using r₂

/-! ## Construction invariants

The insertion phase of `buildTrie` establishes a well-formed trie: node 0
is the root with empty path, every allocated node stores its full byte path
in `b`, is reachable from the root by following `child` edges along that
path, and child edges extend paths by exactly one byte. -/

theorem nodeAt_of_length_le {t : List Node} {i : Nat} (h : t.length ≤ i) :
    nodeAt t i = {} := by
  rw [nodeAt_getElem?, List.getElem?_eq_none h]
  rfl

theorem nodeAt_append_lt {t : List Node} {x : Node} {i : Nat} (h : i < t.length) :
    nodeAt (t ++ [x]) i = nodeAt t i := by
  simp [nodeAt_getElem?, List.getElem?_append, h]

theorem nodeAt_append_self {t : List Node} {x : Node} :
    nodeAt (t ++ [x]) t.length = x := by
  rw [nodeAt_getElem?]
  simp

theorem nodeAt_set_self {t : List Node} {n : Nat} (h : n < t.length) (v : Node) :
    nodeAt (t.set n v) n = v := by
  rw [nodeAt_getElem?, List.getElem?_set_eq (by simpa using h)]
  rfl

theorem nodeAt_set_ne {t : List Node} {n i : Nat} (h : n ≠ i) (v : Node) :
    nodeAt (t.set n v) i = nodeAt t i := by
  rw [nodeAt_getElem?, List.getElem?_set_ne h, ← nodeAt_getElem?]

theorem findBliceFrom_none (t : List Node) : ∀ w, findBliceFrom t none w = none
  | [] => rfl
  | _ :: _ => rfl

theorem findBliceFrom_nil (t : List Node) : ∀ o, findBliceFrom t o [] = o
  | none => rfl
  | some _ => rfl

theorem findBliceFrom_append (t : List Node) :
    ∀ (u : List Nat) (o : Option Nat) (v : List Nat),
      findBliceFrom t o (u ++ v) = findBliceFrom t (findBliceFrom t o u) v
  | [], o, v => by rw [List.nil_append, findBliceFrom_nil]
  | c :: u', none, v => by
    rw [findBliceFrom_none, findBliceFrom_none, findBliceFrom_none]
  | c :: u', some i, v => by
    rw [List.cons_append, findBliceFrom, findBliceFrom, findBliceFrom_append t u']

theorem findBlice_append (t : List Node) (u v : List Nat) :
    findBlice t (u ++ v) = findBliceFrom t (findBlice t u) v :=
  findBliceFrom_append t u (some 0) v

/-- Child-edge containment between two tries: an edge present in the first
is present in the second. -/
def ChildLE (t t' : List Node) : Prop :=
  ∀ i x j, (nodeAt t i).child x = some j → (nodeAt t' i).child x = some j

theorem ChildLE.crfl (t : List Node) : ChildLE t t := fun _ _ _ h => h

theorem ChildLE.ctrans {t₁ t₂ t₃ : List Node} (h₁ : ChildLE t₁ t₂) (h₂ : ChildLE t₂ t₃) :
    ChildLE t₁ t₃ := fun i x j h => h₂ i x j (h₁ i x j h)

theorem findBliceFrom_mono {t t' : List Node} (h : ChildLE t t') :
    ∀ (w : List Nat) (k i : Nat),
      findBliceFrom t (some k) w = some i → findBliceFrom t' (some k) w = some i
  | [], k, i, hf => hf
  | c :: rest, k, i, hf => by
    rw [findBliceFrom] at hf
    cases e : (nodeAt t k).child c with
    | none =>
      rw [e, findBliceFrom_none] at hf
      exact absurd hf (by simp)
    | some j =>
      rw [e] at hf
      rw [findBliceFrom, h k c j e]
      exact findBliceFrom_mono h rest j i hf

theorem findBlice_mono {t t' : List Node} (h : ChildLE t t') {w : List Nat} {i : Nat}
    (hf : findBlice t w = some i) : findBlice t' w = some i :=
  findBliceFrom_mono h w 0 i hf

theorem findBliceFrom_congr {t t' : List Node}
    (h : ∀ i, (nodeAt t' i).child = (nodeAt t i).child) :
    ∀ (w : List Nat) (o : Option Nat), findBliceFrom t' o w = findBliceFrom t o w
  | [], o => by rw [findBliceFrom_nil, findBliceFrom_nil]
  | c :: rest, none => by rw [findBliceFrom_none, findBliceFrom_none]
  | c :: rest, some k => by
    rw [findBliceFrom, findBliceFrom, h k, findBliceFrom_congr h rest]

theorem findBlice_congr {t t' : List Node}
    (h : ∀ i, (nodeAt t' i).child = (nodeAt t i).child) (w : List Nat) :
    findBlice t' w = findBlice t w :=
  findBliceFrom_congr h w (some 0)

/-- Well-formedness of the insertion-phase trie. -/
structure TrieWf (t : List Node) : Prop where
  nonempty : 0 < t.length
  root_b : (nodeAt t 0).b = []
  root_flag : (nodeAt t 0).root = true
  nonroot_flag : ∀ i, 1 ≤ i → (nodeAt t i).root = false
  path : ∀ i, i < t.length → findBlice t (nodeAt t i).b = some i
  child_spec : ∀ i c j, i < t.length → (nodeAt t i).child c = some j →
    1 ≤ j ∧ j < t.length ∧ (nodeAt t j).b = (nodeAt t i).b ++ [c]

theorem TrieWf.child_oob {t : List Node} (_ : TrieWf t) {i : Nat} (h : t.length ≤ i)
    (c : Nat) : (nodeAt t i).child c = none := by
  rw [nodeAt_of_length_le h]

/-- Under `TrieWf`, `findBlice` results are allocated and carry the searched
path as their `b`. -/
theorem TrieWf.findBliceFrom_b {t : List Node} (hwf : TrieWf t) :
    ∀ (w : List Nat) (k i : Nat), k < t.length →
      findBliceFrom t (some k) w = some i →
      i < t.length ∧ (nodeAt t i).b = (nodeAt t k).b ++ w
  | [], k, i, hk, hf => by
    cases hf
    exact ⟨hk, by simp⟩
  | c :: rest, k, i, hk, hf => by
    rw [findBliceFrom] at hf
    cases e : (nodeAt t k).child c with
    | none =>
      rw [e, findBliceFrom_none] at hf
      exact absurd hf (by simp)
    | some j =>
      rw [e] at hf
      obtain ⟨_, hj, hb⟩ := hwf.child_spec k c j hk e
      obtain ⟨hi, hb'⟩ := hwf.findBliceFrom_b rest j i hj hf
      refine ⟨hi, ?_⟩
      rw [hb', hb]
      simp

theorem TrieWf.findBlice_b {t : List Node} (hwf : TrieWf t) {w : List Nat} {i : Nat}
    (hf : findBlice t w = some i) : i < t.length ∧ (nodeAt t i).b = w := by
  obtain ⟨hi, hb⟩ := hwf.findBliceFrom_b w 0 i hwf.nonempty hf
  rw [hwf.root_b] at hb
  exact ⟨hi, by simpa using hb⟩

/-- Under `TrieWf`, a node's `b` determines the node. -/
theorem TrieWf.b_inj {t : List Node} (hwf : TrieWf t) {i j : Nat} (hi : i < t.length)
    (hj : j < t.length) (hb : (nodeAt t i).b = (nodeAt t j).b) : i = j := by
  have h1 := hwf.path i hi
  have h2 := hwf.path j hj
  rw [hb] at h1
  rw [h1] at h2
  exact Option.some.inj h2

theorem TrieWf.b_nonempty {t : List Node} (hwf : TrieWf t) {i : Nat} (h1 : 1 ≤ i)
    (hi : i < t.length) : (nodeAt t i).b ≠ [] := by
  intro hb
  have h := hwf.path i hi
  rw [hb] at h
  have : (0 : Nat) = i := Option.some.inj h
  omega

theorem setChild_length (t : List Node) (n bb c : Nat) :
    (setChild t n bb c).length = t.length := by
  simp [setChild]

theorem nodeAt_setChild_self {t : List Node} {n : Nat} (h : n < t.length) (bb c : Nat) :
    nodeAt (setChild t n bb c) n =
      { nodeAt t n with child := fun x => if x = bb then some c else (nodeAt t n).child x } :=
  nodeAt_set_self h _

theorem nodeAt_setChild_ne {t : List Node} {n i : Nat} (h : n ≠ i) (bb c : Nat) :
    nodeAt (setChild t n bb c) i = nodeAt t i :=
  nodeAt_set_ne h _

/-- What one step of `insertBytes` preserves and creates: the trie only
grows (child edges are added, never changed), old nodes keep their byte
path, root flag, output flag and index, counters are untouched, and every
newly allocated node is a non-output node whose path was absent from the
original trie. -/
structure InsExt (t t' : List Node) : Prop where
  len_le : t.length ≤ t'.length
  child_le : ChildLE t t'
  b_eq : ∀ i, i < t.length → (nodeAt t' i).b = (nodeAt t i).b
  root_eq : ∀ i, i < t.length → (nodeAt t' i).root = (nodeAt t i).root
  output_eq : ∀ i, i < t.length → (nodeAt t' i).output = (nodeAt t i).output
  index_eq : ∀ i, i < t.length → (nodeAt t' i).index = (nodeAt t i).index
  counter_eq : ∀ i, (nodeAt t' i).counter = (nodeAt t i).counter
  fresh : ∀ i, t.length ≤ i → i < t'.length →
    (nodeAt t' i).output = false ∧ findBlice t (nodeAt t' i).b = none

theorem InsExt.irfl (t : List Node) : InsExt t t where
  len_le := Nat.le_refl _
  child_le := ChildLE.crfl t
  b_eq := fun _ _ => Eq.refl _
  root_eq := fun _ _ => Eq.refl _
  output_eq := fun _ _ => Eq.refl _
  index_eq := fun _ _ => Eq.refl _
  counter_eq := fun _ => Eq.refl _
  fresh := fun _ h1 h2 => absurd (Nat.lt_of_le_of_lt h1 h2) (Nat.lt_irrefl _)

theorem InsExt.itrans {t₁ t₂ t₃ : List Node} (h₁ : InsExt t₁ t₂) (h₂ : InsExt t₂ t₃) :
    InsExt t₁ t₃ where
  len_le := Nat.le_trans h₁.len_le h₂.len_le
  child_le := h₁.child_le.ctrans h₂.child_le
  b_eq := fun i hi => (h₂.b_eq i (Nat.lt_of_lt_of_le hi h₁.len_le)).trans (h₁.b_eq i hi)
  root_eq := fun i hi => (h₂.root_eq i (Nat.lt_of_lt_of_le hi h₁.len_le)).trans (h₁.root_eq i hi)
  output_eq := fun i hi =>
    (h₂.output_eq i (Nat.lt_of_lt_of_le hi h₁.len_le)).trans (h₁.output_eq i hi)
  index_eq := fun i hi => (h₂.index_eq i (Nat.lt_of_lt_of_le hi h₁.len_le)).trans (h₁.index_eq i hi)
  counter_eq := fun i => (h₂.counter_eq i).trans (h₁.counter_eq i)
  fresh := by
    intro i h1 h2
    rcases Nat.lt_or_ge i t₂.length with hm | hm
    · obtain ⟨ho, hf⟩ := h₁.fresh i h1 hm
      refine ⟨(h₂.output_eq i hm).trans ho, ?_⟩
      rw [h₂.b_eq i hm]
      exact hf
    · obtain ⟨ho, hf⟩ := h₂.fresh i hm h2
      refine ⟨ho, ?_⟩
      cases e : findBlice t₁ (nodeAt t₃ i).b with
      | none => rfl
      | some k => exact absurd (findBlice_mono h₁.child_le e) (by simp [hf])

/-- The inner byte loop of the insertion phase preserves trie
well-formedness, ends at the node of the full inserted path, and only grows
the trie. -/
theorem insertBytes_spec :
    ∀ (bs : List Nat) (t : List Node) (n : Nat) (path : List Nat),
      TrieWf t → findBlice t path = some n →
      TrieWf (insertBytes t n path bs).1 ∧
      findBlice (insertBytes t n path bs).1 (path ++ bs) = some (insertBytes t n path bs).2 ∧
      InsExt t (insertBytes t n path bs).1
  | [], t, n, path, hwf, hfind => by
    refine ⟨hwf, ?_, InsExt.irfl t⟩
    simpa using hfind
  | bb :: rest, t, n, path, hwf, hfind => by
    obtain ⟨hn, hbn⟩ := hwf.findBlice_b hfind
    cases e : (nodeAt t n).child bb with
    | some c =>
      have hstep : insertBytes t n path (bb :: rest) = insertBytes t c (path ++ [bb]) rest := by
        simp only [insertBytes, e]
      obtain ⟨hc1, hc, hbc⟩ := hwf.child_spec n bb c hn e
      have hfind' : findBlice t (path ++ [bb]) = some c := by
        rw [findBlice_append, hfind, findBliceFrom, e, findBliceFrom_nil]
      obtain ⟨w1, w2, w3⟩ := insertBytes_spec rest t c (path ++ [bb]) hwf hfind'
      rw [hstep]
      refine ⟨w1, ?_, w3⟩
      rw [show path ++ bb :: rest = (path ++ [bb]) ++ rest by simp]
      exact w2
    | none =>
      have hlen1 : (1 : Nat) ≤ t.length := hwf.nonempty
      have hnew : (path ++ [bb]).length = 1 → (some 0 : Option Nat) = some 0 := fun _ => rfl
      -- the extended trie
      set nw : Node :=
        { b := path ++ [bb]
          fail := if (path ++ [bb]).length = 1 then some 0 else none
          suffix := some 0 } with hnw
      set t₂ : List Node := setChild (t ++ [nw]) n bb t.length with ht₂
      have hstep : insertBytes t n path (bb :: rest) =
          insertBytes t₂ t.length (path ++ [bb]) rest := by
        simp only [insertBytes, e, ht₂, hnw]
      have hlen₂ : t₂.length = t.length + 1 := by
        rw [ht₂, setChild_length, List.length_append, List.length_singleton]
      have hne : n ≠ t.length := Nat.ne_of_lt hn
      have hn₁ : n < (t ++ [nw]).length := by
        rw [List.length_append, List.length_singleton]
        omega
      have hAtN : nodeAt t₂ n = { nodeAt t n with
          child := fun x => if x = bb then some t.length else (nodeAt t n).child x } := by
        rw [ht₂]
        rw [nodeAt_setChild_self hn₁]
        rw [nodeAt_append_lt hn]
      have hAtNew : nodeAt t₂ t.length = nw := by
        rw [ht₂, nodeAt_setChild_ne hne, nodeAt_append_self]
      have hAtOld : ∀ i, i ≠ n → i < t.length → nodeAt t₂ i = nodeAt t i := by
        intro i hi hlt
        rw [ht₂, nodeAt_setChild_ne (Ne.symm hi), nodeAt_append_lt hlt]
      have hAtOob : ∀ i, t.length + 1 ≤ i → nodeAt t₂ i = nodeAt t i := by
        intro i hi
        rw [nodeAt_of_length_le (by omega), nodeAt_of_length_le (by omega : t.length ≤ i)]
      have hchildle : ChildLE t t₂ := by
        intro i x j hx
        rcases eq_or_ne i n with rfl | hin
        · rw [hAtN]
          dsimp only
          rcases eq_or_ne x bb with rfl | hxbb
          · rw [e] at hx
            exact absurd hx (by simp)
          · rw [if_neg hxbb]
            exact hx
        · rcases Nat.lt_or_ge i t.length with hlt | hge
          · rw [hAtOld i hin hlt]
            exact hx
          · rw [hwf.child_oob hge] at hx
            exact absurd hx (by simp)
      have hfind₂ : findBlice t₂ (path ++ [bb]) = some t.length := by
        rw [findBlice_append, findBlice_mono hchildle hfind, findBliceFrom, hAtN]
        dsimp only
        rw [if_pos (Eq.refl bb), findBliceFrom_nil]
      have hwf₂ : TrieWf t₂ := by
        refine ⟨by omega, ?_, ?_, ?_, ?_, ?_⟩
        · rcases eq_or_ne (0 : Nat) n with rfl | h0n
          · rw [hAtN]
            exact hwf.root_b
          · rw [hAtOld 0 h0n hwf.nonempty]
            exact hwf.root_b
        · rcases eq_or_ne (0 : Nat) n with rfl | h0n
          · rw [hAtN]
            exact hwf.root_flag
          · rw [hAtOld 0 h0n hwf.nonempty]
            exact hwf.root_flag
        · intro i hi
          rcases eq_or_ne i n with rfl | hin
          · rw [hAtN]
            exact hwf.nonroot_flag i hi
          · rcases Nat.lt_or_ge i t.length with hlt | hge
            · rw [hAtOld i hin hlt]
              exact hwf.nonroot_flag i hi
            · rcases Nat.eq_or_lt_of_le hge with rfl | hgt
              · rw [hAtNew, hnw]
              · rw [hAtOob i hgt, nodeAt_of_length_le hge]
        · intro i hi
          rcases Nat.lt_or_ge i t.length with hlt | hge
          · have hb : (nodeAt t₂ i).b = (nodeAt t i).b := by
              rcases eq_or_ne i n with rfl | hin
              · rw [hAtN]
              · rw [hAtOld i hin hlt]
            rw [hb]
            exact findBlice_mono hchildle (hwf.path i hlt)
          · have : i = t.length := by omega
            subst this
            rw [hAtNew, hnw]
            exact hfind₂
        · intro i c j hi hx
          rcases eq_or_ne i n with rfl | hin
          · rw [hAtN] at hx
            dsimp only at hx
            rcases eq_or_ne c bb with rfl | hcbb
            · rw [if_pos (Eq.refl c)] at hx
              obtain rfl : t.length = j := Option.some.inj hx
              refine ⟨hlen1, by omega, ?_⟩
              rw [hAtNew, hnw, hAtN]
              dsimp only
              rw [hbn]
            · rw [if_neg hcbb] at hx
              obtain ⟨hj1, hj2, hj3⟩ := hwf.child_spec i c j hn hx
              refine ⟨hj1, by omega, ?_⟩
              have hbj : (nodeAt t₂ j).b = (nodeAt t j).b := by
                rcases eq_or_ne j i with rfl | hji
                · rw [hAtN]
                · rw [hAtOld j hji hj2]
              rw [hbj, hAtN]
              dsimp only
              exact hj3
          · rcases Nat.lt_or_ge i t.length with hlt | hge
            · rw [hAtOld i hin hlt] at hx
              obtain ⟨hj1, hj2, hj3⟩ := hwf.child_spec i c j hlt hx
              refine ⟨hj1, by omega, ?_⟩
              have hbj : (nodeAt t₂ j).b = (nodeAt t j).b := by
                rcases eq_or_ne j n with rfl | hjn
                · rw [hAtN]
                · rw [hAtOld j hjn hj2]
              rw [hbj, hAtOld i hin hlt]
              exact hj3
            · rcases Nat.eq_or_lt_of_le hge with rfl | hgt
              · rw [hAtNew, hnw] at hx
                exact absurd hx (by simp)
              · rw [hAtOob i hgt, nodeAt_of_length_le hge] at hx
                exact absurd hx (by simp)
      have hext : InsExt t t₂ := by
        refine ⟨by omega, hchildle, ?_, ?_, ?_, ?_, ?_, ?_⟩
        · intro i hi
          rcases eq_or_ne i n with rfl | hin
          · rw [hAtN]
          · rw [hAtOld i hin hi]
        · intro i hi
          rcases eq_or_ne i n with rfl | hin
          · rw [hAtN]
          · rw [hAtOld i hin hi]
        · intro i hi
          rcases eq_or_ne i n with rfl | hin
          · rw [hAtN]
          · rw [hAtOld i hin hi]
        · intro i hi
          rcases eq_or_ne i n with rfl | hin
          · rw [hAtN]
          · rw [hAtOld i hin hi]
        · intro i
          rcases eq_or_ne i n with rfl | hin
          · rw [hAtN]
          · rcases Nat.lt_or_ge i t.length with hlt | hge
            · rw [hAtOld i hin hlt]
            · rcases Nat.eq_or_lt_of_le hge with rfl | hgt
              · rw [hAtNew, hnw, nodeAt_of_length_le (Nat.le_refl _)]
              · rw [hAtOob i hgt]
        · intro i h1 h2
          have : i = t.length := by omega
          subst this
          rw [hAtNew, hnw]
          refine ⟨Eq.refl _, ?_⟩
          rw [findBlice_append, hfind, findBliceFrom, e, findBliceFrom_none]
      obtain ⟨w1, w2, w3⟩ := insertBytes_spec rest t₂ t.length (path ++ [bb]) hwf₂ hfind₂
      rw [hstep]
      refine ⟨w1, ?_, hext.itrans w3⟩
      rw [show path ++ bb :: rest = (path ++ [bb]) ++ rest by simp]
      exact w2

/-- The intended output marking, as a partial map from byte paths to
dictionary indices: `assign w = some j` means the node of path `w` is an
output node reporting index `j`. -/
def OutSpec (t : List Node) (assign : List Nat → Option Nat) : Prop :=
  (∀ i, i < t.length →
    (match assign (nodeAt t i).b with
      | some j => (nodeAt t i).output = true ∧ (nodeAt t i).index = j
      | none => (nodeAt t i).output = false)) ∧
  (∀ w j, assign w = some j → ∃ k, findBlice t w = some k)

/-- Marking one dictionary entry overrides the assignment at its path. -/
def override (assign : List Nat → Option Nat) (w₀ : List Nat) (k : Nat) :
    List Nat → Option Nat :=
  fun w => if w = w₀ then some k else assign w

/-- All counters zero (the state of a freshly built trie). -/
def ZeroCounters (t : List Node) : Prop := ∀ i, (nodeAt t i).counter = 0

/-- `insertEntry` preserves well-formedness and zero counters and overrides
the output assignment at the inserted pattern with the entry's index
(last write wins on duplicates). -/
theorem insertEntry_spec (t : List Node) (k : Nat) (blice : List Nat)
    (assign : List Nat → Option Nat) (hwf : TrieWf t) (hout : OutSpec t assign)
    (hz : ZeroCounters t) :
    TrieWf (insertEntry t k blice) ∧
      OutSpec (insertEntry t k blice) (override assign blice k) ∧
      ZeroCounters (insertEntry t k blice) ∧
      t.length ≤ (insertEntry t k blice).length ∧
      ChildLE t (insertEntry t k blice) ∧
      (∀ i, i < t.length → (nodeAt (insertEntry t k blice) i).b = (nodeAt t i).b ∧
        (nodeAt (insertEntry t k blice) i).root = (nodeAt t i).root) := by
  have hroot : findBlice t [] = some 0 := rfl
  obtain ⟨hwf', hfind', hext⟩ := insertBytes_spec blice t 0 [] hwf hroot
  set p := insertBytes t 0 [] blice with hp
  rw [List.nil_append] at hfind'
  obtain ⟨hn', hb'⟩ := hwf'.findBlice_b hfind'
  have hmark : insertEntry t k blice =
      p.1.set p.2 { nodeAt p.1 p.2 with output := true, index := k } := by
    rw [insertEntry]
  set t'' := p.1.set p.2 { nodeAt p.1 p.2 with output := true, index := k } with ht''
  have hlen'' : t''.length = p.1.length := by
    rw [ht'', List.length_set]
  have hAtM : nodeAt t'' p.2 = { nodeAt p.1 p.2 with output := true, index := k } :=
    nodeAt_set_self hn' _
  have hAtO : ∀ i, i ≠ p.2 → nodeAt t'' i = nodeAt p.1 i := by
    intro i hi
    exact nodeAt_set_ne (Ne.symm hi) _
  have hchild'' : ∀ i, (nodeAt t'' i).child = (nodeAt p.1 i).child := by
    intro i
    rcases eq_or_ne i p.2 with rfl | hi
    · rw [hAtM]
    · rw [hAtO i hi]
  have hb'' : ∀ i, (nodeAt t'' i).b = (nodeAt p.1 i).b := by
    intro i
    rcases eq_or_ne i p.2 with rfl | hi
    · rw [hAtM]
    · rw [hAtO i hi]
  have hfb'' : ∀ w, findBlice t'' w = findBlice p.1 w := findBlice_congr hchild''
  have hwf'' : TrieWf t'' := by
    refine ⟨by omega, ?_, ?_, ?_, ?_, ?_⟩
    · rw [hb'' 0]
      exact hwf'.root_b
    · rcases eq_or_ne (0 : Nat) p.2 with h0 | h0
      · have hr := hwf'.root_flag
        rw [h0] at hr
        rw [h0, hAtM]
        exact hr
      · rw [hAtO 0 h0]
        exact hwf'.root_flag
    · intro i hi
      rcases eq_or_ne i p.2 with rfl | h0
      · rw [hAtM]
        exact hwf'.nonroot_flag _ hi
      · rw [hAtO i h0]
        exact hwf'.nonroot_flag i hi
    · intro i hi
      rw [hb'' i, hfb'']
      exact hwf'.path i (by omega)
    · intro i c j hi hx
      rw [hchild'' i] at hx
      obtain ⟨h1, h2, h3⟩ := hwf'.child_spec i c j (by omega) hx
      refine ⟨h1, by omega, ?_⟩
      rw [hb'' j, hb'' i]
      exact h3
  rw [hmark]
  refine ⟨hwf'', ⟨?_, ?_⟩, ?_, ?_, ?_, ?_⟩
  · intro i hi
    rcases eq_or_ne i p.2 with rfl | hip
    · rw [hAtM]
      dsimp only
      rw [hb']
      rw [override, if_pos (Eq.refl blice)]
      exact ⟨Eq.refl _, Eq.refl _⟩
    · rw [hAtO i hip]
      have hbne : (nodeAt p.1 i).b ≠ blice := by
        intro hb
        have := hwf'.b_inj (by omega) hn' (hb.trans hb'.symm)
        exact hip this
      rw [override]
      rw [if_neg hbne]
      rcases Nat.lt_or_ge i t.length with hlt | hge
      · have hbi : (nodeAt p.1 i).b = (nodeAt t i).b := hext.b_eq i hlt
        have houti : (nodeAt p.1 i).output = (nodeAt t i).output := hext.output_eq i hlt
        have hidxi : (nodeAt p.1 i).index = (nodeAt t i).index := hext.index_eq i hlt
        have := hout.1 i hlt
        rw [hbi, houti, hidxi]
        exact this
      · obtain ⟨ho, hf⟩ := hext.fresh i hge (by omega)
        cases ea : assign (nodeAt p.1 i).b with
        | none => exact ho
        | some j =>
          obtain ⟨kk, hkk⟩ := hout.2 _ _ ea
          rw [hf] at hkk
          exact absurd hkk (by simp)
  · intro w j hw
    rw [override] at hw
    by_cases hwb : w = blice
    · subst hwb
      exact ⟨p.2, by rw [hfb'']; exact hfind'⟩
    · rw [if_neg hwb] at hw
      obtain ⟨kk, hkk⟩ := hout.2 w j hw
      exact ⟨kk, by rw [hfb'']; exact findBlice_mono hext.child_le hkk⟩
  · intro i
    have hc : (nodeAt t'' i).counter = (nodeAt p.1 i).counter := by
      rcases eq_or_ne i p.2 with rfl | hi
      · rw [hAtM]
      · rw [hAtO i hi]
    rw [hc, hext.counter_eq i]
    exact hz i
  · rw [hlen'']
    exact hext.len_le
  · refine hext.child_le.ctrans ?_
    intro i x j hx
    rw [hchild'' i]
    exact hx
  · intro i hlt
    constructor
    · rw [hb'' i]
      exact hext.b_eq i hlt
    · have hr : (nodeAt t'' i).root = (nodeAt p.1 i).root := by
        rcases eq_or_ne i p.2 with rfl | hi
        · rw [hAtM]
        · rw [hAtO i hi]
      rw [hr]
      exact hext.root_eq i hlt

/-- The override map accumulated over a dictionary segment starting at
index `k`. -/
def overrideAll (assign : List Nat → Option Nat) (k : Nat) :
    List (List Nat) → (List Nat → Option Nat)
  | [] => assign
  | e :: rest => overrideAll (override assign e k) (k + 1) rest

/-- The insertion loop preserves well-formedness and zero counters and
accumulates the output assignment over all entries. -/
theorem insertEntries_spec :
    ∀ (rest : List (List Nat)) (t : List Node) (k : Nat)
      (assign : List Nat → Option Nat), TrieWf t → OutSpec t assign → ZeroCounters t →
      TrieWf (insertEntries t k rest) ∧
        OutSpec (insertEntries t k rest) (overrideAll assign k rest) ∧
        ZeroCounters (insertEntries t k rest)
  | [], t, k, assign, hwf, hout, hz => ⟨hwf, hout, hz⟩
  | e :: rest, t, k, assign, hwf, hout, hz => by
    obtain ⟨hwf', hout', hz', _, _, _⟩ := insertEntry_spec t k e assign hwf hout hz
    exact insertEntries_spec rest (insertEntry t k e) (k + 1) (override assign e k) hwf' hout' hz'

/-- The position of the last occurrence of `w` in a dictionary segment. -/
def lastPos : List (List Nat) → List Nat → Option Nat
  | [], _ => none
  | e :: rest, w =>
    match lastPos rest w with
    | some p => some (p + 1)
    | none => if w = e then some 0 else none

theorem overrideAll_eq :
    ∀ (D : List (List Nat)) (assign : List Nat → Option Nat) (k : Nat) (w : List Nat),
      overrideAll assign k D w =
        (match lastPos D w with
          | some p => some (k + p)
          | none => assign w)
  | [], assign, k, w => by simp [overrideAll, lastPos]
  | e :: rest, assign, k, w => by
    rw [overrideAll, overrideAll_eq rest]
    rw [lastPos]
    cases ep : lastPos rest w with
    | some p =>
      dsimp only
      exact congrArg some (by omega)
    | none =>
      dsimp only
      rw [override]
      by_cases hw : w = e
      · rw [if_pos hw, if_pos hw]
        simp
      · rw [if_neg hw, if_neg hw]

theorem lastPos_none :
    ∀ (D : List (List Nat)) (w : List Nat),
      lastPos D w = none → ∀ q, D.get? q ≠ some w
  | [], w, h, q => by simp
  | e :: rest, w, h, q => by
    rw [lastPos] at h
    cases ep : lastPos rest w with
    | some p' => rw [ep] at h; exact absurd h (by simp)
    | none =>
      rw [ep] at h
      dsimp only at h
      by_cases hw : w = e
      · rw [if_pos hw] at h
        exact absurd h (by simp)
      · rw [if_neg hw] at h
        cases q with
        | zero =>
          intro hq
          exact hw (Option.some.inj hq).symm
        | succ q' =>
          rw [List.get?_cons_succ]
          exact lastPos_none rest w ep q'

theorem lastPos_get? :
    ∀ (D : List (List Nat)) (w : List Nat) (p : Nat),
      lastPos D w = some p → D.get? p = some w ∧ ∀ q, D.get? q = some w → q ≤ p
  | [], w, p, h => by simp [lastPos] at h
  | e :: rest, w, p, h => by
    rw [lastPos] at h
    cases ep : lastPos rest w with
    | some p' =>
      rw [ep] at h
      dsimp only at h
      obtain rfl : p' + 1 = p := Option.some.inj h
      obtain ⟨h1, h2⟩ := lastPos_get? rest w p' ep
      refine ⟨by simpa using h1, ?_⟩
      intro q hq
      cases q with
      | zero => omega
      | succ q' =>
        rw [List.get?_cons_succ] at hq
        have := h2 q' hq
        omega
    | none =>
      rw [ep] at h
      dsimp only at h
      by_cases hw : w = e
      · rw [if_pos hw] at h
        obtain rfl : (0 : Nat) = p := Option.some.inj h
        subst hw
        refine ⟨by simp, ?_⟩
        intro q hq
        cases q with
        | zero => omega
        | succ q' =>
          rw [List.get?_cons_succ] at hq
          exact absurd hq (lastPos_none rest w ep q')
      · rw [if_neg hw] at h
        exact absurd h (by simp)

/-! ### The breadth-first phase -/

theorem buildFailSuffix_length (t : List Node) : (buildFailSuffix t).length = t.length := by
  simp [buildFailSuffix]

theorem nodeAt_buildFailSuffix {t : List Node} {i : Nat} (h : i < t.length) :
    nodeAt (buildFailSuffix t) i = failSuffixUpdate t i := by
  rw [nodeAt_getElem?, buildFailSuffix, List.getElem?_map, List.getElem?_range h]
  rfl

theorem nodeAt_buildFailSuffix_oob {t : List Node} {i : Nat} (h : t.length ≤ i) :
    nodeAt (buildFailSuffix t) i = nodeAt t i := by
  rw [nodeAt_of_length_le (by rw [buildFailSuffix_length]; exact h), nodeAt_of_length_le h]

theorem bfs_b (t : List Node) (i : Nat) :
    (nodeAt (buildFailSuffix t) i).b = (nodeAt t i).b := by
  rcases Nat.lt_or_ge i t.length with h | h
  · rw [nodeAt_buildFailSuffix h, failSuffixUpdate]
    by_cases h0 : i = 0
    · rw [if_pos h0]
    · rw [if_neg h0]
  · rw [nodeAt_buildFailSuffix_oob h]

theorem bfs_child (t : List Node) (i : Nat) :
    (nodeAt (buildFailSuffix t) i).child = (nodeAt t i).child := by
  rcases Nat.lt_or_ge i t.length with h | h
  · rw [nodeAt_buildFailSuffix h, failSuffixUpdate]
    by_cases h0 : i = 0
    · rw [if_pos h0]
    · rw [if_neg h0]
  · rw [nodeAt_buildFailSuffix_oob h]

theorem bfs_root (t : List Node) (i : Nat) :
    (nodeAt (buildFailSuffix t) i).root = (nodeAt t i).root := by
  rcases Nat.lt_or_ge i t.length with h | h
  · rw [nodeAt_buildFailSuffix h, failSuffixUpdate]
    by_cases h0 : i = 0
    · rw [if_pos h0]
    · rw [if_neg h0]
  · rw [nodeAt_buildFailSuffix_oob h]

theorem bfs_output (t : List Node) (i : Nat) :
    (nodeAt (buildFailSuffix t) i).output = (nodeAt t i).output := by
  rcases Nat.lt_or_ge i t.length with h | h
  · rw [nodeAt_buildFailSuffix h, failSuffixUpdate]
    by_cases h0 : i = 0
    · rw [if_pos h0]
    · rw [if_neg h0]
  · rw [nodeAt_buildFailSuffix_oob h]

theorem bfs_index (t : List Node) (i : Nat) :
    (nodeAt (buildFailSuffix t) i).index = (nodeAt t i).index := by
  rcases Nat.lt_or_ge i t.length with h | h
  · rw [nodeAt_buildFailSuffix h, failSuffixUpdate]
    by_cases h0 : i = 0
    · rw [if_pos h0]
    · rw [if_neg h0]
  · rw [nodeAt_buildFailSuffix_oob h]

theorem bfs_counter (t : List Node) (i : Nat) :
    (nodeAt (buildFailSuffix t) i).counter = (nodeAt t i).counter := by
  rcases Nat.lt_or_ge i t.length with h | h
  · rw [nodeAt_buildFailSuffix h, failSuffixUpdate]
    by_cases h0 : i = 0
    · rw [if_pos h0]
    · rw [if_neg h0]
  · rw [nodeAt_buildFailSuffix_oob h]

theorem bfs_findBlice (t : List Node) (w : List Nat) :
    findBlice (buildFailSuffix t) w = findBlice t w :=
  findBlice_congr (bfs_child t) w

theorem bfs_firstSuffixNode (t : List Node) (bs : List Nat) :
    firstSuffixNode (buildFailSuffix t) bs = firstSuffixNode t bs := by
  unfold firstSuffixNode
  exact congrArg (fun f => List.findSome? f ((List.range bs.length).drop 1))
    (funext fun j => bfs_findBlice t (bs.drop j))

theorem bfs_firstOutputSuffixNode (t : List Node) (bs : List Nat) :
    firstOutputSuffixNode (buildFailSuffix t) bs = firstOutputSuffixNode t bs := by
  unfold firstOutputSuffixNode
  refine congrArg (fun f => List.findSome? f ((List.range bs.length).drop 1))
    (funext fun j => ?_)
  rw [bfs_findBlice t (bs.drop j)]
  cases findBlice t (bs.drop j) with
  | none => rfl
  | some i =>
    dsimp only
    rw [bfs_output]

theorem bfs_trieWf {t : List Node} (hwf : TrieWf t) : TrieWf (buildFailSuffix t) := by
  refine ⟨?_, ?_, ?_, ?_, ?_, ?_⟩
  · rw [buildFailSuffix_length]
    exact hwf.nonempty
  · rw [bfs_b]
    exact hwf.root_b
  · rw [bfs_root]
    exact hwf.root_flag
  · intro i hi
    rw [bfs_root]
    exact hwf.nonroot_flag i hi
  · intro i hi
    rw [buildFailSuffix_length] at hi
    rw [bfs_b, bfs_findBlice]
    exact hwf.path i hi
  · intro i c j hi hx
    rw [buildFailSuffix_length] at hi
    rw [bfs_child] at hx
    obtain ⟨h1, h2, h3⟩ := hwf.child_spec i c j hi hx
    refine ⟨h1, by rw [buildFailSuffix_length]; exact h2, ?_⟩
    rw [bfs_b, bfs_b]
    exact h3

theorem bfs_outSpec {t : List Node} {assign : List Nat → Option Nat}
    (hout : OutSpec t assign) : OutSpec (buildFailSuffix t) assign := by
  constructor
  · intro i hi
    rw [buildFailSuffix_length] at hi
    rw [bfs_b]
    have h := hout.1 i hi
    cases ea : assign (nodeAt t i).b with
    | none =>
      rw [ea] at h
      rw [bfs_output]
      exact h
    | some j =>
      rw [ea] at h
      rw [bfs_output, bfs_index]
      exact h
  · intro w j hw
    obtain ⟨k, hk⟩ := hout.2 w j hw
    exact ⟨k, by rw [bfs_findBlice]; exact hk⟩

theorem bfs_zeroCounters {t : List Node} (hz : ZeroCounters t) :
    ZeroCounters (buildFailSuffix t) := by
  intro i
  rw [bfs_counter]
  exact hz i

/-- Well-formedness of the trie after the breadth-first phase: the
insertion invariants plus the computed values of every non-root node's
`fail` and `suffix` pointer. -/
structure PostWf (t : List Node) : Prop where
  wf : TrieWf t
  fail_of : ∀ i, 1 ≤ i → i < t.length →
    (nodeAt t i).fail = some ((firstSuffixNode t (nodeAt t i).b).getD 0)
  suffix_of : ∀ i, 1 ≤ i → i < t.length →
    (nodeAt t i).suffix = some ((firstOutputSuffixNode t (nodeAt t i).b).getD 0)

theorem bfs_postWf {t : List Node} (hwf : TrieWf t) : PostWf (buildFailSuffix t) := by
  refine ⟨bfs_trieWf hwf, ?_, ?_⟩
  · intro i h1 hi
    rw [buildFailSuffix_length] at hi
    rw [nodeAt_buildFailSuffix hi, failSuffixUpdate, if_neg (by omega : ¬ i = 0)]
    dsimp only
    simp only [bfs_firstSuffixNode, bfs_b]
  · intro i h1 hi
    rw [buildFailSuffix_length] at hi
    rw [nodeAt_buildFailSuffix hi, failSuffixUpdate, if_neg (by omega : ¬ i = 0)]
    dsimp only
    simp only [bfs_firstOutputSuffixNode, bfs_b]

/-! ### The built matcher -/

theorem t0_wf : TrieWf [({ root := true } : Node)] := by
  refine ⟨by simp, rfl, rfl, ?_, ?_, ?_⟩
  · intro i hi
    rw [nodeAt_of_length_le (by simpa using hi)]
  · intro i hi
    have h0 : i = 0 := by simp at hi; omega
    subst h0
    rfl
  · intro i c j hi hx
    have h0 : i = 0 := by simp at hi; omega
    subst h0
    exact absurd hx (by simp [nodeAt])

theorem t0_out : OutSpec [({ root := true } : Node)] (fun _ => none) := by
  constructor
  · intro i hi
    have h0 : i = 0 := by simp at hi; omega
    subst h0
    rfl
  · intro w j hw
    exact absurd hw (by simp)

theorem t0_zero : ZeroCounters [({ root := true } : Node)] := by
  intro i
  rcases Nat.lt_or_ge i 1 with h | h
  · have h0 : i = 0 := by omega
    subst h0
    rfl
  · rw [nodeAt_of_length_le (by simpa using h)]

theorem newMatcher_trie (D : List (List Nat)) :
    (NewMatcher D).trie = buildFailSuffix (insertEntries [{ root := true }] 0 D) := rfl

theorem newMatcher_counter (D : List (List Nat)) : (NewMatcher D).counter = 0 := rfl

theorem newMatcher_extent (D : List (List Nat)) :
    (NewMatcher D).extent = (NewMatcher D).trie.length := rfl

theorem newMatcher_fails (D : List (List Nat)) :
    (NewMatcher D).fails = failsWalk (NewMatcher D).trie (NewMatcher D).trie.length := rfl

theorem newMatcher_postWf (D : List (List Nat)) : PostWf (NewMatcher D).trie := by
  rw [newMatcher_trie]
  exact bfs_postWf (insertEntries_spec D [{ root := true }] 0 (fun _ => none)
    t0_wf t0_out t0_zero).1

theorem newMatcher_outSpec (D : List (List Nat)) :
    OutSpec (NewMatcher D).trie (overrideAll (fun _ => none) 0 D) := by
  rw [newMatcher_trie]
  exact bfs_outSpec (insertEntries_spec D [{ root := true }] 0 (fun _ => none)
    t0_wf t0_out t0_zero).2.1

theorem newMatcher_zeroCounters (D : List (List Nat)) :
    ZeroCounters (NewMatcher D).trie := by
  rw [newMatcher_trie]
  exact bfs_zeroCounters (insertEntries_spec D [{ root := true }] 0 (fun _ => none)
    t0_wf t0_out t0_zero).2.2

/-- The final output assignment of `NewMatcher D`: the node of path `w` is
an output node reporting the last dictionary position of `w`. -/
theorem newMatcher_assign (D : List (List Nat)) (w : List Nat) :
    overrideAll (fun _ => none) 0 D w =
      (match lastPos D w with
        | some p => some p
        | none => none) := by
  rw [overrideAll_eq]
  cases lastPos D w with
  | none => rfl
  | some p => simp

/-! ### Depth bounds and suffix decomposition -/

theorem findBlice_take {t : List Node} {w : List Nat} {i : Nat}
    (hf : findBlice t w = some i) (m : Nat) : ∃ k, findBlice t (w.take m) = some k := by
  have hw : w = w.take m ++ w.drop m := by simp
  rw [hw, findBlice_append] at hf
  cases e : findBlice t (w.take m) with
  | none =>
    rw [e, findBliceFrom_none] at hf
    exact absurd hf (by simp)
  | some k => exact ⟨k, rfl⟩

/-- The depth of any allocated node is strictly less than the number of
allocated nodes: all its prefixes are distinct allocated nodes. -/
theorem TrieWf.depth_lt {t : List Node} (hwf : TrieWf t) {i : Nat} (hi : i < t.length) :
    (nodeAt t i).b.length < t.length := by
  set w := (nodeAt t i).b with hw
  have hf := hwf.path i hi
  have hex : ∀ m : Fin (w.length + 1), ∃ k, findBlice t (w.take m.val) = some k ∧ k < t.length := by
    intro m
    obtain ⟨k, hk⟩ := findBlice_take hf m.val
    exact ⟨k, hk, (hwf.findBlice_b hk).1⟩
  have hex' : ∀ m : Fin (w.length + 1), (findBlice t (w.take m.val)).getD 0 < t.length := by
    intro m
    obtain ⟨k, hk, hkl⟩ := hex m
    rw [hk]
    exact hkl
  have hlt : w.length + 1 ≤ t.length := by
    have hinj : Function.Injective
        (fun m : Fin (w.length + 1) =>
          (⟨(findBlice t (w.take m.val)).getD 0, hex' m⟩ : Fin t.length)) := by
      intro m₁ m₂ hm
      have hval : (findBlice t (w.take m₁.val)).getD 0 = (findBlice t (w.take m₂.val)).getD 0 :=
        congrArg Fin.val hm
      obtain ⟨k₁, hk₁, _⟩ := hex m₁
      obtain ⟨k₂, hk₂, _⟩ := hex m₂
      rw [hk₁, hk₂] at hval
      dsimp only [Option.getD] at hval
      subst hval
      have hb₁ := (hwf.findBlice_b hk₁).2
      have hb₂ := (hwf.findBlice_b hk₂).2
      have htake : w.take m₁.val = w.take m₂.val := by rw [← hb₁, ← hb₂]
      have hlen := congrArg List.length htake
      rw [List.length_take, List.length_take] at hlen
      have hm₁ := m₁.isLt
      have hm₂ := m₂.isLt
      exact Fin.ext (by omega)
    simpa using Fintype.card_le_of_injective _ hinj
  omega

/-- A nonempty suffix of `w ++ [c]` is `s₀ ++ [c]` for a suffix `s₀` of `w`. -/
theorem suffix_snoc_decomp {s w : List Nat} {c : Nat} (hs : s <:+ w ++ [c]) (hne : s ≠ []) :
    ∃ s₀, s = s₀ ++ [c] ∧ s₀ <:+ w := by
  have heq := List.suffix_iff_eq_drop.mp hs
  have hlen : s.length ≤ w.length + 1 := by
    have := hs.length_le
    simpa using this
  have hslen : 1 ≤ s.length := by
    cases s with
    | nil => exact absurd rfl hne
    | cons a l => simp
  have hm : (w ++ [c]).length - s.length ≤ w.length := by
    simp only [List.length_append, List.length_singleton]
    omega
  rw [List.drop_append_of_le_length hm] at heq
  refine ⟨w.drop ((w ++ [c]).length - s.length), heq, List.drop_suffix _ _⟩

/-! ### Characterizing the fail and suffix searches -/

theorem findSome?_range'_some {β : Type} :
    ∀ (n a : Nat) (f : Nat → Option β) (b : β),
      (List.range' a n).findSome? f = some b →
      ∃ j, a ≤ j ∧ j < a + n ∧ f j = some b ∧ ∀ j', a ≤ j' → j' < j → f j' = none
  | 0, a, f, b, h => by simp [List.findSome?] at h
  | n + 1, a, f, b, h => by
    rw [List.range'_succ, List.findSome?] at h
    cases e : f a with
    | some c =>
      rw [e] at h
      obtain rfl : c = b := Option.some.inj h
      exact ⟨a, Nat.le_refl a, by omega, e, fun j' h1 h2 => absurd (Nat.lt_of_le_of_lt h1 h2)
        (Nat.lt_irrefl _)⟩
    | none =>
      rw [e] at h
      obtain ⟨j, hj1, hj2, hj3, hj4⟩ := findSome?_range'_some n (a + 1) f b h
      refine ⟨j, by omega, by omega, hj3, ?_⟩
      intro j' h1 h2
      rcases Nat.eq_or_lt_of_le h1 with rfl | hgt
      · exact e
      · exact hj4 j' hgt h2

theorem findSome?_range'_none {β : Type} :
    ∀ (n a : Nat) (f : Nat → Option β),
      (List.range' a n).findSome? f = none →
      ∀ j, a ≤ j → j < a + n → f j = none
  | 0, a, f, h, j, h1, h2 => by omega
  | n + 1, a, f, h, j, h1, h2 => by
    rw [List.range'_succ, List.findSome?] at h
    cases e : f a with
    | some c => rw [e] at h; exact absurd h (by simp)
    | none =>
      rw [e] at h
      rcases Nat.eq_or_lt_of_le h1 with rfl | hgt
      · exact e
      · exact findSome?_range'_none n (a + 1) f h j hgt (by omega)

theorem range_drop_one (n : Nat) : (List.range n).drop 1 = List.range' 1 (n - 1) := by
  cases n with
  | zero => rfl
  | succ k =>
    rw [List.range_eq_range', show k + 1 - 1 = k from rfl, List.range'_succ]
    rfl

/-- A proper suffix of `w` with the same length as `w` is `w`; one of
smaller length determines its drop index. -/
theorem suffix_proper_length {s w : List Nat} (hs : s <:+ w) (hne : s ≠ w) :
    s.length < w.length := by
  rcases Nat.lt_or_ge s.length w.length with h | h
  · exact h
  · exfalso
    apply hne
    have := List.suffix_iff_eq_drop.mp hs
    rw [this]
    have hlen := hs.length_le
    have : w.length - s.length = 0 := by omega
    rw [this]
    simp

/-- The fail pointer of a built non-root node: the node of the longest
proper suffix of its path present in the trie (the root if none is). -/
theorem PostWf.fail_target {t : List Node} (hp : PostWf t) {i : Nat} (h1 : 1 ≤ i)
    (hi : i < t.length) :
    ∃ j, (nodeAt t i).fail = some j ∧ j < t.length ∧
      (nodeAt t j).b <:+ (nodeAt t i).b ∧
      (nodeAt t j).b.length < (nodeAt t i).b.length ∧
      (∀ s, s <:+ (nodeAt t i).b → s ≠ (nodeAt t i).b → (nodeAt t j).b.length < s.length →
        findBlice t s = none) := by
  have hd : (nodeAt t i).b ≠ [] := hp.wf.b_nonempty h1 hi
  have hdpos : 1 ≤ (nodeAt t i).b.length := by
    cases e : (nodeAt t i).b with
    | nil => exact absurd e hd
    | cons a l => simp
  have hfail := hp.fail_of i h1 hi
  rw [firstSuffixNode, range_drop_one] at hfail
  cases e : (List.range' 1 ((nodeAt t i).b.length - 1)).findSome?
      (fun j => findBlice t ((nodeAt t i).b.drop j)) with
  | some k =>
    rw [e] at hfail
    obtain ⟨j₀, hj1, hj2, hj3, hj4⟩ := findSome?_range'_some _ _ _ _ e
    obtain ⟨hk, hbk⟩ := hp.wf.findBlice_b hj3
    refine ⟨k, by simpa using hfail, hk, ?_, ?_, ?_⟩
    · rw [hbk]
      exact List.drop_suffix _ _
    · rw [hbk, List.length_drop]
      omega
    · intro s hs hne hlen
      have hslen := suffix_proper_length hs hne
      have hdrop := List.suffix_iff_eq_drop.mp hs
      rw [hbk, List.length_drop] at hlen
      have := hj4 ((nodeAt t i).b.length - s.length) (by omega) (by omega)
      rw [← hdrop] at this
      exact this
  | none =>
    rw [e] at hfail
    refine ⟨0, by simpa using hfail, hp.wf.nonempty, ?_, ?_, ?_⟩
    · rw [hp.wf.root_b]
      exact List.nil_suffix
    · rw [hp.wf.root_b]
      simpa using hdpos
    · intro s hs hne hlen
      have hslen := suffix_proper_length hs hne
      rw [hp.wf.root_b] at hlen
      have hdrop := List.suffix_iff_eq_drop.mp hs
      have := findSome?_range'_none _ _ _ e ((nodeAt t i).b.length - s.length)
        (by omega) (by omega)
      rw [← hdrop] at this
      exact this

/-- The suffix pointer of a built non-root node: the node of the longest
nonempty proper suffix of its path that is an output node (the root if none
is). -/
theorem PostWf.suffix_target {t : List Node} (hp : PostWf t) {i : Nat} (h1 : 1 ≤ i)
    (hi : i < t.length) :
    ∃ j, (nodeAt t i).suffix = some j ∧
      (j = 0 ∨ (1 ≤ j ∧ j < t.length ∧ (nodeAt t j).output = true ∧
        (nodeAt t j).b <:+ (nodeAt t i).b ∧
        (nodeAt t j).b.length < (nodeAt t i).b.length)) ∧
      (∀ s kk, s <:+ (nodeAt t i).b → s ≠ (nodeAt t i).b → s ≠ [] →
        findBlice t s = some kk → (nodeAt t kk).output = true →
        s.length ≤ (nodeAt t j).b.length) := by
  have hd : (nodeAt t i).b ≠ [] := hp.wf.b_nonempty h1 hi
  have hdpos : 1 ≤ (nodeAt t i).b.length := by
    cases e : (nodeAt t i).b with
    | nil => exact absurd e hd
    | cons a l => simp
  have hsuf := hp.suffix_of i h1 hi
  rw [firstOutputSuffixNode, range_drop_one] at hsuf
  cases e : (List.range' 1 ((nodeAt t i).b.length - 1)).findSome?
      (fun j => match findBlice t ((nodeAt t i).b.drop j) with
        | some ii => if (nodeAt t ii).output = true then some ii else none
        | none => none) with
  | some k =>
    rw [e] at hsuf
    obtain ⟨j₀, hj1, hj2, hj3, hj4⟩ := findSome?_range'_some _ _ _ _ e
    have hk0 : findBlice t ((nodeAt t i).b.drop j₀) = some k ∧ (nodeAt t k).output = true := by
      cases ef : findBlice t ((nodeAt t i).b.drop j₀) with
      | none => rw [ef] at hj3; exact absurd hj3 (by simp)
      | some kk =>
        rw [ef] at hj3
        dsimp only at hj3
        by_cases ho : (nodeAt t kk).output = true
        · rw [if_pos ho] at hj3
          obtain rfl : kk = k := Option.some.inj hj3
          exact ⟨rfl, ho⟩
        · rw [if_neg ho] at hj3
          exact absurd hj3 (by simp)
    obtain ⟨hk, hbk⟩ := hp.wf.findBlice_b hk0.1
    have h1k : 1 ≤ k := by
      rcases Nat.lt_or_ge k 1 with hk1 | hk1
      · exfalso
        have : k = 0 := by omega
        subst this
        rw [hp.wf.root_b] at hbk
        have := congrArg List.length hbk
        rw [List.length_drop] at this
        simp at this
        omega
      · exact hk1
    refine ⟨k, by simpa using hsuf, Or.inr ⟨h1k, hk, hk0.2, ?_, ?_⟩, ?_⟩
    · rw [hbk]
      exact List.drop_suffix _ _
    · rw [hbk, List.length_drop]
      omega
    · intro s kk hs hne hsne hf ho
      have hslen := suffix_proper_length hs hne
      have hspos : 1 ≤ s.length := by
        cases s with
        | nil => exact absurd rfl hsne
        | cons a l => simp
      by_contra hgt
      push_neg at hgt
      rw [hbk, List.length_drop] at hgt
      have hdrop := List.suffix_iff_eq_drop.mp hs
      have := hj4 ((nodeAt t i).b.length - s.length) (by omega) (by omega)
      rw [← hdrop, hf] at this
      dsimp only at this
      rw [if_pos ho] at this
      exact absurd this (by simp)
  | none =>
    rw [e] at hsuf
    refine ⟨0, by simpa using hsuf, Or.inl rfl, ?_⟩
    intro s kk hs hne hsne hf ho
    have hslen := suffix_proper_length hs hne
    have hspos : 1 ≤ s.length := by
      cases s with
      | nil => exact absurd rfl hsne
      | cons a l => simp
    exfalso
    have hdrop := List.suffix_iff_eq_drop.mp hs
    have := findSome?_range'_none _ _ _ e ((nodeAt t i).b.length - s.length)
      (by omega) (by omega)
    rw [← hdrop, hf] at this
    dsimp only at this
    rw [if_pos ho] at this
    exact absurd this (by simp)

/-- A suffix of a list of the same length is the list itself. -/
theorem suffix_eq_of_length_eq {s w : List Nat} (hs : s <:+ w) (h : w.length ≤ s.length) :
    s = w := by
  have := List.suffix_iff_eq_drop.mp hs
  rw [this]
  have : w.length - s.length = 0 := by omega
  rw [this]
  simp

/-- Totality and characterization of the precomputed transition walk: from
an allocated node it reaches, within `fuel` greater than the node's depth,
either the nearest node along the fail chain owning a child for `c`, or the
root; every longer trie-path suffix lacks a child for `c`. -/
theorem failsWalk_spec {t : List Node} (hp : PostWf t) :
    ∀ (fuel i c : Nat), i < t.length → (nodeAt t i).b.length < fuel →
      ∃ j, failsWalk t fuel i c = some j ∧ j < t.length ∧
        (nodeAt t j).b <:+ (nodeAt t i).b ∧
        ((nodeAt t j).child c ≠ none ∨ j = 0) ∧
        (∀ s k, s <:+ (nodeAt t i).b → (nodeAt t j).b.length < s.length →
          findBlice t s = some k → (nodeAt t k).child c = none)
  | 0, i, c, hi, hfuel => by omega
  | fuel + 1, i, c, hi, hfuel => by
    rw [failsWalk]
    by_cases hcond : (nodeAt t i).child c = none ∧ (nodeAt t i).root = false
    · have h1 : 1 ≤ i := by
        rcases Nat.lt_or_ge i 1 with h0 | h0
        · exfalso
          have : i = 0 := by omega
          subst this
          rw [hp.wf.root_flag] at hcond
          exact absurd hcond.2 (by simp)
        · exact h0
      obtain ⟨j₁, hfail, hj₁l, hj₁s, hj₁len, hj₁max⟩ := hp.fail_target h1 hi
      rw [if_pos hcond, hfail]
      obtain ⟨j, hwalk, hjl, hjs, hjc, hjmax⟩ :=
        failsWalk_spec hp fuel j₁ c hj₁l (by omega)
      refine ⟨j, hwalk, hjl, hjs.trans hj₁s, hjc, ?_⟩
      intro s k hs hlen hf
      rcases Nat.lt_or_ge (nodeAt t j₁).b.length s.length with hgt | hle
      · by_cases hsb : s = (nodeAt t i).b
        · subst hsb
          obtain ⟨hkl, hkb⟩ := hp.wf.findBlice_b hf
          have : k = i := hp.wf.b_inj hkl hi hkb
          subst this
          exact hcond.1
        · exact absurd hf (by simp [hj₁max s hs hsb hgt])
      · exact hjmax s k (List.suffix_of_suffix_length_le hs hj₁s hle) hlen hf
    · rw [if_neg hcond]
      refine ⟨i, rfl, hi, List.suffix_refl _, ?_, ?_⟩
      · rcases Classical.not_and_iff_or_not_not.mp hcond with hch | hrt
        · exact Or.inl hch
        · right
          rcases Nat.lt_or_ge i 1 with h0 | h0
          · omega
          · exact absurd (hp.wf.nonroot_flag i h0) (by simpa using hrt)
      · intro s k hs hlen hf
        have := hs.length_le
        omega

/-! ### The suffix chain -/

/-- Strictly-below reachability along suffix links, stopping before the
root (the nodes visited by the scan loops' chain walks). -/
inductive ChainBelow (t : List Node) : Nat → Nat → Prop where
  | here {g s : Nat} : (nodeAt t g).suffix = some s → (nodeAt t s).root = false →
      ChainBelow t g s
  | there {g s s' : Nat} : (nodeAt t g).suffix = some s → (nodeAt t s).root = false →
      ChainBelow t s s' → ChainBelow t g s'

theorem ChainBelow.compose {t : List Node} {g s s' : Nat} (h₁ : ChainBelow t g s)
    (h₂ : ChainBelow t s s') : ChainBelow t g s' := by
  induction h₁ with
  | here hsuf hroot => exact ChainBelow.there hsuf hroot h₂
  | there hsuf hroot _ ih => exact ChainBelow.there hsuf hroot (ih h₂)

/-- Forward direction: a chain-reachable node is an allocated non-root
output node whose path is a shorter suffix. -/
theorem chainBelow_props {t : List Node} (hp : PostWf t) {g s : Nat}
    (h : ChainBelow t g s) : 1 ≤ g → g < t.length →
    1 ≤ s ∧ s < t.length ∧ (nodeAt t s).output = true ∧
      (nodeAt t s).b <:+ (nodeAt t g).b ∧
      (nodeAt t s).b.length < (nodeAt t g).b.length := by
  induction h with
  | @here g s hsuf hroot =>
    intro hg1 hgl
    obtain ⟨j, hj, hjp, _⟩ := hp.suffix_target hg1 hgl
    rw [hsuf] at hj
    obtain rfl : s = j := Option.some.inj hj
    rcases hjp with rfl | ⟨h1, h2, h3, h4, h5⟩
    · exact absurd hp.wf.root_flag (by simpa using hroot)
    · exact ⟨h1, h2, h3, h4, h5⟩
  | @there g s s' hsuf hroot hchain ih =>
    intro hg1 hgl
    obtain ⟨j, hj, hjp, _⟩ := hp.suffix_target hg1 hgl
    rw [hsuf] at hj
    obtain rfl : s = j := Option.some.inj hj
    rcases hjp with rfl | ⟨h1, h2, h3, h4, h5⟩
    · exact absurd hp.wf.root_flag (by simpa using hroot)
    · obtain ⟨k1, k2, k3, k4, k5⟩ := ih h1 h2
      exact ⟨k1, k2, k3, k4.trans h4, by omega⟩

/-- Backward direction: every allocated non-root output node whose path is
a shorter suffix of `g`'s path is reachable along `g`'s suffix chain. -/
theorem chainBelow_of_suffix {t : List Node} (hp : PostWf t) :
    ∀ (d g s : Nat), (nodeAt t g).b.length ≤ d → 1 ≤ g → g < t.length →
      1 ≤ s → s < t.length → (nodeAt t s).output = true →
      (nodeAt t s).b <:+ (nodeAt t g).b →
      (nodeAt t s).b.length < (nodeAt t g).b.length → ChainBelow t g s
  | 0, g, s, hd, hg1, hgl, hs1, hsl, hout, hsuf, hlen => by omega
  | d + 1, g, s, hd, hg1, hgl, hs1, hsl, hout, hsuf, hlen => by
    obtain ⟨j, hj, hjp, hjmax⟩ := hp.suffix_target hg1 hgl
    have hsb : (nodeAt t s).b ≠ [] := hp.wf.b_nonempty hs1 hsl
    have hsneq : (nodeAt t s).b ≠ (nodeAt t g).b := by
      intro he
      rw [he] at hlen
      omega
    have hbound := hjmax (nodeAt t s).b s hsuf hsneq hsb (hp.wf.path s hsl) hout
    rcases hjp with rfl | ⟨hj1, hjl, hjout, hjsuf, hjlen⟩
    · exfalso
      rw [hp.wf.root_b] at hbound
      have hpos : 1 ≤ (nodeAt t s).b.length := by
        cases e : (nodeAt t s).b with
        | nil => exact absurd e hsb
        | cons a l => simp
      simp only [List.length_nil] at hbound
      omega
    · have hroot : (nodeAt t j).root = false := hp.wf.nonroot_flag j hj1
      rcases Nat.eq_or_lt_of_le hbound with heq | hlt
      · have hsj : (nodeAt t s).b = (nodeAt t j).b :=
          suffix_eq_of_length_eq
            (List.suffix_of_suffix_length_le hsuf hjsuf (by omega)) (by omega)
        have : s = j := hp.wf.b_inj hsl hjl hsj
        subst this
        exact ChainBelow.here hj hroot
      · have hsufj : (nodeAt t s).b <:+ (nodeAt t j).b :=
          List.suffix_of_suffix_length_le hsuf hjsuf (by omega)
        exact ChainBelow.there hj hroot
          (chainBelow_of_suffix hp d j s (by omega) hj1 hjl hs1 hsl hout hsufj hlt)

/-! ### The scan state -/

/-- The classical Aho-Corasick state invariant: the current node's path is
the longest suffix of the consumed input that is a trie path. -/
def StateInv (t : List Node) (w : List Nat) (n : Nat) : Prop :=
  n < t.length ∧ (nodeAt t n).b <:+ w ∧
    ∀ s k, s <:+ w → findBlice t s = some k → s.length ≤ (nodeAt t n).b.length

theorem stateInv_nil {t : List Node} (hwf : TrieWf t) : StateInv t [] 0 := by
  refine ⟨hwf.nonempty, by rw [hwf.root_b], ?_⟩
  intro s k hs hf
  have := List.eq_nil_of_suffix_nil hs
  subst this
  simp

/-- The abstract specification of the precomputed transition table, as
established by `failsWalk_spec` for built matchers. -/
def FailsSpec (t : List Node) (fails : Nat → Nat → Option Nat) : Prop :=
  ∀ i c, i < t.length → ∃ j, fails i c = some j ∧ j < t.length ∧
    (nodeAt t j).b <:+ (nodeAt t i).b ∧
    ((nodeAt t j).child c ≠ none ∨ j = 0) ∧
    (∀ s k, s <:+ (nodeAt t i).b → (nodeAt t j).b.length < s.length →
      findBlice t s = some k → (nodeAt t k).child c = none)

theorem newMatcher_failsSpec (D : List (List Nat)) :
    FailsSpec (NewMatcher D).trie (NewMatcher D).fails := by
  intro i c hi
  rw [newMatcher_fails]
  exact failsWalk_spec (newMatcher_postWf D) (NewMatcher D).trie.length i c hi
    ((newMatcher_postWf D).wf.depth_lt hi)

theorem suffix_snoc {s w : List Nat} (c : Nat) (h : s <:+ w) : s ++ [c] <:+ w ++ [c] := by
  obtain ⟨u, hu⟩ := h
  exact ⟨u, by rw [← List.append_assoc, hu]⟩

theorem findBlice_snoc {t : List Node} {s₀ : List Nat} {c k : Nat}
    (h : findBlice t (s₀ ++ [c]) = some k) :
    ∃ k₀, findBlice t s₀ = some k₀ ∧ (nodeAt t k₀).child c = some k := by
  rw [findBlice_append] at h
  cases e₀ : findBlice t s₀ with
  | none =>
    rw [e₀, findBliceFrom_none] at h
    exact absurd h (by simp)
  | some k₀ =>
    rw [e₀] at h
    rw [findBliceFrom] at h
    cases ec : (nodeAt t k₀).child c with
    | none =>
      rw [ec, findBliceFrom_none] at h
      exact absurd h (by simp)
    | some kk =>
      rw [ec, findBliceFrom_nil] at h
      exact ⟨k₀, rfl, by rw [ec, Option.some.inj h]⟩

/-- One byte step of the scan: from a state satisfying the invariant, the
code's `n1` (fail-adjusted node) either has a child for `c` — the new state,
satisfying the invariant for the extended input — or is the root with no
child for `c`, the new state when no nonempty suffix of the extended input
is a trie path. -/
theorem nextState_spec {t : List Node} (hp : PostWf t)
    {fails : Nat → Nat → Option Nat} (hfails : FailsSpec t fails)
    {pfx : List Nat} {n : Nat} (c : Nat) (hSI : StateInv t pfx n) :
    ∃ n1, (if (nodeAt t n).root = false ∧ (nodeAt t n).child c = none then fails n c
        else some n) = some n1 ∧ n1 < t.length ∧
      ((∃ f, (nodeAt t n1).child c = some f ∧ 1 ≤ f ∧ f < t.length ∧
          (nodeAt t f).b = (nodeAt t n1).b ++ [c] ∧ StateInv t (pfx ++ [c]) f) ∨
        ((nodeAt t n1).child c = none ∧ n1 = 0 ∧ StateInv t (pfx ++ [c]) 0)) := by
  obtain ⟨hn, hbsuf, hmax⟩ := hSI
  suffices h : ∃ n1, (if (nodeAt t n).root = false ∧ (nodeAt t n).child c = none then fails n c
      else some n) = some n1 ∧ n1 < t.length ∧
      ((nodeAt t n1).child c ≠ none ∨ n1 = 0) ∧
      (∀ s k, s <:+ pfx → findBlice t s = some k → (nodeAt t k).child c ≠ none →
        s.length ≤ (nodeAt t n1).b.length) ∧ (nodeAt t n1).b <:+ pfx by
    obtain ⟨n1, hstep, hn1, hchoice, hdom, hsufp⟩ := h
    refine ⟨n1, hstep, hn1, ?_⟩
    cases ec : (nodeAt t n1).child c with
    | some f =>
      left
      obtain ⟨hf1, hfl, hbf⟩ := hp.wf.child_spec n1 c f hn1 ec
      refine ⟨f, rfl, hf1, hfl, hbf, hfl, ?_, ?_⟩
      · rw [hbf]
        exact suffix_snoc c hsufp
      · intro s k hs hf
        rcases eq_or_ne s [] with rfl | hsne
        · simp
        · obtain ⟨s₀, rfl, hs₀⟩ := suffix_snoc_decomp hs hsne
          obtain ⟨k₀, hk₀, hck₀⟩ := findBlice_snoc hf
          have hlen : s₀.length ≤ (nodeAt t n1).b.length :=
            hdom s₀ k₀ hs₀ hk₀ (by simp [hck₀])
          rw [hbf]
          simp only [List.length_append, List.length_singleton]
          omega
    | none =>
      right
      rcases hchoice with hch | h0
      · exact absurd ec (by simpa using hch)
      · subst h0
        refine ⟨rfl, rfl, hp.wf.nonempty, by rw [hp.wf.root_b]; exact List.nil_suffix, ?_⟩
        intro s k hs hf
        rw [hp.wf.root_b]
        simp only [List.length_nil]
        by_contra hgt
        push_neg at hgt
        have hsne : s ≠ [] := by
          intro he
          subst he
          simp at hgt
        obtain ⟨s₀, rfl, hs₀⟩ := suffix_snoc_decomp hs hsne
        obtain ⟨k₀, hk₀, hck₀⟩ := findBlice_snoc hf
        have hlen : s₀.length ≤ (nodeAt t 0).b.length :=
          hdom s₀ k₀ hs₀ hk₀ (by simp [hck₀])
        rw [hp.wf.root_b] at hlen
        simp only [List.length_nil, Nat.le_zero] at hlen
        have hs₀nil : s₀ = [] := List.length_eq_zero.mp hlen
        subst hs₀nil
        have : (0 : Nat) = k₀ := Option.some.inj hk₀
        subst this
        rw [ec] at hck₀
        exact absurd hck₀ (by simp)
  by_cases hcond : (nodeAt t n).root = false ∧ (nodeAt t n).child c = none
  · obtain ⟨j, hj, hjl, hjs, hjc, hjdom⟩ := hfails n c hn
    rw [if_pos hcond, hj]
    refine ⟨j, rfl, hjl, hjc, ?_, hjs.trans hbsuf⟩
    intro s k hs hf hch
    have hsn : s.length ≤ (nodeAt t n).b.length := hmax s k hs hf
    have hssuf : s <:+ (nodeAt t n).b := List.suffix_of_suffix_length_le hs hbsuf hsn
    by_contra hgt
    push_neg at hgt
    exact hch (hjdom s k hssuf hgt hf)
  · rw [if_neg hcond]
    rcases Classical.not_and_iff_or_not_not.mp hcond with hrt | hch
    · have hroot : (nodeAt t n).root = true := by
        cases e : (nodeAt t n).root with
        | false => exact absurd e hrt
        | true => rfl
      have hn0 : n = 0 := by
        by_contra hne
        have := hp.wf.nonroot_flag n (by omega)
        rw [hroot] at this
        exact absurd this (by simp)
      subst hn0
      refine ⟨0, rfl, hn, ?_, ?_, hbsuf⟩
      · exact Or.inr rfl
      · intro s k hs hf hchild
        exact hmax s k hs hf
    · have hchild : (nodeAt t n).child c ≠ none := hch
      refine ⟨n, rfl, hn, Or.inl hchild, ?_, hbsuf⟩
      intro s k hs hf _
      exact hmax s k hs hf

/-- `s` is an allocated output node whose path is a nonempty proper suffix
of `g`'s path: exactly the nodes the suffix-chain walk from `g` visits. -/
def OutSuffix (t : List Node) (g s : Nat) : Prop :=
  1 ≤ s ∧ s < t.length ∧ (nodeAt t s).output = true ∧
    (nodeAt t s).b <:+ (nodeAt t g).b ∧
    (nodeAt t s).b.length < (nodeAt t g).b.length

theorem outSuffix_trans {t : List Node} {f i s : Nat} (h₁ : OutSuffix t f i)
    (h₂ : OutSuffix t i s) : OutSuffix t f s :=
  ⟨h₂.1, h₂.2.1, h₂.2.2.1, h₂.2.2.2.1.trans h₁.2.2.2.1, by
    have := h₁.2.2.2.2
    have := h₂.2.2.2.2
    omega⟩

theorem outSuffix_shorter {t : List Node} {f g s : Nat}
    (hg : (nodeAt t g).b <:+ (nodeAt t f).b)
    (h : OutSuffix t f s) (hlen : (nodeAt t s).b.length < (nodeAt t g).b.length) :
    OutSuffix t g s :=
  ⟨h.1, h.2.1, h.2.2.1,
    List.suffix_of_suffix_length_le h.2.2.2.1 hg (by omega), hlen⟩

/-- What one suffix-link step sees: the link of `g` points at the longest
output proper suffix `j` of `g`'s path; `g`'s output suffixes are `j` and
`j`'s output suffixes, or none at all when the link is the root. -/
theorem outSuffix_step {t : List Node} (hp : PostWf t) {g : Nat} (hg1 : 1 ≤ g)
    (hgl : g < t.length) :
    ∃ j, (nodeAt t g).suffix = some j ∧
      ((j = 0 ∧ ∀ s, ¬ OutSuffix t g s) ∨
        (1 ≤ j ∧ j < t.length ∧ (nodeAt t j).output = true ∧
          (nodeAt t j).b <:+ (nodeAt t g).b ∧
          (nodeAt t j).b.length < (nodeAt t g).b.length ∧
          ∀ s, OutSuffix t g s ↔ (s = j ∨ OutSuffix t j s))) := by
  obtain ⟨j, hj, hjp, hjmax⟩ := hp.suffix_target hg1 hgl
  refine ⟨j, hj, ?_⟩
  rcases hjp with rfl | ⟨hj1, hjl, hjout, hjsuf, hjlen⟩
  · left
    refine ⟨rfl, ?_⟩
    rintro s ⟨hs1, hsl, hout, hsuf, hlen⟩
    have hsb : (nodeAt t s).b ≠ [] := hp.wf.b_nonempty hs1 hsl
    have hsneq : (nodeAt t s).b ≠ (nodeAt t g).b := fun he => by rw [he] at hlen; omega
    have := hjmax (nodeAt t s).b s hsuf hsneq hsb (hp.wf.path s hsl) hout
    rw [hp.wf.root_b] at this
    simp only [List.length_nil, Nat.le_zero] at this
    exact hsb (List.length_eq_zero.mp this)
  · right
    refine ⟨hj1, hjl, hjout, hjsuf, hjlen, ?_⟩
    intro s
    constructor
    · rintro ⟨hs1, hsl, hout, hsuf, hlen⟩
      have hsb : (nodeAt t s).b ≠ [] := hp.wf.b_nonempty hs1 hsl
      have hsneq : (nodeAt t s).b ≠ (nodeAt t g).b := fun he => by rw [he] at hlen; omega
      have hbound := hjmax (nodeAt t s).b s hsuf hsneq hsb (hp.wf.path s hsl) hout
      rcases Nat.eq_or_lt_of_le hbound with heq | hlt
      · left
        exact hp.wf.b_inj hsl hjl (suffix_eq_of_length_eq
          (List.suffix_of_suffix_length_le hsuf hjsuf (by omega)) (by omega))
      · right
        exact ⟨hs1, hsl, hout,
          List.suffix_of_suffix_length_le hsuf hjsuf (by omega), hlt⟩
    · rintro (rfl | hOS)
      · exact ⟨hj1, hjl, hjout, hjsuf, hjlen⟩
      · exact outSuffix_trans ⟨hj1, hjl, hjout, hjsuf, hjlen⟩ hOS

/-- Index injectivity over output nodes (a consequence of the output
assignment mapping each index to one dictionary word). -/
def IndexInj (t : List Node) : Prop :=
  ∀ i j, i < t.length → j < t.length → (nodeAt t i).output = true →
    (nodeAt t j).output = true → (nodeAt t i).index = (nodeAt t j).index → i = j

/-- Correctness of the suffix-chain walk of `Match`.  Fixed data: the
pristine structure `t₀`, the pre-chain state `(tₛ, hitsₛ)` and the chain
origin `f₀`.  The walk is at `g` (the origin or one of its output
suffixes), having already stamped and reported the output suffixes of `f₀`
longer than `g`'s path; it completes the remaining ones, breaking early
only below a node stamped before the walk, whose own output suffixes were
already stamped and reported. -/
theorem matchChain_correct {t₀ tₛ : List Node} {hitsₛ : List Nat} (hp : PostWf t₀)
    (cnt : Nat) (hinj : IndexInj t₀) {f₀ : Nat} (hf₀1 : 1 ≤ f₀) (hf₀l : f₀ < t₀.length)
    (closed_exc : ∀ i s, (nodeAt tₛ i).counter = cnt → OutSuffix t₀ i s →
      ((nodeAt tₛ s).counter = cnt ∨ i = f₀))
    (stamp_mem_s : ∀ i, 1 ≤ i → i < t₀.length → (nodeAt tₛ i).counter = cnt →
      (nodeAt t₀ i).index ∈ hitsₛ)
    (mem_stamp_s : ∀ x, x ∈ hitsₛ → ∃ i, 1 ≤ i ∧ i < t₀.length ∧
      (nodeAt tₛ i).counter = cnt ∧ (nodeAt t₀ i).output = true ∧ (nodeAt t₀ i).index = x) :
    ∀ (fuel : Nat) (t : List Node) (g : Nat) (hits : List Nat),
      SameShape t₀ t →
      (g = f₀ ∨ OutSuffix t₀ f₀ g) →
      (nodeAt t₀ g).b.length < fuel →
      (∀ i, (nodeAt t i).counter = cnt ↔ ((nodeAt tₛ i).counter = cnt ∨
        (OutSuffix t₀ f₀ i ∧ (nodeAt t₀ g).b.length ≤ (nodeAt t₀ i).b.length))) →
      (∀ x, x ∈ hits ↔ (x ∈ hitsₛ ∨ ∃ s, OutSuffix t₀ f₀ s ∧
        (nodeAt t₀ g).b.length ≤ (nodeAt t₀ s).b.length ∧ (nodeAt t₀ s).index = x)) →
      hits.Nodup →
      ∃ t' hits', matchChain cnt fuel t g hits = some (t', hits') ∧ SameShape t₀ t' ∧
        (∀ i, (nodeAt t' i).counter = cnt ↔
          ((nodeAt tₛ i).counter = cnt ∨ OutSuffix t₀ f₀ i)) ∧
        (∀ x, x ∈ hits' ↔
          (x ∈ hitsₛ ∨ ∃ s, OutSuffix t₀ f₀ s ∧ (nodeAt t₀ s).index = x)) ∧
        hits'.Nodup
  | 0, t, g, hits, hsh, hg, hfuel, hstamps, hhits, hnodup => by omega
  | fuel + 1, t, g, hits, hsh, hg, hfuel, hstamps, hhits, hnodup => by
    have hgb : (nodeAt t₀ g).b <:+ (nodeAt t₀ f₀).b := by
      rcases hg with rfl | hOS
      · exact List.suffix_refl _
      · exact hOS.2.2.2.1
    have hg1 : 1 ≤ g := by
      rcases hg with rfl | hOS
      · exact hf₀1
      · exact hOS.1
    have hgl : g < t₀.length := by
      rcases hg with rfl | hOS
      · exact hf₀l
      · exact hOS.2.1
    obtain ⟨j, hsuf₀, hdisj⟩ := outSuffix_step hp hg1 hgl
    have hsuf : (nodeAt t g).suffix = some j := by rw [← hsh.suffix_eq g]; exact hsuf₀
    rcases hdisj with ⟨rfl, hnone⟩ | ⟨hj1, hjl, hjout, hjsuf, hjlen, hiff⟩
    · -- the suffix link is the root: the walk stops at once
      have hroot : (nodeAt t 0).root = true := by
        rw [← hsh.root_eq 0]
        exact hp.wf.root_flag
      refine ⟨t, hits, ?_, hsh, ?_, ?_, hnodup⟩
      · rw [matchChain, hsuf]
        dsimp only
        rw [if_pos hroot]
      · intro i
        rw [hstamps i]
        constructor
        · rintro (h | ⟨h1, _⟩)
          · exact Or.inl h
          · exact Or.inr h1
        · rintro (h | h1)
          · exact Or.inl h
          · rcases Nat.lt_or_ge (nodeAt t₀ i).b.length (nodeAt t₀ g).b.length with hlt | hge
            · exact absurd (outSuffix_shorter hgb h1 hlt) (hnone i)
            · exact Or.inr ⟨h1, hge⟩
      · intro x
        rw [hhits x]
        constructor
        · rintro (h | ⟨s, hs, _, hx⟩)
          · exact Or.inl h
          · exact Or.inr ⟨s, hs, hx⟩
        · rintro (h | ⟨s, hs, hx⟩)
          · exact Or.inl h
          · rcases Nat.lt_or_ge (nodeAt t₀ s).b.length (nodeAt t₀ g).b.length with hlt | hge
            · exact absurd (outSuffix_shorter hgb hs hlt) (hnone s)
            · exact Or.inr ⟨s, hs, hge, hx⟩
    · -- the link points at the longest output proper suffix `j`
      have hjne : j ≠ f₀ := by
        intro he
        subst he
        have := hgb.length_le
        omega
      have hjOSg : OutSuffix t₀ g j := ⟨hj1, hjl, hjout, hjsuf, hjlen⟩
      have hjOS : OutSuffix t₀ f₀ j := by
        rcases hg with rfl | hOS
        · exact hjOSg
        · exact outSuffix_trans hOS hjOSg
      have hroot : (nodeAt t j).root = false := by
        rw [← hsh.root_eq j]
        exact hp.wf.nonroot_flag j hj1
      by_cases hstj : (nodeAt t j).counter = cnt
      · -- `j` was stamped before this walk: break, everything below is done
        have hstsj : (nodeAt tₛ j).counter = cnt := by
          rcases (hstamps j).mp hstj with h | ⟨_, hlen⟩
          · exact h
          · omega
        refine ⟨t, hits, ?_, hsh, ?_, ?_, hnodup⟩
        · rw [matchChain, hsuf]
          dsimp only
          rw [if_neg (by simp [hroot]), if_neg (by simp [hstj])]
        · intro i
          rw [hstamps i]
          constructor
          · rintro (h | ⟨h1, _⟩)
            · exact Or.inl h
            · exact Or.inr h1
          · rintro (h | h1)
            · exact Or.inl h
            · rcases Nat.lt_or_ge (nodeAt t₀ i).b.length (nodeAt t₀ g).b.length with hlt | hge
              · rcases (hiff i).mp (outSuffix_shorter hgb h1 hlt) with rfl | hOSj
                · exact Or.inl hstsj
                · rcases closed_exc j i hstsj hOSj with h | h
                  · exact Or.inl h
                  · exact absurd h hjne
              · exact Or.inr ⟨h1, hge⟩
        · intro x
          rw [hhits x]
          constructor
          · rintro (h | ⟨s, hs, _, hx⟩)
            · exact Or.inl h
            · exact Or.inr ⟨s, hs, hx⟩
          · rintro (h | ⟨s, hs, hx⟩)
            · exact Or.inl h
            · rcases Nat.lt_or_ge (nodeAt t₀ s).b.length (nodeAt t₀ g).b.length with hlt | hge
              · have hstss : (nodeAt tₛ s).counter = cnt := by
                  rcases (hiff s).mp (outSuffix_shorter hgb hs hlt) with rfl | hOSj
                  · exact hstsj
                  · rcases closed_exc j s hstsj hOSj with h' | h'
                    · exact h'
                    · exact absurd h' hjne
                exact Or.inl (hx ▸ stamp_mem_s s hs.1 hs.2.1 hstss)
              · exact Or.inr ⟨s, hs, hge, hx⟩
      · -- `j` is fresh: stamp it, report it, continue below it
        have hjlt : j < t.length := by
          rw [← hsh.length_eq]
          exact hjl
        have hidxj : (nodeAt t j).index = (nodeAt t₀ j).index := (hsh.index_eq j).symm
        have hgap : ∀ i, OutSuffix t₀ f₀ i → (nodeAt t₀ j).b.length ≤ (nodeAt t₀ i).b.length →
            (nodeAt t₀ g).b.length ≤ (nodeAt t₀ i).b.length ∨ i = j := by
          intro i hOS hlen
          rcases Nat.lt_or_ge (nodeAt t₀ i).b.length (nodeAt t₀ g).b.length with hlt | hge
          · rcases (hiff i).mp (outSuffix_shorter hgb hOS hlt) with rfl | hOSj
            · exact Or.inr rfl
            · have := hOSj.2.2.2.2
              omega
          · exact Or.inl hge
        have hstamps₁ : ∀ i, (nodeAt (stampNode t j cnt) i).counter = cnt ↔
            ((nodeAt tₛ i).counter = cnt ∨
              (OutSuffix t₀ f₀ i ∧ (nodeAt t₀ j).b.length ≤ (nodeAt t₀ i).b.length)) := by
          intro i
          rcases eq_or_ne j i with rfl | hne
          · rw [nodeAt_stampNode_self hjlt]
            simp only [true_iff]
            exact Or.inr ⟨hjOS, Nat.le_refl _⟩
          · rw [nodeAt_stampNode_ne hne]
            rw [hstamps i]
            constructor
            · rintro (h | ⟨h1, h2⟩)
              · exact Or.inl h
              · exact Or.inr ⟨h1, by omega⟩
            · rintro (h | ⟨h1, h2⟩)
              · exact Or.inl h
              · rcases hgap i h1 h2 with hge | rfl
                · exact Or.inr ⟨h1, hge⟩
                · exact absurd rfl hne
        have hhits₁ : ∀ x, x ∈ hits ++ [(nodeAt t j).index] ↔
            (x ∈ hitsₛ ∨ ∃ s, OutSuffix t₀ f₀ s ∧
              (nodeAt t₀ j).b.length ≤ (nodeAt t₀ s).b.length ∧ (nodeAt t₀ s).index = x) := by
          intro x
          rw [List.mem_append, List.mem_singleton, hhits x, hidxj]
          constructor
          · rintro ((h | ⟨s, hs, hlen, hx⟩) | rfl)
            · exact Or.inl h
            · exact Or.inr ⟨s, hs, by omega, hx⟩
            · exact Or.inr ⟨j, hjOS, Nat.le_refl _, rfl⟩
          · rintro (h | ⟨s, hs, hlen, hx⟩)
            · exact Or.inl (Or.inl h)
            · rcases hgap s hs hlen with hge | rfl
              · exact Or.inl (Or.inr ⟨s, hs, hge, hx⟩)
              · exact Or.inr hx.symm
        have hnodup₁ : (hits ++ [(nodeAt t j).index]).Nodup := by
          rw [List.nodup_append]
          refine ⟨hnodup, List.nodup_singleton _, ?_⟩
          intro x hx hmem
          rw [List.mem_singleton] at hmem
          subst hmem
          rw [hidxj] at hx
          rcases (hhits _).mp hx with h | ⟨s, hs, hlen, hx'⟩
          · obtain ⟨i, hi1, hil, hsti, hiout, hix⟩ := mem_stamp_s _ h
            have : i = j := hinj i j hil hjl hiout hjout hix
            subst this
            exact hstj (((hstamps i).mpr (Or.inl hsti)))
          · have : s = j := hinj s j hs.2.1 hjl hs.2.2.1 hjout hx'
            subst this
            omega
        obtain ⟨t', hits', hrec, hsh', hst', hht', hnd'⟩ :=
          matchChain_correct hp cnt hinj hf₀1 hf₀l closed_exc stamp_mem_s mem_stamp_s
            fuel (stampNode t j cnt) j (hits ++ [(nodeAt t j).index])
            (hsh.trans (sameShape_stampNode_self t j cnt))
            (Or.inr hjOS) (by omega) hstamps₁ hhits₁ hnodup₁
        refine ⟨t', hits', ?_, hsh', hst', hht', hnd'⟩
        rw [matchChain, hsuf]
        dsimp only
        rw [if_neg (by simp [hroot]), if_pos (by simp [hstj])]
        exact hrec

/-- The output nodes matched within the consumed input `pfx`: allocated
non-root output nodes whose path ends at some position of `pfx`. -/
def MatchedNode (t : List Node) (pfx : List Nat) (i : Nat) : Prop :=
  1 ≤ i ∧ i < t.length ∧ (nodeAt t i).output = true ∧
    ∃ m, m ≤ pfx.length ∧ (nodeAt t i).b <:+ pfx.take m

theorem matchedNode_snoc {t : List Node} {pfx : List Nat} {c i : Nat} :
    MatchedNode t (pfx ++ [c]) i ↔
      (MatchedNode t pfx i ∨ (1 ≤ i ∧ i < t.length ∧ (nodeAt t i).output = true ∧
        (nodeAt t i).b <:+ pfx ++ [c])) := by
  constructor
  · rintro ⟨h1, h2, h3, m, hm, hsuf⟩
    rcases le_or_lt m pfx.length with hle | hgt
    · rw [List.take_append_of_le_length hle] at hsuf
      exact Or.inl ⟨h1, h2, h3, m, hle, hsuf⟩
    · rw [List.length_append, List.length_singleton] at hm
      have hmeq : m = pfx.length + 1 := by omega
      subst hmeq
      rw [List.take_of_length_le (by simp)] at hsuf
      exact Or.inr ⟨h1, h2, h3, hsuf⟩
  · rintro (⟨h1, h2, h3, m, hm, hsuf⟩ | ⟨h1, h2, h3, hsuf⟩)
    · refine ⟨h1, h2, h3, m, ?_, ?_⟩
      · rw [List.length_append, List.length_singleton]
        omega
      · rw [List.take_append_of_le_length hm]
        exact hsuf
    · refine ⟨h1, h2, h3, pfx.length + 1, by simp, ?_⟩
      rw [List.take_of_length_le (by simp)]
      exact hsuf

/-- After a child move, the newly matched nodes are the new state node (if
it is an output node) and its output suffixes. -/
theorem matched_decomp_move {t : List Node} (hp : PostWf t) {pfx : List Nat} {c f : Nat}
    (hf1 : 1 ≤ f) (hSI : StateInv t (pfx ++ [c]) f) :
    ∀ i, MatchedNode t (pfx ++ [c]) i ↔
      (MatchedNode t pfx i ∨ (i = f ∧ (nodeAt t f).output = true) ∨ OutSuffix t f i) := by
  obtain ⟨hfl, hfsuf, hfmax⟩ := hSI
  intro i
  rw [matchedNode_snoc]
  constructor
  · rintro (h | ⟨h1, h2, h3, hsuf⟩)
    · exact Or.inl h
    · right
      have hpath := hp.wf.path i h2
      have hlen : (nodeAt t i).b.length ≤ (nodeAt t f).b.length :=
        hfmax (nodeAt t i).b i hsuf hpath
      have hsub : (nodeAt t i).b <:+ (nodeAt t f).b :=
        List.suffix_of_suffix_length_le hsuf hfsuf hlen
      rcases Nat.eq_or_lt_of_le hlen with heq | hlt
      · left
        have hbi : (nodeAt t i).b = (nodeAt t f).b := suffix_eq_of_length_eq hsub (by omega)
        have : i = f := hp.wf.b_inj h2 hfl hbi
        subst this
        exact ⟨rfl, h3⟩
      · exact Or.inr ⟨h1, h2, h3, hsub, hlt⟩
  · rintro (h | ⟨rfl, hout⟩ | hOS)
    · exact Or.inl h
    · exact Or.inr ⟨hf1, hfl, hout, hfsuf⟩
    · exact Or.inr ⟨hOS.1, hOS.2.1, hOS.2.2.1, hOS.2.2.2.1.trans hfsuf⟩

/-- When the step falls back to the root, nothing new is matched. -/
theorem matched_decomp_stay {t : List Node} (hp : PostWf t) {pfx : List Nat} {c : Nat}
    (hSI : StateInv t (pfx ++ [c]) 0) :
    ∀ i, MatchedNode t (pfx ++ [c]) i ↔ MatchedNode t pfx i := by
  obtain ⟨_, _, hmax⟩ := hSI
  intro i
  rw [matchedNode_snoc]
  constructor
  · rintro (h | ⟨h1, h2, h3, hsuf⟩)
    · exact h
    · exfalso
      have hpath := hp.wf.path i h2
      have hlen := hmax (nodeAt t i).b i hsuf hpath
      rw [hp.wf.root_b] at hlen
      simp only [List.length_nil, Nat.le_zero] at hlen
      exact hp.wf.b_nonempty h1 h2 (List.length_eq_zero.mp hlen)
  · exact Or.inl

theorem matchedNode_outSuffix {t : List Node} {pfx : List Nat} {i s : Nat}
    (hM : MatchedNode t pfx i) (hOS : OutSuffix t i s) : MatchedNode t pfx s := by
  obtain ⟨h1, h2, h3, m, hm, hsuf⟩ := hM
  exact ⟨hOS.1, hOS.2.1, hOS.2.2.1, m, hm, hOS.2.2.2.1.trans hsuf⟩

/-- Correctness of the whole byte loop of `Match`: scanning `rest` from a
state satisfying the invariants yields stamps and hits that capture exactly
the output nodes matched in the full consumed input, with no duplicate
reports. -/
theorem matchLoop_correct {t₀ : List Node} (hp : PostWf t₀) (cnt : Nat)
    (hinj : IndexInj t₀) {fails : Nat → Nat → Option Nat} (hfails : FailsSpec t₀ fails)
    {ext : Nat} (hext : t₀.length ≤ ext) :
    ∀ (rest : List Nat) (t : List Node) (n : Nat) (hits pfx : List Nat),
      SameShape t₀ t →
      StateInv t₀ pfx n →
      (∀ i, (nodeAt t i).counter = cnt ↔ MatchedNode t₀ pfx i) →
      (∀ x, x ∈ hits ↔ ∃ i, MatchedNode t₀ pfx i ∧ (nodeAt t₀ i).index = x) →
      hits.Nodup →
      ∃ t' n' hits', matchLoop cnt ext fails t n hits rest = some (t', n', hits') ∧
        SameShape t₀ t' ∧ StateInv t₀ (pfx ++ rest) n' ∧
        (∀ i, (nodeAt t' i).counter = cnt ↔ MatchedNode t₀ (pfx ++ rest) i) ∧
        (∀ x, x ∈ hits' ↔ ∃ i, MatchedNode t₀ (pfx ++ rest) i ∧ (nodeAt t₀ i).index = x) ∧
        hits'.Nodup
  | [], t, n, hits, pfx, hsh, hSI, hstamps, hhits, hnodup =>
    ⟨t, n, hits, rfl, hsh, by simpa using hSI, by simpa using hstamps,
      by simpa using hhits, hnodup⟩
  | c :: rest, t, n, hits, pfx, hsh, hSI, hstamps, hhits, hnodup => by
    obtain ⟨n1, hstep, hn1l, hdisj⟩ := nextState_spec hp hfails c hSI
    have happ : pfx ++ c :: rest = (pfx ++ [c]) ++ rest := by simp
    have hstep_t : (if (nodeAt t n).root = false ∧ (nodeAt t n).child c = none then fails n c
        else some n) = some n1 := by
      rw [← hsh.root_eq n, ← hsh.child_eq n]
      exact hstep
    rcases hdisj with ⟨f, hcf, hf1, hfl, hbf, hSIf⟩ | ⟨hch0, hn10, hSI0⟩
    · -- a child move to `f`
      have hcf_t : (nodeAt t n1).child c = some f := by
        rw [← hsh.child_eq n1]
        exact hcf
      have hdecomp := matched_decomp_move hp hf1 hSIf
      have hcont : ∀ (t₁ : List Node) (hits₁ : List Nat), SameShape t₀ t₁ →
          (∀ i, (nodeAt t₁ i).counter = cnt ↔
            (MatchedNode t₀ pfx i ∨ (i = f ∧ (nodeAt t₀ f).output = true))) →
          (∀ x, x ∈ hits₁ ↔ ((∃ i, MatchedNode t₀ pfx i ∧ (nodeAt t₀ i).index = x) ∨
            (x = (nodeAt t₀ f).index ∧ (nodeAt t₀ f).output = true))) →
          hits₁.Nodup →
          ∃ t' n' hits',
            (match matchChain cnt ext t₁ f hits₁ with
              | none => none
              | some (t2, hits2) => matchLoop cnt ext fails t2 f hits2 rest) =
              some (t', n', hits') ∧
            SameShape t₀ t' ∧ StateInv t₀ (pfx ++ c :: rest) n' ∧
            (∀ i, (nodeAt t' i).counter = cnt ↔ MatchedNode t₀ (pfx ++ c :: rest) i) ∧
            (∀ x, x ∈ hits' ↔
              ∃ i, MatchedNode t₀ (pfx ++ c :: rest) i ∧ (nodeAt t₀ i).index = x) ∧
            hits'.Nodup := by
        intro t₁ hits₁ hsh₁ hstamps₁ hhits₁ hnodup₁
        have closed_exc : ∀ i s, (nodeAt t₁ i).counter = cnt → OutSuffix t₀ i s →
            ((nodeAt t₁ s).counter = cnt ∨ i = f) := by
          intro i s hst hOS
          rcases (hstamps₁ i).mp hst with hM | ⟨rfl, _⟩
          · exact Or.inl ((hstamps₁ s).mpr (Or.inl (matchedNode_outSuffix hM hOS)))
          · exact Or.inr rfl
        have stamp_mem_s : ∀ i, 1 ≤ i → i < t₀.length → (nodeAt t₁ i).counter = cnt →
            (nodeAt t₀ i).index ∈ hits₁ := by
          intro i _ _ hst
          rcases (hstamps₁ i).mp hst with hM | ⟨rfl, hout⟩
          · exact (hhits₁ _).mpr (Or.inl ⟨i, hM, rfl⟩)
          · exact (hhits₁ _).mpr (Or.inr ⟨rfl, hout⟩)
        have mem_stamp_s : ∀ x, x ∈ hits₁ → ∃ i, 1 ≤ i ∧ i < t₀.length ∧
            (nodeAt t₁ i).counter = cnt ∧ (nodeAt t₀ i).output = true ∧
            (nodeAt t₀ i).index = x := by
          intro x hx
          rcases (hhits₁ x).mp hx with ⟨i, hM, hix⟩ | ⟨rfl, hout⟩
          · exact ⟨i, hM.1, hM.2.1, (hstamps₁ i).mpr (Or.inl hM), hM.2.2.1, hix⟩
          · exact ⟨f, hf1, hfl, (hstamps₁ f).mpr (Or.inr ⟨rfl, hout⟩), hout, rfl⟩
        obtain ⟨t₂, hits₂, hchain, hsh₂, hst₂, hht₂, hnd₂⟩ :=
          matchChain_correct hp cnt hinj hf1 hfl closed_exc stamp_mem_s mem_stamp_s
            ext t₁ f hits₁ hsh₁ (Or.inl rfl)
            (Nat.lt_of_lt_of_le (hp.wf.depth_lt hfl) hext)
            (fun i => by
              rw [hstamps₁ i]
              constructor
              · exact Or.inl
              · rintro (h | ⟨hOS, hlen⟩)
                · exact h
                · have := hOS.2.2.2.2
                  omega)
            (fun x => by
              rw [hhits₁ x]
              constructor
              · exact Or.inl
              · rintro (h | ⟨s, hOS, hlen, _⟩)
                · exact h
                · have := hOS.2.2.2.2
                  omega)
            hnodup₁
        have hstamps₂ : ∀ i, (nodeAt t₂ i).counter = cnt ↔
            MatchedNode t₀ (pfx ++ [c]) i := by
          intro i
          rw [hst₂ i, hstamps₁ i, hdecomp i]
          constructor
          · rintro ((h | h) | h)
            · exact Or.inl h
            · exact Or.inr (Or.inl h)
            · exact Or.inr (Or.inr h)
          · rintro (h | (h | h))
            · exact Or.inl (Or.inl h)
            · exact Or.inl (Or.inr h)
            · exact Or.inr h
        have hhits₂ : ∀ x, x ∈ hits₂ ↔
            ∃ i, MatchedNode t₀ (pfx ++ [c]) i ∧ (nodeAt t₀ i).index = x := by
          intro x
          rw [hht₂ x, hhits₁ x]
          constructor
          · rintro ((⟨i, hM, hix⟩ | ⟨rfl, hout⟩) | ⟨s, hOS, hix⟩)
            · exact ⟨i, (hdecomp i).mpr (Or.inl hM), hix⟩
            · exact ⟨f, (hdecomp f).mpr (Or.inr (Or.inl ⟨rfl, hout⟩)), rfl⟩
            · exact ⟨s, (hdecomp s).mpr (Or.inr (Or.inr hOS)), hix⟩
          · rintro ⟨i, hM, hix⟩
            rcases (hdecomp i).mp hM with h | (⟨rfl, hout⟩ | h)
            · exact Or.inl (Or.inl ⟨i, h, hix⟩)
            · exact Or.inl (Or.inr ⟨hix.symm, hout⟩)
            · exact Or.inr ⟨i, h, hix⟩
        obtain ⟨t', n', hits', hloop, hshf, hSIfin, hstf, hhtf, hndf⟩ :=
          matchLoop_correct hp cnt hinj hfails hext rest t₂ f hits₂ (pfx ++ [c])
            hsh₂ hSIf hstamps₂ hhits₂ hnd₂
        refine ⟨t', n', hits', ?_, hshf, by rwa [← happ] at hSIfin, ?_, ?_, hndf⟩
        · rw [hchain]
          exact hloop
        · intro i
          rw [happ]
          exact hstf i
        · intro x
          rw [happ]
          exact hhtf x
      by_cases hC : (nodeAt t f).output = true ∧ (nodeAt t f).counter ≠ cnt
      · have houtf : (nodeAt t₀ f).output = true := by
          rw [hsh.output_eq f]
          exact hC.1
        have hunM : ¬ MatchedNode t₀ pfx f := fun h => hC.2 ((hstamps f).mpr h)
        have hflt : f < t.length := by
          rw [← hsh.length_eq]
          exact hfl
        have hidxf : (nodeAt t f).index = (nodeAt t₀ f).index := (hsh.index_eq f).symm
        have h1 := hcont (stampNode t f cnt) (hits ++ [(nodeAt t f).index])
          (hsh.trans (sameShape_stampNode_self t f cnt))
          (fun i => by
            rcases eq_or_ne f i with rfl | hne
            · rw [nodeAt_stampNode_self hflt]
              simp only [true_iff]
              exact Or.inr ⟨by trivial, houtf⟩
            · rw [nodeAt_stampNode_ne hne, hstamps i]
              constructor
              · exact Or.inl
              · rintro (h | ⟨rfl, _⟩)
                · exact h
                · exact absurd rfl hne)
          (fun x => by
            rw [List.mem_append, List.mem_singleton, hhits x, hidxf]
            constructor
            · rintro (h | rfl)
              · exact Or.inl h
              · exact Or.inr ⟨rfl, houtf⟩
            · rintro (h | ⟨rfl, _⟩)
              · exact Or.inl h
              · exact Or.inr rfl)
          (by
            rw [List.nodup_append]
            refine ⟨hnodup, List.nodup_singleton _, ?_⟩
            intro x hx hmem
            rw [List.mem_singleton] at hmem
            subst hmem
            rw [hidxf] at hx
            obtain ⟨i, hM, hix⟩ := (hhits _).mp hx
            have : i = f := hinj i f hM.2.1 hfl hM.2.2.1 houtf hix
            subst this
            exact hunM hM)
        obtain ⟨t', n', hits', hmain, hrest⟩ := h1
        refine ⟨t', n', hits', ?_, hrest⟩
        rw [matchLoop, hstep_t]
        dsimp only
        rw [hcf_t]
        dsimp only
        rw [if_pos hC]
        exact hmain
      · have h1 := hcont t hits hsh
          (fun i => by
            rw [hstamps i]
            constructor
            · exact Or.inl
            · rintro (h | ⟨rfl, hout⟩)
              · exact h
              · have hout_t : (nodeAt t i).output = true := by
                  rw [← hsh.output_eq i]
                  exact hout
                by_cases hst : (nodeAt t i).counter = cnt
                · exact (hstamps i).mp hst
                · exact absurd ⟨hout_t, hst⟩ hC)
          (fun x => by
            rw [hhits x]
            constructor
            · exact Or.inl
            · rintro (h | ⟨rfl, hout⟩)
              · exact h
              · have hout_t : (nodeAt t f).output = true := by
                  rw [← hsh.output_eq f]
                  exact hout
                by_cases hst : (nodeAt t f).counter = cnt
                · exact ⟨f, (hstamps f).mp hst, rfl⟩
                · exact absurd ⟨hout_t, hst⟩ hC)
          hnodup
        obtain ⟨t', n', hits', hmain, hrest⟩ := h1
        refine ⟨t', n', hits', ?_, hrest⟩
        rw [matchLoop, hstep_t]
        dsimp only
        rw [hcf_t]
        dsimp only
        rw [if_neg hC]
        exact hmain
    · -- no child anywhere: the state falls back to the root
      subst hn10
      have hch0_t : (nodeAt t 0).child c = none := by
        rw [← hsh.child_eq 0]
        exact hch0
      have hdecomp := matched_decomp_stay hp hSI0
      obtain ⟨t', n', hits', hloop, hshf, hSIfin, hstf, hhtf, hndf⟩ :=
        matchLoop_correct hp cnt hinj hfails hext rest t 0 hits (pfx ++ [c]) hsh hSI0
          (fun i => by rw [hstamps i, ← hdecomp i])
          (fun x => by
            rw [hhits x]
            constructor
            · rintro ⟨i, hM, hix⟩
              exact ⟨i, (hdecomp i).mpr hM, hix⟩
            · rintro ⟨i, hM, hix⟩
              exact ⟨i, (hdecomp i).mp hM, hix⟩)
          hnodup
      refine ⟨t', n', hits', ?_, hshf, by rwa [← happ] at hSIfin, ?_, ?_, hndf⟩
      · rw [matchLoop, hstep_t]
        dsimp only
        rw [hch0_t]
        exact hloop
      · intro i
        rw [happ]
        exact hstf i
      · intro x
        rw [happ]
        exact hhtf x

theorem SameShape.rfl (t : List Node) : SameShape t t := Eq.refl _

theorem SameShape.trans {t₁ t₂ t₃ : List Node} (h₁ : SameShape t₁ t₂)
    (h₂ : SameShape t₂ t₃) : SameShape t₁ t₃ := Eq.trans h₁ h₂

theorem counter_stampNode (t : List Node) (s cnt i : Nat) :
    (nodeAt (stampNode t s cnt) i).counter = (nodeAt t i).counter ∨
      (nodeAt (stampNode t s cnt) i).counter = cnt := by
  rcases eq_or_ne s i with rfl | hne
  · rcases Nat.lt_or_ge s t.length with hs | hs
    · right
      rw [nodeAt_stampNode_self hs]
    · left
      rw [stampNode_of_length_le hs]
  · left
    rw [nodeAt_stampNode_ne hne]

/-- After a successful suffix-chain walk, the trie has the same shape and
every stamp is either the old one or the current call counter. -/
theorem matchChain_post {cnt : Nat} :
    ∀ (fuel : Nat) (t : List Node) (f : Nat) (hits : List Nat) (t' : List Node)
      (hits' : List Nat), matchChain cnt fuel t f hits = some (t', hits') →
      SameShape t t' ∧
        ∀ i, (nodeAt t' i).counter = (nodeAt t i).counter ∨ (nodeAt t' i).counter = cnt
  | 0, t, f, hits, t', hits', h => by simp [matchChain] at h
  | fuel + 1, t, f, hits, t', hits', h => by
    rw [matchChain] at h
    cases e : (nodeAt t f).suffix with
    | none => rw [e] at h; exact absurd h (by simp)
    | some s =>
      rw [e] at h
      dsimp only at h
      by_cases hr : (nodeAt t s).root
      · rw [if_pos hr] at h
        obtain ⟨rfl, rfl⟩ : t = t' ∧ hits = hits' := by
          constructor <;> [exact congrArg Prod.fst (Option.some.inj h);
            exact congrArg Prod.snd (Option.some.inj h)]
        exact ⟨SameShape.rfl t, fun i => Or.inl rfl⟩
      · rw [if_neg hr] at h
        by_cases hc : (nodeAt t s).counter ≠ cnt
        · rw [if_pos hc] at h
          obtain ⟨hsh, hcnt⟩ := matchChain_post fuel (stampNode t s cnt) s
            (hits ++ [(nodeAt t s).index]) t' hits' h
          refine ⟨(sameShape_stampNode_self t s cnt).trans hsh, fun i => ?_⟩
          rcases hcnt i with h1 | h1
          · rcases counter_stampNode t s cnt i with h2 | h2
            · exact Or.inl (h1.trans h2)
            · exact Or.inr (h1.trans h2)
          · exact Or.inr h1
        · rw [if_neg hc] at h
          obtain ⟨rfl, rfl⟩ : t = t' ∧ hits = hits' := by
            constructor <;> [exact congrArg Prod.fst (Option.some.inj h);
              exact congrArg Prod.snd (Option.some.inj h)]
          exact ⟨SameShape.rfl t, fun i => Or.inl rfl⟩

/-- After a successful byte loop, the trie has the same shape and every
stamp is either the old one or the current call counter. -/
theorem matchLoop_post {cnt ext : Nat} {fails : Nat → Nat → Option Nat} :
    ∀ (input : List Nat) (t : List Node) (n : Nat) (hits : List Nat) (t' : List Node)
      (n' : Nat) (hits' : List Nat),
      matchLoop cnt ext fails t n hits input = some (t', n', hits') →
      SameShape t t' ∧
        ∀ i, (nodeAt t' i).counter = (nodeAt t i).counter ∨ (nodeAt t' i).counter = cnt
  | [], t, n, hits, t', n', hits', h => by
    rw [matchLoop] at h
    obtain ⟨h1, h2, h3⟩ := Prod.mk.injEq .. ▸ Option.some.inj h
    subst h1
    exact ⟨SameShape.rfl t, fun i => Or.inl rfl⟩
  | c :: rest, t, n, hits, t', n', hits', h => by
    rw [matchLoop] at h
    rcases hstep : (if (nodeAt t n).root = false ∧ (nodeAt t n).child c = none then
        fails n c else some n) with _ | n1
    · rw [hstep] at h
      exact absurd h (by simp)
    · rw [hstep] at h
      dsimp only at h
      cases ec : (nodeAt t n1).child c with
      | none =>
        rw [ec] at h
        exact matchLoop_post rest t n1 hits t' n' hits' h
      | some f =>
        rw [ec] at h
        dsimp only at h
        rcases echain : matchChain cnt ext
            (if (nodeAt t f).output = true ∧ (nodeAt t f).counter ≠ cnt then
              (stampNode t f cnt, hits ++ [(nodeAt t f).index]) else (t, hits)).1 f
            (if (nodeAt t f).output = true ∧ (nodeAt t f).counter ≠ cnt then
              (stampNode t f cnt, hits ++ [(nodeAt t f).index]) else (t, hits)).2 with
          _ | p
        · rw [echain] at h
          exact absurd h (by simp)
        · rw [echain] at h
          dsimp only at h
          obtain ⟨hsh2, hcnt2⟩ := matchLoop_post rest p.1 f p.2 t' n' hits' h
          by_cases hc : (nodeAt t f).output = true ∧ (nodeAt t f).counter ≠ cnt
          · rw [if_pos hc] at echain
            obtain ⟨hsh1, hcnt1⟩ := matchChain_post ext (stampNode t f cnt) f
              (hits ++ [(nodeAt t f).index]) p.1 p.2 echain
            refine ⟨((sameShape_stampNode_self t f cnt).trans hsh1).trans hsh2, fun i => ?_⟩
            rcases hcnt2 i with h2 | h2
            · rcases hcnt1 i with h1 | h1
              · rcases counter_stampNode t f cnt i with h0 | h0
                · exact Or.inl ((h2.trans h1).trans h0)
                · exact Or.inr ((h2.trans h1).trans h0)
              · exact Or.inr (h2.trans h1)
            · exact Or.inr h2
          · rw [if_neg hc] at echain
            obtain ⟨hsh1, hcnt1⟩ := matchChain_post ext t f hits p.1 p.2 echain
            refine ⟨hsh1.trans hsh2, fun i => ?_⟩
            rcases hcnt2 i with h2 | h2
            · rcases hcnt1 i with h1 | h1
              · exact Or.inl (h2.trans h1)
              · exact Or.inr (h2.trans h1)
            · exact Or.inr h2

theorem recordSpan_trie (st : RState) (i : Nat) (w : List Nat) :
    (recordSpan st i w).trie = st.trie := rfl

theorem ite_recordSpan_trie (c : Prop) [Decidable c] (st : RState) (i : Nat)
    (w : List Nat) : (if c then recordSpan st i w else st).trie = st.trie := by
  split <;> rfl

theorem reportByMode_trie (hitType : Int) (inB : List Nat) (i : Nat) (st : RState)
    (w : List Nat) : (reportByMode hitType inB i st w).trie = st.trie := by
  simp only [reportByMode]
  split_ifs <;> rfl

/-- The suffix-chain walk of `Replace` always terminates successfully when
given fuel exceeding the depth of its start node; the walk only restamps
counters, so the trie keeps its shape. -/
theorem replaceChain_total {t₀ : List Node} (hp : PostWf t₀) (cnt : Nat)
    (isReplace : Bool) (hitType : Int) (inB : List Nat) (i : Nat) :
    ∀ (fuel : Nat) (st : RState) (f : Nat), SameShape t₀ st.trie →
      1 ≤ f → f < t₀.length → (nodeAt t₀ f).b.length < fuel →
      ∃ st', replaceChain cnt isReplace hitType inB i fuel st f = some st' ∧
        SameShape t₀ st'.trie
  | 0, st, f, hsh, h1, hfl, hfuel => absurd hfuel (by omega)
  | fuel + 1, st, f, hsh, h1, hfl, hfuel => by
    obtain ⟨j, hsufj, hdisj, _⟩ := hp.suffix_target h1 hfl
    have hsufj_t : (nodeAt st.trie f).suffix = some j := by
      rw [← hsh.suffix_eq f]
      exact hsufj
    rw [replaceChain, hsufj_t]
    dsimp only
    rcases hdisj with rfl | ⟨hj1, hjl, hout, hsuf, hlen⟩
    · have hroot : (nodeAt st.trie 0).root = true := by
        rw [← hsh.root_eq 0]
        exact hp.wf.root_flag
      rw [if_pos hroot]
      exact ⟨st, rfl, hsh⟩
    · have hrootj : (nodeAt st.trie j).root = false := by
        rw [← hsh.root_eq j]
        exact hp.wf.nonroot_flag j hj1
      rw [if_neg (by simp [hrootj])]
      by_cases hrep : hitType ≠ EnumHitTypeWord ∨ (nodeAt st.trie j).counter ≠ cnt
      · rw [if_pos hrep]
        exact replaceChain_total hp cnt isReplace hitType inB i fuel _ j
          (by
            dsimp only
            rw [reportByMode_trie, ite_recordSpan_trie]
            exact hsh.trans (sameShape_stampNode_self st.trie j cnt))
          hj1 hjl (by omega)
      · rw [if_neg hrep]
        refine ⟨_, rfl, ?_⟩
        rw [ite_recordSpan_trie]
        exact hsh

/-- The byte loop of `Replace` always terminates successfully on a trie of
the shape `NewMatcher` produces, from any allocated state node. -/
theorem replaceLoop_total {t₀ : List Node} (hp : PostWf t₀) (cnt : Nat)
    {fails : Nat → Nat → Option Nat} (hfails : FailsSpec t₀ fails) {ext : Nat}
    (hext : t₀.length ≤ ext) (isReplace : Bool) (hitType : Int) (inB : List Nat) :
    ∀ (input : List Nat) (st : RState) (n i : Nat), SameShape t₀ st.trie →
      n < t₀.length →
      ∃ st' n', replaceLoop cnt ext fails isReplace hitType inB st n i input =
          some (st', n') ∧ SameShape t₀ st'.trie ∧ n' < t₀.length
  | [], st, n, i, hsh, hn => ⟨st, n, rfl, hsh, hn⟩
  | c :: rest, st, n, i, hsh, hn => by
    have hstep : ∃ n1, (if (nodeAt st.trie n).root = false ∧
        (nodeAt st.trie n).child c = none then fails n c else some n) = some n1 ∧
        n1 < t₀.length := by
      by_cases hc : (nodeAt st.trie n).root = false ∧ (nodeAt st.trie n).child c = none
      · obtain ⟨j, hj, hjl, _⟩ := hfails n c hn
        exact ⟨j, by rw [if_pos hc]; exact hj, hjl⟩
      · exact ⟨n, by rw [if_neg hc], hn⟩
    obtain ⟨n1, hstep, hn1l⟩ := hstep
    rw [replaceLoop, hstep]
    dsimp only
    cases hch : (nodeAt st.trie n1).child c with
    | none =>
      exact replaceLoop_total hp cnt hfails hext isReplace hitType inB rest st n1
        (i + 1) hsh hn1l
    | some f =>
      dsimp only
      have hch₀ : (nodeAt t₀ n1).child c = some f := by
        rw [hsh.child_eq n1]
        exact hch
      obtain ⟨hf1, hfl, _⟩ := hp.wf.child_spec n1 c f hn1l hch₀
      have hcont : ∀ stX : RState, SameShape t₀ stX.trie →
          ∃ st' n', (match replaceChain cnt isReplace hitType inB i ext stX f with
            | none => none
            | some st3 =>
              replaceLoop cnt ext fails isReplace hitType inB st3 f (i + 1) rest) =
            some (st', n') ∧ SameShape t₀ st'.trie ∧ n' < t₀.length := by
        intro stX hshX
        obtain ⟨st3, hchain, hsh3⟩ := replaceChain_total hp cnt isReplace hitType inB i
          ext stX f hshX hf1 hfl (Nat.lt_of_lt_of_le (hp.wf.depth_lt hfl) hext)
        rw [hchain]
        exact replaceLoop_total hp cnt hfails hext isReplace hitType inB rest st3 f
          (i + 1) hsh3 hfl
      by_cases hc2 : (nodeAt st.trie f).output = true ∧
          (hitType ≠ EnumHitTypeWord ∨ (nodeAt st.trie f).counter ≠ cnt)
      · rw [if_pos hc2]
        exact hcont _ (by
          dsimp only
          rw [reportByMode_trie, ite_recordSpan_trie]
          exact hsh.trans (sameShape_stampNode_self st.trie f cnt))
      · rw [if_neg hc2]
        exact hcont _ (by
          rw [ite_recordSpan_trie]
          exact hsh)

theorem ite_recordSpan_hitsWord (c : Prop) [Decidable c] (st : RState) (i : Nat)
    (w : List Nat) : (if c then recordSpan st i w else st).hitsWord = st.hitsWord := by
  split <;> rfl

/-- In word-list mode the report site appends the matched text. -/
theorem reportByMode_word (inB : List Nat) (i : Nat) (st : RState) (w : List Nat) :
    reportByMode EnumHitTypeWord inB i st w = { st with hitsWord := st.hitsWord ++ [w] } := by
  rw [reportByMode, if_pos rfl]

theorem selectHits_word (st : RState) :
    selectHits EnumHitTypeWord st = .word st.hitsWord := by
  rw [selectHits, if_pos rfl]

/-- Word-mode invariant of the suffix-chain walk of `Replace`: every word in
the report is the path of a distinct stamped node, so the report stays
duplicate-free — the per-call stamp suppresses re-reports across the whole
call, not only within one position. -/
theorem replaceChain_wordInv {t₀ : List Node} (hp : PostWf t₀) (cnt : Nat)
    (isRep : Bool) (inB : List Nat) (i : Nat) :
    ∀ (fuel : Nat) (st : RState) (f : Nat) (st' : RState),
      replaceChain cnt isRep EnumHitTypeWord inB i fuel st f = some st' →
      SameShape t₀ st.trie → 1 ≤ f → f < t₀.length →
      st.hitsWord.Nodup →
      (∀ w, w ∈ st.hitsWord → ∃ k, k < t₀.length ∧
        (nodeAt st.trie k).counter = cnt ∧ (nodeAt t₀ k).b = w) →
      SameShape t₀ st'.trie ∧ st'.hitsWord.Nodup ∧
      (∀ w, w ∈ st'.hitsWord → ∃ k, k < t₀.length ∧
        (nodeAt st'.trie k).counter = cnt ∧ (nodeAt t₀ k).b = w)
  | 0, st, f, st', h, _, _, _, _, _ => by simp [replaceChain] at h
  | fuel + 1, st, f, st', h, hsh, hf1, hfl, hnd, hwit => by
    rw [replaceChain] at h
    obtain ⟨j, hsufj, hdisj, _⟩ := hp.suffix_target hf1 hfl
    have hsufj_t : (nodeAt st.trie f).suffix = some j := by
      rw [← hsh.suffix_eq f]
      exact hsufj
    rw [hsufj_t] at h
    dsimp only at h
    by_cases hr : (nodeAt st.trie j).root = true
    · rw [if_pos hr] at h
      obtain rfl := Option.some.inj h
      exact ⟨hsh, hnd, hwit⟩
    · rw [if_neg hr] at h
      rcases hdisj with rfl | ⟨hj1, hjl, _, _, _⟩
      · exact absurd (show (nodeAt st.trie 0).root = true by
          rw [← hsh.root_eq 0]; exact hp.wf.root_flag) hr
      · have hjlen : j < st.trie.length := by
          rw [← hsh.length_eq]
          exact hjl
        have hbj : (nodeAt t₀ j).b = (nodeAt st.trie j).b := hsh.b_eq j
        by_cases hcnd : EnumHitTypeWord ≠ EnumHitTypeWord ∨ (nodeAt st.trie j).counter ≠ cnt
        · rw [if_pos hcnd] at h
          have hcnt : (nodeAt st.trie j).counter ≠ cnt := by
            rcases hcnd with h' | h'
            · exact absurd rfl h'
            · exact h'
          rw [reportByMode_word] at h
          dsimp only at h
          rw [ite_recordSpan_trie, ite_recordSpan_hitsWord] at h
          have hsh' : SameShape t₀ (stampNode st.trie j cnt) :=
            hsh.trans (sameShape_stampNode_self st.trie j cnt)
          have hnotmem : (nodeAt st.trie j).b ∉ st.hitsWord := by
            intro hmem
            obtain ⟨k, hkl, hkc, hkb⟩ := hwit _ hmem
            have hkj : k = j := hp.wf.b_inj hkl hjl (hkb.trans hbj.symm)
            subst hkj
            exact hcnt hkc
          have hnd' : (st.hitsWord ++ [(nodeAt st.trie j).b]).Nodup := by
            rw [List.nodup_append]
            refine ⟨hnd, List.nodup_singleton _, ?_⟩
            intro x hx hmem
            rw [List.mem_singleton] at hmem
            subst hmem
            exact hnotmem hx
          have hwit' : ∀ w, w ∈ st.hitsWord ++ [(nodeAt st.trie j).b] →
              ∃ k, k < t₀.length ∧ (nodeAt (stampNode st.trie j cnt) k).counter = cnt ∧
                (nodeAt t₀ k).b = w := by
            intro w hw
            rw [List.mem_append, List.mem_singleton] at hw
            rcases hw with hw | rfl
            · obtain ⟨k, hkl, hkc, hkb⟩ := hwit w hw
              refine ⟨k, hkl, ?_, hkb⟩
              rcases eq_or_ne j k with rfl | hne
              · rw [nodeAt_stampNode_self hjlen]
              · rw [nodeAt_stampNode_ne hne]
                exact hkc
            · exact ⟨j, hjl, by rw [nodeAt_stampNode_self hjlen], hbj⟩
          exact replaceChain_wordInv hp cnt isRep inB i fuel _ j st' h hsh' hj1 hjl
            hnd' hwit'
        · rw [if_neg hcnd] at h
          obtain rfl := Option.some.inj h
          refine ⟨?_, ?_, ?_⟩
          · rw [ite_recordSpan_trie]
            exact hsh
          · rw [ite_recordSpan_hitsWord]
            exact hnd
          · intro w hw
            rw [ite_recordSpan_hitsWord] at hw
            obtain ⟨k, hkl, hkc, hkb⟩ := hwit w hw
            refine ⟨k, hkl, ?_, hkb⟩
            rw [ite_recordSpan_trie]
            exact hkc

/-- Word-mode invariant of the whole byte loop of `Replace`: the word list
never lists the same pattern text twice. -/
theorem replaceLoop_wordInv {t₀ : List Node} (hp : PostWf t₀) (cnt : Nat)
    {fails : Nat → Nat → Option Nat} (hfails : FailsSpec t₀ fails) (ext : Nat)
    (isRep : Bool) (inB : List Nat) :
    ∀ (input : List Nat) (st : RState) (n i : Nat) (st' : RState) (n' : Nat),
      replaceLoop cnt ext fails isRep EnumHitTypeWord inB st n i input = some (st', n') →
      SameShape t₀ st.trie → n < t₀.length → st.hitsWord.Nodup →
      (∀ w, w ∈ st.hitsWord → ∃ k, k < t₀.length ∧
        (nodeAt st.trie k).counter = cnt ∧ (nodeAt t₀ k).b = w) →
      SameShape t₀ st'.trie ∧ st'.hitsWord.Nodup ∧
      (∀ w, w ∈ st'.hitsWord → ∃ k, k < t₀.length ∧
        (nodeAt st'.trie k).counter = cnt ∧ (nodeAt t₀ k).b = w)
  | [], st, n, i, st', n', h, hsh, hn, hnd, hwit => by
    rw [replaceLoop] at h
    obtain ⟨h1, h2⟩ := Prod.mk.injEq .. ▸ Option.some.inj h
    subst h1
    exact ⟨hsh, hnd, hwit⟩
  | c :: rest, st, n, i, st', n', h, hsh, hn, hnd, hwit => by
    rw [replaceLoop] at h
    rcases hstep : (if (nodeAt st.trie n).root = false ∧ (nodeAt st.trie n).child c = none
        then fails n c else some n) with _ | n1
    · rw [hstep] at h
      exact absurd h (by simp)
    · rw [hstep] at h
      dsimp only at h
      have hn1l : n1 < t₀.length := by
        by_cases hcnd : (nodeAt st.trie n).root = false ∧ (nodeAt st.trie n).child c = none
        · rw [if_pos hcnd] at hstep
          obtain ⟨j, hj, hjl, _⟩ := hfails n c hn
          rw [hj] at hstep
          obtain rfl := Option.some.inj hstep
          exact hjl
        · rw [if_neg hcnd] at hstep
          obtain rfl := Option.some.inj hstep
          exact hn
      cases ec : (nodeAt st.trie n1).child c with
      | none =>
        rw [ec] at h
        exact replaceLoop_wordInv hp cnt hfails ext isRep inB rest st n1 (i + 1) st' n' h
          hsh hn1l hnd hwit
      | some f =>
        rw [ec] at h
        dsimp only at h
        have hch₀ : (nodeAt t₀ n1).child c = some f := by
          rw [hsh.child_eq n1]
          exact ec
        obtain ⟨hf1, hfl, _⟩ := hp.wf.child_spec n1 c f hn1l hch₀
        have hflen : f < st.trie.length := by
          rw [← hsh.length_eq]
          exact hfl
        have hbf : (nodeAt t₀ f).b = (nodeAt st.trie f).b := hsh.b_eq f
        by_cases hc2 : (nodeAt st.trie f).output = true ∧
            (EnumHitTypeWord ≠ EnumHitTypeWord ∨ (nodeAt st.trie f).counter ≠ cnt)
        · rw [if_pos hc2] at h
          have hcnt : (nodeAt st.trie f).counter ≠ cnt := by
            rcases hc2.2 with h' | h'
            · exact absurd rfl h'
            · exact h'
          rw [reportByMode_word] at h
          dsimp only at h
          rw [ite_recordSpan_trie, ite_recordSpan_hitsWord] at h
          have hsh2 : SameShape t₀ (stampNode st.trie f cnt) :=
            hsh.trans (sameShape_stampNode_self st.trie f cnt)
          have hnotmem : (nodeAt st.trie f).b ∉ st.hitsWord := by
            intro hmem
            obtain ⟨k, hkl, hkc, hkb⟩ := hwit _ hmem
            have hkf : k = f := hp.wf.b_inj hkl hfl (hkb.trans hbf.symm)
            subst hkf
            exact hcnt hkc
          have hnd2 : (st.hitsWord ++ [(nodeAt st.trie f).b]).Nodup := by
            rw [List.nodup_append]
            refine ⟨hnd, List.nodup_singleton _, ?_⟩
            intro x hx hmem
            rw [List.mem_singleton] at hmem
            subst hmem
            exact hnotmem hx
          have hwit2 : ∀ w, w ∈ st.hitsWord ++ [(nodeAt st.trie f).b] →
              ∃ k, k < t₀.length ∧ (nodeAt (stampNode st.trie f cnt) k).counter = cnt ∧
                (nodeAt t₀ k).b = w := by
            intro w hw
            rw [List.mem_append, List.mem_singleton] at hw
            rcases hw with hw | rfl
            · obtain ⟨k, hkl, hkc, hkb⟩ := hwit w hw
              refine ⟨k, hkl, ?_, hkb⟩
              rcases eq_or_ne f k with rfl | hne
              · rw [nodeAt_stampNode_self hflen]
              · rw [nodeAt_stampNode_ne hne]
                exact hkc
            · exact ⟨f, hfl, by rw [nodeAt_stampNode_self hflen], hbf⟩
          split at h
          · exact absurd h (by simp)
          · rename_i st3 heq
            obtain ⟨hsh3, hnd3, hwit3⟩ := replaceChain_wordInv hp cnt isRep inB i ext
              _ f st3 heq hsh2 hf1 hfl hnd2 hwit2
            exact replaceLoop_wordInv hp cnt hfails ext isRep inB rest st3 f (i + 1)
              st' n' h hsh3 hfl hnd3 hwit3
        · rw [if_neg hc2] at h
          split at h
          · exact absurd h (by simp)
          · rename_i st3 heq
            obtain ⟨hsh3, hnd3, hwit3⟩ := replaceChain_wordInv hp cnt isRep inB i ext
              _ f st3 heq (by rw [ite_recordSpan_trie]; exact hsh) hf1 hfl
              (by rw [ite_recordSpan_hitsWord]; exact hnd)
              (by
                intro w hw
                rw [ite_recordSpan_hitsWord] at hw
                obtain ⟨k, hkl, hkc, hkb⟩ := hwit w hw
                refine ⟨k, hkl, ?_, hkb⟩
                rw [ite_recordSpan_trie]
                exact hkc)
            exact replaceLoop_wordInv hp cnt hfails ext isRep inB rest st3 f (i + 1)
              st' n' h hsh3 hfl hnd3 hwit3

theorem getD_of_get? {D : List (List Nat)} {n : Nat} {w : List Nat}
    (h : D.get? n = some w) : D.getD n [] = w := by
  rw [List.getD_eq_getElem?_getD, ← List.get?_eq_getElem?, h]
  rfl

/-- Word-list mode of `Replace` simulates `Match`'s suffix-chain walk in
lock step: the stamp conditions coincide literally, the trie evolves
identically, and each report event appends `f.b` where `Match` appends
`f.index` — so the word list is the hit list mapped through any `g` that
sends each output node's index to its path. -/
theorem replaceChain_sim {t₀ : List Node} (hp : PostWf t₀) (g : Nat → List Nat)
    (hg : ∀ k, k < t₀.length → (nodeAt t₀ k).output = true →
      g ((nodeAt t₀ k).index) = (nodeAt t₀ k).b)
    (cnt : Nat) (isRep : Bool) (inB : List Nat) (i : Nat) :
    ∀ (fuel : Nat) (st : RState) (f : Nat) (hits : List Nat) (t' : List Node)
      (hits' : List Nat),
      matchChain cnt fuel st.trie f hits = some (t', hits') →
      SameShape t₀ st.trie → 1 ≤ f → f < t₀.length →
      st.hitsWord = hits.map g →
      ∃ st', replaceChain cnt isRep EnumHitTypeWord inB i fuel st f = some st' ∧
        st'.trie = t' ∧ st'.hitsWord = hits'.map g
  | 0, st, f, hits, t', hits', h, _, _, _, _ => by simp [matchChain] at h
  | fuel + 1, st, f, hits, t', hits', h, hsh, hf1, hfl, hwords => by
    rw [matchChain] at h
    obtain ⟨j, hsufj, hdisj, _⟩ := hp.suffix_target hf1 hfl
    have hsufj_t : (nodeAt st.trie f).suffix = some j := by
      rw [← hsh.suffix_eq f]
      exact hsufj
    rw [hsufj_t] at h
    dsimp only at h
    rw [replaceChain, hsufj_t]
    dsimp only
    by_cases hr : (nodeAt st.trie j).root = true
    · rw [if_pos hr] at h ⊢
      obtain ⟨h1, h2⟩ := Prod.mk.injEq .. ▸ Option.some.inj h
      subst h1
      subst h2
      exact ⟨st, rfl, rfl, hwords⟩
    · rw [if_neg hr] at h ⊢
      rcases hdisj with rfl | ⟨hj1, hjl, houtj, _, _⟩
      · exact absurd (show (nodeAt st.trie 0).root = true by
          rw [← hsh.root_eq 0]; exact hp.wf.root_flag) hr
      · have hgj : g ((nodeAt st.trie j).index) = (nodeAt st.trie j).b := by
          rw [← hsh.index_eq j, ← hsh.b_eq j]
          exact hg j hjl houtj
        by_cases hcnt : (nodeAt st.trie j).counter ≠ cnt
        · rw [if_pos hcnt] at h
          rw [if_pos (Or.inr hcnt : EnumHitTypeWord ≠ EnumHitTypeWord ∨
            (nodeAt st.trie j).counter ≠ cnt)]
          rw [reportByMode_word]
          dsimp only
          rw [ite_recordSpan_trie, ite_recordSpan_hitsWord]
          exact replaceChain_sim hp g hg cnt isRep inB i fuel _ j
            (hits ++ [(nodeAt st.trie j).index]) t' hits' (by exact h)
            (by exact hsh.trans (sameShape_stampNode_self st.trie j cnt)) hj1 hjl
            (by
              show st.hitsWord ++ [(nodeAt st.trie j).b] =
                (hits ++ [(nodeAt st.trie j).index]).map g
              rw [List.map_append, hwords]
              simp only [List.map_cons, List.map_nil]
              rw [hgj])
        · rw [if_neg hcnt] at h
          have hnc : ¬ (EnumHitTypeWord ≠ EnumHitTypeWord ∨
              (nodeAt st.trie j).counter ≠ cnt) := by
            rintro (h' | h')
            · exact h' rfl
            · exact hcnt h'
          rw [if_neg hnc]
          obtain ⟨h1, h2⟩ := Prod.mk.injEq .. ▸ Option.some.inj h
          subst h1
          subst h2
          refine ⟨_, rfl, ?_, ?_⟩
          · rw [ite_recordSpan_trie]
          · rw [ite_recordSpan_hitsWord]
            exact hwords

/-- Word-list mode of `Replace` simulates `Match`'s byte loop in lock step:
whenever `Match`'s loop returns, `Replace`'s loop returns on the same input
with the same trie and final state, and its word list is `Match`'s hit list
mapped through `g`. -/
theorem replaceLoop_sim {t₀ : List Node} (hp : PostWf t₀) (g : Nat → List Nat)
    (hg : ∀ k, k < t₀.length → (nodeAt t₀ k).output = true →
      g ((nodeAt t₀ k).index) = (nodeAt t₀ k).b)
    (cnt ext : Nat) (fails : Nat → Nat → Option Nat) (isRep : Bool) (inB : List Nat) :
    ∀ (input : List Nat) (st : RState) (n i : Nat) (hits : List Nat)
      (t' : List Node) (n' : Nat) (hits' : List Nat),
      matchLoop cnt ext fails st.trie n hits input = some (t', n', hits') →
      SameShape t₀ st.trie →
      st.hitsWord = hits.map g →
      ∃ st', replaceLoop cnt ext fails isRep EnumHitTypeWord inB st n i input =
          some (st', n') ∧ st'.trie = t' ∧ st'.hitsWord = hits'.map g
  | [], st, n, i, hits, t', n', hits', h, hsh, hwords => by
    rw [matchLoop] at h
    obtain ⟨h1, h2, h3⟩ := Prod.mk.injEq .. ▸ Option.some.inj h
    subst h1
    rw [replaceLoop]
    exact ⟨st, rfl, rfl, hwords⟩
  | c :: rest, st, n, i, hits, t', n', hits', h, hsh, hwords => by
    rw [matchLoop] at h
    rcases hstep : (if (nodeAt st.trie n).root = false ∧ (nodeAt st.trie n).child c = none
        then fails n c else some n) with _ | n1
    · rw [hstep] at h
      exact absurd h (by simp)
    · rw [hstep] at h
      dsimp only at h
      rw [replaceLoop, hstep]
      dsimp only
      cases ec : (nodeAt st.trie n1).child c with
      | none =>
        rw [ec] at h
        exact replaceLoop_sim hp g hg cnt ext fails isRep inB rest st n1 (i + 1) hits
          t' n' hits' h hsh hwords
      | some f =>
        rw [ec] at h
        dsimp only at h
        dsimp only
        have hn1l : n1 < t₀.length := by
          by_contra hge
          push_neg at hge
          have hle : st.trie.length ≤ n1 := by
            rw [← hsh.length_eq]
            exact hge
          rw [nodeAt_of_length_le hle] at ec
          exact absurd ec (by simp)
        obtain ⟨hf1, hfl, _⟩ := hp.wf.child_spec n1 c f hn1l
          (by rw [hsh.child_eq n1]; exact ec)
        by_cases hc : (nodeAt st.trie f).output = true ∧ (nodeAt st.trie f).counter ≠ cnt
        · rw [if_pos hc] at h
          dsimp only at h
          have houtf : (nodeAt t₀ f).output = true := by
            rw [hsh.output_eq f]
            exact hc.1
          have hgf : g ((nodeAt st.trie f).index) = (nodeAt st.trie f).b := by
            rw [← hsh.index_eq f, ← hsh.b_eq f]
            exact hg f hfl houtf
          rw [if_pos (⟨hc.1, Or.inr hc.2⟩ : (nodeAt st.trie f).output = true ∧
            (EnumHitTypeWord ≠ EnumHitTypeWord ∨ (nodeAt st.trie f).counter ≠ cnt))]
          rw [reportByMode_word]
          dsimp only
          rw [ite_recordSpan_trie, ite_recordSpan_hitsWord]
          rcases echain : matchChain cnt ext (stampNode st.trie f cnt)
              f (hits ++ [(nodeAt st.trie f).index]) with _ | ⟨p1, p2⟩
          · rw [echain] at h
            exact absurd h (by simp)
          · rw [echain] at h
            dsimp only at h
            have hshp : SameShape t₀ p1 :=
              (hsh.trans (sameShape_stampNode_self st.trie f cnt)).trans
                (matchChain_post ext (stampNode st.trie f cnt) f
                  (hits ++ [(nodeAt st.trie f).index]) p1 p2 echain).1
            have hcont : ∀ stX : RState, stX.trie = stampNode st.trie f cnt →
                stX.hitsWord = (hits ++ [(nodeAt st.trie f).index]).map g →
                ∃ st', (match replaceChain cnt isRep EnumHitTypeWord inB i ext stX f with
                  | none => none
                  | some st3 =>
                    replaceLoop cnt ext fails isRep EnumHitTypeWord inB st3 f (i + 1) rest) =
                  some (st', n') ∧ st'.trie = t' ∧ st'.hitsWord = hits'.map g := by
              intro stX htrie hwX
              obtain ⟨st2, hrc, hrt, hrw⟩ := replaceChain_sim hp g hg cnt isRep inB i
                ext stX f (hits ++ [(nodeAt st.trie f).index]) p1 p2
                (by rw [htrie]; exact echain)
                (by rw [htrie]; exact hsh.trans (sameShape_stampNode_self st.trie f cnt))
                hf1 hfl hwX
              rw [hrc]
              dsimp only
              exact replaceLoop_sim hp g hg cnt ext fails isRep inB rest st2 f (i + 1)
                p2 t' n' hits' (by rw [hrt]; exact h) (by rw [hrt]; exact hshp) hrw
            exact hcont _ rfl (by
              show st.hitsWord ++ [(nodeAt st.trie f).b] =
                (hits ++ [(nodeAt st.trie f).index]).map g
              rw [List.map_append, hwords]
              simp only [List.map_cons, List.map_nil]
              rw [hgf])
        · rw [if_neg hc] at h
          dsimp only at h
          have hnc : ¬ ((nodeAt st.trie f).output = true ∧
              (EnumHitTypeWord ≠ EnumHitTypeWord ∨ (nodeAt st.trie f).counter ≠ cnt)) := by
            rintro ⟨ho, hor⟩
            rcases hor with h' | h'
            · exact h' rfl
            · exact hc ⟨ho, h'⟩
          rw [if_neg hnc]
          rcases echain : matchChain cnt ext st.trie f hits with _ | ⟨p1, p2⟩
          · rw [echain] at h
            exact absurd h (by simp)
          · rw [echain] at h
            dsimp only at h
            have hshp : SameShape t₀ p1 :=
              hsh.trans (matchChain_post ext st.trie f hits p1 p2 echain).1
            have hcont : ∀ stX : RState, stX.trie = st.trie →
                stX.hitsWord = hits.map g →
                ∃ st', (match replaceChain cnt isRep EnumHitTypeWord inB i ext stX f with
                  | none => none
                  | some st3 =>
                    replaceLoop cnt ext fails isRep EnumHitTypeWord inB st3 f (i + 1) rest) =
                  some (st', n') ∧ st'.trie = t' ∧ st'.hitsWord = hits'.map g := by
              intro stX htrie hwX
              obtain ⟨st2, hrc, hrt, hrw⟩ := replaceChain_sim hp g hg cnt isRep inB i
                ext stX f hits p1 p2 (by rw [htrie]; exact echain)
                (by rw [htrie]; exact hsh) hf1 hfl hwX
              rw [hrc]
              dsimp only
              exact replaceLoop_sim hp g hg cnt ext fails isRep inB rest st2 f (i + 1)
                p2 t' n' hits' (by rw [hrt]; exact h) (by rw [hrt]; exact hshp) hrw
            exact hcont _ (by rw [ite_recordSpan_trie])
              (by rw [ite_recordSpan_hitsWord]; exact hwords)

/-- After `NewMatcher`, the `index` field identifies the output node: the
output assignment is `lastPos`, whose value determines the dictionary word,
and a node's `b` determines the node. -/
theorem newMatcher_indexInj (D : List (List Nat)) : IndexInj (NewMatcher D).trie := by
  intro i j hi hj houti houtj hidx
  have hwf := (newMatcher_postWf D).wf
  have hout := (newMatcher_outSpec D).1
  have hi' := hout i hi
  have hj' := hout j hj
  rw [newMatcher_assign] at hi' hj'
  cases li : lastPos D (nodeAt (NewMatcher D).trie i).b with
  | none =>
    rw [li] at hi'
    dsimp only at hi'
    rw [hi'] at houti
    exact absurd houti (by simp)
  | some xi =>
    rw [li] at hi'
    dsimp only at hi'
    cases lj : lastPos D (nodeAt (NewMatcher D).trie j).b with
    | none =>
      rw [lj] at hj'
      dsimp only at hj'
      rw [hj'] at houtj
      exact absurd houtj (by simp)
    | some xj =>
      rw [lj] at hj'
      dsimp only at hj'
      have hx : xi = xj := by rw [← hi'.2, ← hj'.2, hidx]
      subst hx
      have hgi := (lastPos_get? D _ xi li).1
      have hgj := (lastPos_get? D _ xi lj).1
      have hb : (nodeAt (NewMatcher D).trie i).b = (nodeAt (NewMatcher D).trie j).b :=
        Option.some.inj (hgi.symm.trans hgj)
      exact hwf.b_inj hi hj hb

/-- The matched output nodes of a fresh matcher's trie correspond exactly to
the nonempty dictionary words that occur in the input, reported under the
index of their last dictionary position. -/
theorem newMatcher_matched_iff (D : List (List Nat)) (I : List Nat) (x : Nat) :
    (∃ i, MatchedNode (NewMatcher D).trie I i ∧ (nodeAt (NewMatcher D).trie i).index = x)
      ↔ ∃ p, p ≠ [] ∧ lastPos D p = some x ∧ occursIn p I := by
  have hwf := (newMatcher_postWf D).wf
  have hout := newMatcher_outSpec D
  constructor
  · rintro ⟨i, ⟨h1, h2, h3, m, hm, hsuf⟩, hix⟩
    have hpne : (nodeAt (NewMatcher D).trie i).b ≠ [] := hwf.b_nonempty h1 h2
    have hi' := hout.1 i h2
    rw [newMatcher_assign] at hi'
    cases li : lastPos D (nodeAt (NewMatcher D).trie i).b with
    | none =>
      rw [li] at hi'
      dsimp only at hi'
      rw [hi'] at h3
      exact absurd h3 (by simp)
    | some q =>
      rw [li] at hi'
      dsimp only at hi'
      have hq : q = x := by rw [← hix, hi'.2]
      subst hq
      refine ⟨(nodeAt (NewMatcher D).trie i).b, hpne, li, ?_⟩
      have hple : (nodeAt (NewMatcher D).trie i).b.length ≤ m := by
        have h := hsuf.length_le
        rw [List.length_take, min_eq_left hm] at h
        exact h
      have h1m : 1 ≤ m := by
        have : 0 < (nodeAt (NewMatcher D).trie i).b.length := List.length_pos.mpr hpne
        omega
      refine ⟨m - 1, by omega, ?_⟩
      have hm1 : m - 1 + 1 = m := by omega
      simp only [patternEndsAt, hm1, decide_eq_true_eq]
      have hlen : (I.take m).length = m := by
        rw [List.length_take]
        exact min_eq_left hm
      have hdr := List.suffix_iff_eq_drop.mp hsuf
      rw [hlen] at hdr
      exact hdr.symm
  · rintro ⟨p, hpne, hlast, e, he, hpe⟩
    have hassign : overrideAll (fun _ => none) 0 D p = some x := by
      rw [newMatcher_assign, hlast]
    obtain ⟨k, hk⟩ := hout.2 p x hassign
    obtain ⟨hkl, hkb⟩ := hwf.findBlice_b hk
    have hk' := hout.1 k hkl
    rw [hkb, hassign] at hk'
    dsimp only at hk'
    have h1k : 1 ≤ k := by
      rcases Nat.eq_zero_or_pos k with rfl | h
      · rw [hwf.root_b] at hkb
        exact absurd hkb.symm hpne
      · exact h
    refine ⟨k, ⟨h1k, hkl, hk'.1, e + 1, he, ?_⟩, hk'.2⟩
    simp only [patternEndsAt, decide_eq_true_eq] at hpe
    rw [hkb, ← hpe]
    exact List.drop_suffix _ _

/-! ## Claims -/

/-- **C1, counterexample.**  The claim says `Match` reports one index per
occurrence, with no omissions relative to brute-force substring search, and
that indices may repeat when the same pattern occurs at several positions.
For the dictionary `["a"]` and input `"aa"` brute force finds two
occurrences (ending at byte positions 0 and 1), but `Match` reports the
pattern index only once: the per-call counter stamp set at the first
occurrence suppresses the second report. -/
theorem c1_counterexample :
    (((NewMatcher [[97]]).Match [97, 97]).map Prod.fst) = some [0] ∧
    bruteOccurrences [[97]] [97, 97] = [(0, 0), (0, 1)] ∧
    ([0] : List Nat).length ≠ (bruteOccurrences [[97]] [97, 97]).length := by
  refine ⟨by decide, by decide, by decide⟩

/-- Full correctness of `Match` on a fresh matcher: it always returns, and
the returned list reports, without duplicates, exactly one index per
distinct nonempty dictionary word that occurs in the input — the index of
that word's last dictionary position. -/
theorem newMatcher_match_spec (D : List (List Nat)) (I : List Nat) :
    ∃ hits m', (NewMatcher D).Match I = some (hits, m') ∧ hits.Nodup ∧
      ∀ x, x ∈ hits ↔ ∃ p, p ≠ [] ∧ lastPos D p = some x ∧ occursIn p I := by
  have hp := newMatcher_postWf D
  have hinj := newMatcher_indexInj D
  have hfails := newMatcher_failsSpec D
  have hz := newMatcher_zeroCounters D
  have hM0 : ∀ i, ¬ MatchedNode (NewMatcher D).trie [] i := by
    rintro i ⟨h1, h2, h3, m, hm, hsuf⟩
    have hb : (nodeAt (NewMatcher D).trie i).b = [] :=
      List.eq_nil_of_suffix_nil (by simpa using hsuf)
    exact absurd hb (hp.wf.b_nonempty h1 h2)
  obtain ⟨t', n', hits', hloop, hsh, hSI, hst, hht, hnd⟩ :=
    matchLoop_correct hp ((NewMatcher D).counter + 1) hinj hfails
      (le_of_eq (newMatcher_extent D).symm) I (NewMatcher D).trie 0 [] []
      (SameShape.rfl _) (stateInv_nil hp.wf)
      (fun i => by
        constructor
        · intro h
          rw [hz i, newMatcher_counter] at h
          exact absurd h (by simp)
        · intro h
          exact absurd h (hM0 i))
      (fun x => by
        constructor
        · intro h
          exact absurd h (List.not_mem_nil x)
        · rintro ⟨i, hM, _⟩
          exact absurd hM (hM0 i))
      List.nodup_nil
  have hmatch : (NewMatcher D).Match I =
      some (hits', { NewMatcher D with counter := (NewMatcher D).counter + 1, trie := t' }) := by
    rw [Matcher.Match]
    dsimp only
    rw [hloop]
  refine ⟨hits', _, hmatch, hnd, fun x => ?_⟩
  have hht' := hht x
  rw [List.nil_append] at hht'
  rw [hht']
  exact newMatcher_matched_iff D I x

/-- **C1, amended.**  On a fresh matcher, `Match` always returns, and the
returned list reports, without duplicates, exactly one index per distinct
nonempty dictionary word that occurs (by brute-force substring search) in
the input: the index of that word's last position in the dictionary.
Contrary to the claim, repeated occurrences of the same word are NOT
repeated in the output (the per-call counter stamp suppresses them), and a
word duplicated in the dictionary is reported under its last index only. -/
theorem c1_amended (D : List (List Nat)) (I : List Nat) :
    ∃ hits m', (NewMatcher D).Match I = some (hits, m') ∧ hits.Nodup ∧
      ∀ x, x ∈ hits ↔ ∃ p, p ≠ [] ∧ lastPos D p = some x ∧ occursIn p I :=
  newMatcher_match_spec D I

/-- **C2, code bug.**  The claim (and the spec's round-trip property) says
that when no pattern occurs, `Replace` with `doReplace=true` returns the
input unchanged.  For the empty dictionary and the one-byte input `"a"`
(where no pattern can occur), the code returns the empty string instead:
the final tail copy is guarded by `lastIndex < len(in)-1`, which is false
for `lastIndex = 0` and a one-byte input, so the last byte is dropped.  The
hit report is empty and the error nil, as claimed. -/
theorem c2_code_bug :
    ((NewMatcher []).Replace [97] [42] true EnumHitTypeWord).map Prod.fst =
      some ([], .word [], none) ∧
    ([] : List Nat) ≠ [97] := by
  refine ⟨by decide, by decide⟩

/-- **C3, counterexample.**  The claim says that in word-list mode a
pattern matching at two different input positions appears twice in the
reported word list.  For the dictionary `["a"]` and input `"aa"` the
pattern matches at both positions (brute force finds two occurrences), but
the word list contains a single entry: the per-call stamp set at the first
position suppresses the report at the second position as well, not only
double counting within one position's suffix-chain walk. -/
theorem c3_counterexample :
    ((NewMatcher [[97]]).Replace [97, 97] [] false EnumHitTypeWord).map Prod.fst =
      some ([], .word [[97]], none) ∧
    bruteOccurrences [[97]] [97, 97] = [(0, 0), (0, 1)] := by
  refine ⟨by decide, by decide⟩

/-- **C4, counterexample.**  The claim says that for the dictionary
`["he", "she", "his", "hers"]` and input `"ahishers"`, `Match` does not
report `"she"`.  In fact `"ahishers"` contains `"she"` ending at byte
position 5, and `Match` reports its index 1 (the full result is
`[2, 1, 0, 3]`). -/
theorem c4_counterexample :
    (((NewMatcher [[104, 101], [115, 104, 101], [104, 105, 115], [104, 101, 114, 115]]).Match
        [97, 104, 105, 115, 104, 101, 114, 115]).map Prod.fst) = some [2, 1, 0, 3] ∧
    patternEndsAt [115, 104, 101] [97, 104, 105, 115, 104, 101, 114, 115] 5 = true ∧
    (1 : Nat) ∈ [2, 1, 0, 3] := by
  refine ⟨by decide, by decide, by decide⟩

/-- **C4, amended.**  For the dictionary `["he", "she", "his", "hers"]` and
input `"ahishers"`, `Match` reports exactly the patterns `"his"`, `"she"`,
`"he"`, `"hers"` (indices `[2, 1, 0, 3]` in discovery order); this agrees
with brute force, which finds `"he"` ending at 5, `"she"` ending at 5,
`"his"` ending at 3 and `"hers"` ending at 7 — `"she"` is a substring and
is reported. -/
theorem c4_amended :
    (((NewMatcher [[104, 101], [115, 104, 101], [104, 105, 115], [104, 101, 114, 115]]).Match
        [97, 104, 105, 115, 104, 101, 114, 115]).map Prod.fst) = some [2, 1, 0, 3] ∧
    bruteOccurrences [[104, 101], [115, 104, 101], [104, 105, 115], [104, 101, 114, 115]]
        [97, 104, 105, 115, 104, 101, 114, 115] = [(0, 5), (1, 5), (2, 3), (3, 7)] := by
  refine ⟨by decide, by decide⟩

/-- **C5.**  For each applied span the replacement token is emitted exactly
once per codepoint of the matched word: the built output's length accounts
`runeCount word * repl.length` bytes per span (first conjunct, for every
span list), the concrete scenario `["cat"]`, `"the cat sat"`, token `"*"`
produces `"the *** sat"`, and a two-byte single-codepoint pattern (`"é"`)
is replaced by a single token, not two. -/
theorem c5_replacement_runecount :
    (∀ (inB repl : List Nat) (spans : List (Nat × List Nat)) (lastIndex : Nat) (out : List Nat),
      (buildOutLoop inB repl spans lastIndex out).1.length =
        out.length + spansGapSum inB spans lastIndex +
          (spans.map fun s => runeCount s.2 * repl.length).sum) ∧
    ((NewMatcher [[99, 97, 116]]).Replace [116, 104, 101, 32, 99, 97, 116, 32, 115, 97, 116]
        [42] true EnumHitTypeNone).map Prod.fst =
      some ([116, 104, 101, 32, 42, 42, 42, 32, 115, 97, 116], .noHits, none) ∧
    runeCount [195, 169] = 1 ∧ ([195, 169] : List Nat).length = 2 ∧
    ((NewMatcher [[195, 169]]).Replace [195, 169, 32, 120, 121] [42] true
        EnumHitTypeNone).map Prod.fst =
      some ([42, 32, 120, 121], .noHits, none) := by
  refine ⟨buildOutLoop_length, by decide, by decide, by decide, by decide⟩

/-- **C10.**  `Replace` increments the call counter before hit-mode
validation: a call that fails validation (hit mode `None` without
`doReplace`, or an unrecognized hit mode) still returns a matcher whose
counter has grown by one, while the trie (including all node stamps), the
extent, the transition table and the dictionary are exactly those of the
receiver, and the call returns empty output and no hit report. -/
theorem c10_error_frame (m : Matcher) (inB repl : List Nat) (isRep : Bool) (ht : Int)
    (h : (ht = EnumHitTypeNone ∧ isRep = false) ∨
      (ht ≠ EnumHitTypeNone ∧ ht ≠ EnumHitTypeWord ∧ ht ≠ EnumHitTypeWordCount ∧
        ht ≠ EnumHitTypeWordIndex ∧ ht ≠ EnumHitTypeIndexWord)) :
    ∃ msg, m.Replace inB repl isRep ht =
      some (([], .noHits, some msg),
        { counter := m.counter + 1, trie := m.trie, extent := m.extent,
          fails := m.fails, dictionary := m.dictionary }) := by
  rcases h with ⟨h0, h1⟩ | ⟨h0, h1, h2, h3, h4⟩
  · exact ⟨"match not support hittype none", by simp [Matcher.Replace, h0, h1]⟩
  · exact ⟨"hit type not support", by simp [Matcher.Replace, h0, h1, h2, h3, h4]⟩

/-- Witness for C10 at a concrete erroring call. -/
theorem c10_error_frame_witness :
    ∃ msg, (NewMatcher [[97]]).Replace [97] [42] false EnumHitTypeNone =
      some (([], .noHits, some msg),
        { counter := (NewMatcher [[97]]).counter + 1, trie := (NewMatcher [[97]]).trie,
          extent := (NewMatcher [[97]]).extent, fails := (NewMatcher [[97]]).fails,
          dictionary := (NewMatcher [[97]]).dictionary }) :=
  c10_error_frame (NewMatcher [[97]]) [97] [42] false EnumHitTypeNone
    (Or.inl ⟨rfl, rfl⟩)

/-- **C8.**  Calling `Match` twice in succession on the same matcher with
the same input yields identical hit sequences: the stamps left by the first
call are all at most its call counter, so they can never equal the second
call's strictly larger counter and thus never suppress or alter a report.
The hypothesis states the matcher's standing invariant that no node stamp
exceeds the call counter (it holds for a freshly built matcher, where all
stamps and the counter are zero, and is preserved by every call). -/
theorem c8_match_idempotent (m : Matcher) (I : List Nat) (h₁ : List Nat) (m₁ : Matcher)
    (hstamps : ∀ i, i < m.trie.length → (nodeAt m.trie i).counter ≤ m.counter)
    (hm : m.Match I = some (h₁, m₁)) :
    ∃ h₂ m₂, m₁.Match I = some (h₂, m₂) ∧ h₂ = h₁ := by
  rcases e : matchLoop (m.counter + 1) m.extent m.fails m.trie 0 [] I with _ | p
  · rw [Matcher.Match, e] at hm
    exact absurd hm (by simp)
  · rw [Matcher.Match, e] at hm
    dsimp only at hm
    obtain ⟨hh, hmm⟩ : p.2.2 = h₁ ∧ ({ m with counter := m.counter + 1, trie := p.1 } : Matcher) = m₁ := by
      have := Option.some.inj hm
      exact ⟨congrArg Prod.fst this, congrArg Prod.snd this⟩
    obtain ⟨hsh, hcnt⟩ := matchLoop_post I m.trie 0 [] p.1 p.2.1 p.2.2 e
    have hst : StampRel (m.counter + 1) (m.counter + 2) m.trie p.1 := by
      intro i
      constructor
      · intro hx
        exfalso
        rcases Nat.lt_or_ge i m.trie.length with hi | hi
        · exact absurd (hx ▸ hstamps i hi) (by omega)
        · rw [nodeAt_of_length_le hi] at hx
          exact absurd hx.symm (by simp)
      · intro hx
        exfalso
        rcases hcnt i with h0 | h0
        · rcases Nat.lt_or_ge i m.trie.length with hi | hi
          · have := hstamps i hi
            omega
          · rw [nodeAt_of_length_le hi] at h0
            rw [h0] at hx
            exact absurd hx.symm (by simp)
        · omega
    rcases matchLoop_rel I m.trie p.1 0 [] hsh hst with ⟨r₁, r₂⟩ | ⟨u₁, u₂, n', hs, r₁, r₂, _, _⟩
    · rw [e] at r₁
      exact absurd r₁ (by simp)
    · rw [e] at r₁
      obtain ⟨hu, hn, hhits⟩ : p.1 = u₁ ∧ p.2.1 = n' ∧ p.2.2 = hs := by
        have h0 := Option.some.inj r₁
        refine ⟨congrArg Prod.fst h0, ?_, ?_⟩
        · exact congrArg Prod.fst (congrArg Prod.snd h0)
        · exact congrArg Prod.snd (congrArg Prod.snd h0)
      refine ⟨hs, { m₁ with counter := m₁.counter + 1, trie := u₂ }, ?_, (hhits.symm.trans hh)⟩
      rw [Matcher.Match]
      have hext : m₁.extent = m.extent := by rw [← hmm]
      have hfails : m₁.fails = m.fails := by rw [← hmm]
      have htrie : m₁.trie = p.1 := by rw [← hmm]
      have hcounter : m₁.counter = m.counter + 1 := by rw [← hmm]
      rw [hext, hfails, htrie, hcounter, hu]
      rw [show m.counter + 1 + 1 = m.counter + 2 from rfl]
      rw [hu] at r₂
      rw [r₂]

/-- Witness for C8: a freshly built one-pattern matcher satisfies the stamp
invariant, the first call succeeds, and the second call reproduces its
hits. -/
theorem c8_match_idempotent_witness :
    ∃ h₁ m₁, (NewMatcher [[97]]).Match [97, 97] = some (h₁, m₁) ∧
      ∃ h₂ m₂, m₁.Match [97, 97] = some (h₂, m₂) ∧ h₂ = h₁ := by
  have hstamps : ∀ i, i < (NewMatcher [[97]]).trie.length →
      (nodeAt (NewMatcher [[97]]).trie i).counter ≤ (NewMatcher [[97]]).counter := by decide
  rcases e : (NewMatcher [[97]]).Match [97, 97] with _ | ⟨a, b⟩
  · have hx : ((NewMatcher [[97]]).Match [97, 97]).map Prod.fst = some [0] := by decide
    rw [e] at hx
    exact absurd hx (by simp)
  · exact ⟨a, b, rfl, c8_match_idempotent (NewMatcher [[97]]) [97, 97] a b hstamps e⟩

/-- **C7.**  After construction, for every allocated node `i` and every byte
`c`, the precomputed transition `fails i c` is defined and non-nil: it is
`some j` for an allocated `j` whose path is a suffix of `i`'s path, `j` has
a child for `c` or is the root, and if no suffix-node of `i`'s path at all
has a child for `c` then `j` is the root.  Consequently the scan loops
never hit a nil transition: `Match` and `Replace` always return a result. -/
theorem c7_transitions_total (D : List (List Nat)) (I repl : List Nat)
    (isRep : Bool) (ht : Int) :
    (∀ i c, i < (NewMatcher D).trie.length →
      ∃ j, (NewMatcher D).fails i c = some j ∧ j < (NewMatcher D).trie.length ∧
        (nodeAt (NewMatcher D).trie j).b <:+ (nodeAt (NewMatcher D).trie i).b ∧
        ((nodeAt (NewMatcher D).trie j).child c ≠ none ∨ j = 0) ∧
        ((∀ s k, s <:+ (nodeAt (NewMatcher D).trie i).b →
            findBlice (NewMatcher D).trie s = some k →
            (nodeAt (NewMatcher D).trie k).child c = none) → j = 0)) ∧
    (NewMatcher D).Match I ≠ none ∧
    (NewMatcher D).Replace I repl isRep ht ≠ none := by
  refine ⟨?_, ?_, ?_⟩
  · intro i c hi
    obtain ⟨j, hj, hjl, hsuf, hcor, _⟩ := newMatcher_failsSpec D i c hi
    refine ⟨j, hj, hjl, hsuf, hcor, ?_⟩
    intro hno
    rcases hcor with hch | h0
    · exact absurd
        (hno (nodeAt (NewMatcher D).trie j).b j hsuf ((newMatcher_postWf D).wf.path j hjl))
        hch
    · exact h0
  · obtain ⟨hits, m', hm, _⟩ := newMatcher_match_spec D I
    rw [hm]
    simp
  · rw [Matcher.Replace]
    by_cases h1 : ht = EnumHitTypeNone ∧ isRep = false
    · rw [if_pos h1]
      simp
    · rw [if_neg h1]
      by_cases h2 : ht ≠ EnumHitTypeNone ∧ ht ≠ EnumHitTypeWord ∧
          ht ≠ EnumHitTypeWordCount ∧ ht ≠ EnumHitTypeWordIndex ∧ ht ≠ EnumHitTypeIndexWord
      · rw [if_pos h2]
        simp
      · rw [if_neg h2]
        dsimp only
        obtain ⟨st', n', hloop, _, _⟩ := replaceLoop_total (newMatcher_postWf D)
          ((NewMatcher D).counter + 1) (newMatcher_failsSpec D)
          (le_of_eq (newMatcher_extent D).symm) isRep ht I I
          { trie := (NewMatcher D).trie, hits := [], hitsWord := [], hitsWordCount := []
            hitsWordIndex := [], hitsIndexWord := [] } 0 0
          (SameShape.rfl _) (newMatcher_postWf D).wf.nonempty
        rw [hloop]
        simp

/-- **C3, amended.**  In word-list mode `Replace` always returns a word
list, and that list is exactly `Match`'s hit sequence in the same scan
order with each reported index replaced by its dictionary word; hence it
lists exactly the distinct nonempty pattern texts that occur in the input
(brute force), each exactly once.  Contrary to the claim, the per-call
stamp suppresses re-reports of the same terminal node across the WHOLE
call, not only within one position's suffix-chain walk, so a pattern
matching at two different input positions appears only once. -/
theorem c3_amended (D : List (List Nat)) (I repl : List Nat) (isRep : Bool) :
    ∃ out ws m', (NewMatcher D).Replace I repl isRep EnumHitTypeWord =
        some ((out, HitsResult.word ws, none), m') ∧
      (∃ hits m'', (NewMatcher D).Match I = some (hits, m'') ∧
        ws = hits.map fun x => D.getD x []) ∧
      ws.Nodup ∧
      (∀ w, w ∈ ws ↔ w ≠ [] ∧ (∃ x, lastPos D w = some x) ∧ occursIn w I) := by
  obtain ⟨hits, m'', hm0, hnd, hmem⟩ := newMatcher_match_spec D I
  have hm := hm0
  rcases e : matchLoop ((NewMatcher D).counter + 1) (NewMatcher D).extent
      (NewMatcher D).fails (NewMatcher D).trie 0 [] I with _ | ⟨t', n', hl⟩
  · rw [Matcher.Match, e] at hm
    exact absurd hm (by simp)
  · rw [Matcher.Match, e] at hm
    dsimp only at hm
    have hhits : hl = hits := congrArg Prod.fst (Option.some.inj hm)
    have hg : ∀ k, k < (NewMatcher D).trie.length →
        (nodeAt (NewMatcher D).trie k).output = true →
        (fun x => D.getD x []) ((nodeAt (NewMatcher D).trie k).index) =
          (nodeAt (NewMatcher D).trie k).b := by
      intro k hk hout
      have hk' := (newMatcher_outSpec D).1 k hk
      rw [newMatcher_assign] at hk'
      cases lp : lastPos D (nodeAt (NewMatcher D).trie k).b with
      | none =>
        rw [lp] at hk'
        dsimp only at hk'
        rw [hk'] at hout
        exact absurd hout (by simp)
      | some q =>
        rw [lp] at hk'
        dsimp only at hk'
        dsimp only
        rw [hk'.2]
        exact getD_of_get? (lastPos_get? D _ q lp).1
    obtain ⟨st', hrloop, hrt, hrw⟩ := replaceLoop_sim (newMatcher_postWf D)
      (fun x => D.getD x []) hg ((NewMatcher D).counter + 1) (NewMatcher D).extent
      (NewMatcher D).fails isRep I I
      { trie := (NewMatcher D).trie, hits := [], hitsWord := [], hitsWordCount := []
        hitsWordIndex := [], hitsIndexWord := [] } 0 0 [] t' n' hl
      (by exact e) (SameShape.rfl _) rfl
    rw [Matcher.Replace]
    rw [if_neg (by rintro ⟨h, _⟩; exact absurd h (by decide))]
    rw [if_neg (by rintro ⟨_, h, _⟩; exact h rfl)]
    dsimp only
    rw [hrloop]
    dsimp only
    rw [selectHits_word]
    have hws : st'.hitsWord = hits.map fun x => D.getD x [] := by
      rw [hrw, hhits]
    refine ⟨_, st'.hitsWord, _, rfl, ⟨hits, m'', hm0, hws⟩, ?_, ?_⟩
    · rw [hws]
      refine List.Nodup.map_on ?_ hnd
      intro x hx y hy hxy
      obtain ⟨p, hpne, hpl, _⟩ := (hmem x).mp hx
      obtain ⟨q, hqne, hql, _⟩ := (hmem y).mp hy
      have hp' : D.getD x [] = p := getD_of_get? (lastPos_get? D p x hpl).1
      have hq' : D.getD y [] = q := getD_of_get? (lastPos_get? D q y hql).1
      rw [hp', hq'] at hxy
      subst hxy
      rw [hpl] at hql
      exact Option.some.inj hql
    · intro w
      rw [hws]
      constructor
      · intro hw
        rw [List.mem_map] at hw
        obtain ⟨x, hx, hgx⟩ := hw
        obtain ⟨p, hpne, hpl, hocc⟩ := (hmem x).mp hx
        have hp' : D.getD x [] = p := getD_of_get? (lastPos_get? D p x hpl).1
        rw [hp'] at hgx
        subst hgx
        exact ⟨hpne, ⟨x, hpl⟩, hocc⟩
      · rintro ⟨hwne, ⟨x, hxl⟩, hocc⟩
        rw [List.mem_map]
        refine ⟨x, (hmem x).mpr ⟨w, hwne, hxl, hocc⟩, ?_⟩
        exact getD_of_get? (lastPos_get? D w x hxl).1

/-- **C9.**  Last-write-wins for duplicate dictionary patterns: on a fresh
matcher, whenever `lastPos D p = some x` (the last dictionary position of
the pattern text `p`), the trie node reached by walking `p` is an output
node whose stored `index` is `x`; and concretely, for the duplicate
dictionary `["ab", "ab"]` and input `"ab"`, `Match` reports the single
occurrence with index 1. -/
theorem c9_last_write_wins (D : List (List Nat)) (p : List Nat) (x k : Nat) :
    (lastPos D p = some x → findBlice (NewMatcher D).trie p = some k →
      (nodeAt (NewMatcher D).trie k).output = true ∧
      (nodeAt (NewMatcher D).trie k).index = x) ∧
    ((NewMatcher [[97, 98], [97, 98]]).Match [97, 98]).map Prod.fst = some [1] := by
  constructor
  · intro hlast hfb
    have hassign : overrideAll (fun _ => none) 0 D p = some x := by
      rw [newMatcher_assign, hlast]
    obtain ⟨hkl, hkb⟩ := (newMatcher_postWf D).wf.findBlice_b hfb
    have hk' := (newMatcher_outSpec D).1 k hkl
    rw [hkb, hassign] at hk'
    dsimp only at hk'
    exact hk'
  · decide

/-- **C6.**  `Replace` always returns a result; its error component is
non-nil exactly in the two claimed cases — hit mode None with
`doReplace=false`, and a hit-mode value outside the five defined enum
values — and in both error cases the output text is empty and there is no
hit report. -/
theorem c6_error_cases (D : List (List Nat)) (I repl : List Nat) (isRep : Bool)
    (ht : Int) :
    ∃ out hits err m', (NewMatcher D).Replace I repl isRep ht =
        some ((out, hits, err), m') ∧
      (err ≠ none ↔ ((ht = EnumHitTypeNone ∧ isRep = false) ∨
        (ht ≠ EnumHitTypeNone ∧ ht ≠ EnumHitTypeWord ∧ ht ≠ EnumHitTypeWordCount ∧
          ht ≠ EnumHitTypeWordIndex ∧ ht ≠ EnumHitTypeIndexWord))) ∧
      (err ≠ none → out = [] ∧ hits = HitsResult.noHits) := by
  rw [Matcher.Replace]
  by_cases h1 : ht = EnumHitTypeNone ∧ isRep = false
  · rw [if_pos h1]
    refine ⟨[], .noHits, some "match not support hittype none", _, rfl, ?_, ?_⟩
    · constructor
      · intro _
        exact Or.inl h1
      · intro _
        simp
    · intro _
      exact ⟨rfl, rfl⟩
  · rw [if_neg h1]
    by_cases h2 : ht ≠ EnumHitTypeNone ∧ ht ≠ EnumHitTypeWord ∧
        ht ≠ EnumHitTypeWordCount ∧ ht ≠ EnumHitTypeWordIndex ∧ ht ≠ EnumHitTypeIndexWord
    · rw [if_pos h2]
      refine ⟨[], .noHits, some "hit type not support", _, rfl, ?_, ?_⟩
      · constructor
        · intro _
          exact Or.inr h2
        · intro _
          simp
      · intro _
        exact ⟨rfl, rfl⟩
    · rw [if_neg h2]
      dsimp only
      obtain ⟨st', n', hloop, _, _⟩ := replaceLoop_total (newMatcher_postWf D)
        ((NewMatcher D).counter + 1) (newMatcher_failsSpec D)
        (le_of_eq (newMatcher_extent D).symm) isRep ht I I
        { trie := (NewMatcher D).trie, hits := [], hitsWord := [], hitsWordCount := []
          hitsWordIndex := [], hitsIndexWord := [] } 0 0
        (SameShape.rfl _) (newMatcher_postWf D).wf.nonempty
      rw [hloop]
      dsimp only
      refine ⟨_, _, none, _, rfl, ?_, ?_⟩
      · constructor
        · intro h
          exact absurd rfl h
        · rintro (h | h)
          · exact absurd h h1
          · exact absurd h h2
      · intro h
        exact absurd rfl h

end Ahocorasick
